import Mathlib

set_option maxRecDepth 160000

/-!
Verification of the dependency-analysis engine in `src/lib/analysis.ts`
(repository `codeatlas`).

The development is a shallow embedding: the TypeScript functions of
`analysis.ts` are translated into executable Lean definitions (pure
functions become Lean functions, the in-place mutation of the node array
across passes becomes explicit state passing, JavaScript numbers become
`Nat`/`Int`/`ℚ`, fallible I/O becomes `Option`), and the properties of the
specification are proved about those definitions.

Conventions used throughout:
* Strings are processed as their underlying character lists (`String.data`)
  so that every definition reduces inside the kernel.
* JavaScript regular expressions used by the source are translated into
  explicit character-list matchers with the same matching semantics
  (leftmost match, global scan resuming after each match, case folding
  where the source uses the `i` flag).
* The process-wide content cache of the source only memoises file reads;
  semantically a read through the cache returns the file's content (or ""
  on a read failure), which is how reads are modelled here.
-/

namespace CodeAtlas

/-- Single quote character, kept out of string literals. -/
def sq : Char := Char.ofNat 39

/-- Double quote character. -/
def dq : Char := Char.ofNat 34

/-- Backtick character (used by the SQL-injection pattern of the source). -/
def btick : Char := Char.ofNat 96

/-- Opening brace character (used by the `${'...'}` interpolation pattern). -/
def obrace : Char := Char.ofNat 123

/-- JavaScript `\s` white-space class, restricted to the ASCII white-space
characters that can actually occur in the analysed text. -/
def isWs (c : Char) : Bool :=
  c = ' ' || c = '\t' || c = '\n' || c = '\r' || c = Char.ofNat 11 || c = Char.ofNat 12

/-- JavaScript `\w` word-character class `[A-Za-z0-9_]`. -/
def isWordChar (c : Char) : Bool :=
  c.isAlpha || c.isDigit || c = '_'

/-- Model of JavaScript `String.prototype.split` with a single-character
separator: `"a,b".split(",") = ["a","b"]`, `"".split(",") = [""]`. -/
def splitOnChar (sep : Char) : List Char → List (List Char)
  | [] => [[]]
  | c :: cs =>
    let r := splitOnChar sep cs
    if c = sep then [] :: r
    else
      match r with
      | [] => [[c]]
      | l :: ls => (c :: l) :: ls

/-- Model of JavaScript `String.prototype.trim` on a character list. -/
def jsTrim (l : List Char) : List Char :=
  ((l.dropWhile isWs).reverse.dropWhile isWs).reverse

/-- ASCII-lower-case a character list (JS `toLowerCase` on the identifiers
and paths handled by the analyser, which are ASCII). -/
def lowerList (l : List Char) : List Char := l.map Char.toLower

/-- Does `pat` occur as a contiguous sublist of `l`?  (JS `String.includes`.) -/
def containsSub (pat : List Char) : List Char → Bool
  | [] => pat.isPrefixOf []
  | c :: cs => pat.isPrefixOf (c :: cs) || containsSub pat cs

/-- Case-insensitive `containsSub`. -/
def containsSubCI (pat l : List Char) : Bool :=
  containsSub (lowerList pat) (lowerList l)

/-- First-occurrence string replacement, as JavaScript
`String.prototype.replace` with a plain-string pattern.  Used by the scanner
for `fullPath.replace(rootPath, "")` (with an empty replacement). -/
def replaceFirst (pat : List Char) : List Char → List Char
  | [] => []
  | c :: cs =>
    if pat.isPrefixOf (c :: cs) ∧ pat ≠ [] then (c :: cs).drop pat.length
    else c :: replaceFirst pat cs

/-- Association-list map with JavaScript `Map` get/set semantics: `mapSet`
prepends, `mapGet` returns the most recent binding (last `set` wins). -/
def mapSet {α β : Type} (m : List (α × β)) (k : α) (v : β) : List (α × β) :=
  (k, v) :: m

/-- Lookup in a `mapSet`-built association list. -/
def mapGet {α β : Type} [DecidableEq α] (m : List (α × β)) (k : α) : Option β :=
  (m.find? (fun p => p.1 = k)).map (·.2)

/-- JavaScript `Array.from(new Set(list))`: deduplicate keeping the first
occurrence of each element, preserving order. -/
def dedupFirst {α : Type} [DecidableEq α] (l : List α) : List α :=
  l.foldl (fun acc s => if s ∈ acc then acc else acc ++ [s]) []

/-- Stable descending sort by a numeric key; models the V8 stable
`array.sort((a, b) => key(b) - key(a))` used for the fan-in/fan-out
rankings. -/
def sortByKeyDesc {α : Type} (key : α → Nat) (l : List α) : List α :=
  l.insertionSort (fun a b => key b ≤ key a)

/-- `Math.round(total / n)` for an integer numerator and a positive natural
denominator: `⌊total/n + 1/2⌋` computed exactly with floor division. -/
def mathRoundDiv (total : Int) (n : Nat) : Int :=
  Int.fdiv (2 * total + n) (2 * n)

-- ───────────────────────────────────────────────────────────────────
-- Generic pattern scanning (model of global JS regex matching)
-- ───────────────────────────────────────────────────────────────────

/-- One step of a matcher: given the character immediately before the
current position (`none` at the start of input) and the remaining input,
return the number of characters the pattern consumes at this position (the
matchers below always consume at least one character on success). -/
def Matcher : Type := Option Char → List Char → Option Nat

/-- Count the non-overlapping matches of `m`, scanning left to right and
resuming after each match — the semantics of a global JS regex `match`
count.  `fuel` bounds the recursion; it is instantiated with the input
length, which suffices because every successful match consumes at least one
character. -/
def countScan (m : Matcher) : Nat → Option Char → List Char → Nat
  | 0, _, _ => 0
  | _ + 1, _, [] => 0
  | fuel + 1, prev, c :: cs =>
    match m prev (c :: cs) with
    | some k => 1 + countScan m fuel ((c :: cs).get? (k - 1)) ((c :: cs).drop k)
    | none => countScan m fuel (some c) cs

/-- Count matches of `m` in a whole input. -/
def countMatches (m : Matcher) (l : List Char) : Nat :=
  countScan m (l.length + 1) none l

/-- Does `m` match at some position of the input?  (JS `regex.test`.) -/
def anyMatch (m : Matcher) : Option Char → List Char → Bool
  | prev, [] => (m prev []).isSome
  | prev, c :: cs => (m prev (c :: cs)).isSome || anyMatch m (some c) cs

/-- `anyMatch` started at the beginning of the input. -/
def testMatch (m : Matcher) (l : List Char) : Bool :=
  anyMatch m none l

/-- Word boundary `\b` immediately before a word character, decided from
the preceding character. -/
def boundaryBefore : Option Char → Bool
  | none => true
  | some c => !isWordChar c

/-- Word boundary `\b` immediately after a word character, decided from the
remaining input. -/
def boundaryAfter : List Char → Bool
  | [] => true
  | c :: _ => !isWordChar c

/-- Matcher for `\bkw\b` where `kw` is a fixed word. -/
def kwMatcher (kw : List Char) : Matcher := fun prev l =>
  if boundaryBefore prev ∧ kw.isPrefixOf l ∧ boundaryAfter (l.drop kw.length) then
    some kw.length
  else none

/-- Matcher for a fixed literal (no boundaries), e.g. `&&` and `||`. -/
def litMatcher (lit : List Char) : Matcher := fun _ l =>
  if lit.isPrefixOf l then some lit.length else none

/-- Matcher for the ternary pattern `\?\s*[^:]*\s*:` of the source: after a
`?`, the greedy `[^:]*` (which cannot cross a `:`) makes the match extend
exactly to the first following `:`; the match fails when no `:` follows. -/
def ternaryMatcher : Matcher := fun _ l =>
  match l with
  | '?' :: rest =>
    match rest.findIdx? (· = ':') with
    | some j => some (1 + j + 1)
    | none => none
  | _ => none

/-- Matcher for `\belse\s+if\b`. -/
def elseIfMatcher : Matcher := fun prev l =>
  if boundaryBefore prev ∧ ("else".data).isPrefixOf l then
    let rest := l.drop 4
    let wsCount := (rest.takeWhile isWs).length
    if wsCount ≥ 1 ∧ ("if".data).isPrefixOf (rest.drop wsCount) ∧
        boundaryAfter (rest.drop (wsCount + 2)) then
      some (4 + wsCount + 2)
    else none
  else none

-- ───────────────────────────────────────────────────────────────────
-- Code metrics (model of `calculateCodeMetrics`)
-- ───────────────────────────────────────────────────────────────────

/-- The decision-point patterns summed by `calculateCodeMetrics`:
`\bif\b`, `\belse\s+if\b`, `\bfor\b`, `\bwhile\b`, `\bswitch\b`, `\bcase\b`,
`\bcatch\b`, `&&`, `||`, the ternary pattern, `\bmatch\b`, `\belif\b`,
`\bexcept\b`. -/
def complexityMatchers : List Matcher :=
  [ kwMatcher "if".data
  , elseIfMatcher
  , kwMatcher "for".data
  , kwMatcher "while".data
  , kwMatcher "switch".data
  , kwMatcher "case".data
  , kwMatcher "catch".data
  , litMatcher "&&".data
  , litMatcher "||".data
  , ternaryMatcher
  , kwMatcher "match".data
  , kwMatcher "elif".data
  , kwMatcher "except".data ]

/-- The comment-line markers recognised by `calculateCodeMetrics`:
`//`, `#`, `/*`, `*`, `--`, `'''`, `"""`. -/
def commentMarkers : List (List Char) :=
  [ "//".data, "#".data, "/*".data, "*".data, "--".data
  , [sq, sq, sq], [dq, dq, dq] ]

/-- Is the trimmed line a comment line (its trimmed content starts with one
of the recognised markers)? -/
def isCommentLine (l : List Char) : Bool :=
  commentMarkers.any (fun m => m.isPrefixOf (jsTrim l))

/-- Result record of `calculateCodeMetrics`.  The source stores the comment
ratio as a floating-point number; here the exact numerator (`commentLines`)
is stored and the ratio is the derived exact rational
`CodeMetrics.commentRatio` below, so that all later comparisons are exact
integer arithmetic. -/
structure CodeMetrics where
  linesOfCode : Nat
  cyclomaticComplexity : Nat
  commentLines : Nat
deriving DecidableEq, Repr

/-- The comment ratio: `commentLines / linesOfCode`, `0` when there are no
lines of code — exactly the guarded division of the source. -/
def CodeMetrics.commentRatio (m : CodeMetrics) : ℚ :=
  if 0 < m.linesOfCode then (m.commentLines : ℚ) / (m.linesOfCode : ℚ) else 0

/-- Model of `calculateCodeMetrics`. -/
def calculateCodeMetrics (content : String) : CodeMetrics :=
  let lines := splitOnChar '\n' content.data
  let linesOfCode := (lines.filter (fun l => 0 < (jsTrim l).length)).length
  let cyclomaticComplexity :=
    1 + complexityMatchers.foldl (fun s m => s + countMatches m content.data) 0
  let commentLines := (lines.filter isCommentLine).length
  { linesOfCode := linesOfCode
  , cyclomaticComplexity := cyclomaticComplexity
  , commentLines := commentLines }

-- ───────────────────────────────────────────────────────────────────
-- Security scanning (model of `scanForSecurityIssues`)
-- ───────────────────────────────────────────────────────────────────

/-- Insight categories emitted by the scanner. -/
inductive InsightType where
  | hardcodedSecret
  | unsafeEval
  | sqlInjectionRisk
deriving DecidableEq, Repr

/-- Insight severities. -/
inductive Severity where
  | info
  | warning
  | critical
deriving DecidableEq, Repr

/-- One security insight: category, file path, 1-based line number,
severity and message. -/
structure SecurityInsight where
  type : InsightType
  filePath : String
  line : Nat
  severity : Severity
  message : String
deriving DecidableEq, Repr

/-- Case-insensitive fixed-word matcher fragment: consume `kw` (given
lower-cased, compared against the lower-cased input) from the input,
returning the rest. -/
def eatCI : List Char → List Char → Option (List Char)
  | [], l => some l
  | _ :: _, [] => none
  | k :: ks, c :: cs => if c.toLower = k then eatCI ks cs else none

/-- The credential-keyword alternation `api[_-]?key|secret|password|token|auth|credential`
(case-insensitive): try to consume one alternative at the current position. -/
def eatSecretKeyword (l : List Char) : Option (List Char) :=
  match eatCI "api".data l with
  | some r =>
    let r' := match r with
      | c :: rest => if c = '_' ∨ c = '-' then rest else r
      | [] => r
    match eatCI "key".data r' with
    | some r'' => some r''
    | none => eatAlts l
  | none => eatAlts l
where
  /-- The non-`api` alternatives. -/
  eatAlts (l : List Char) : Option (List Char) :=
    match eatCI "secret".data l with
    | some r => some r
    | none =>
      match eatCI "password".data l with
      | some r => some r
      | none =>
        match eatCI "token".data l with
        | some r => some r
        | none =>
          match eatCI "auth".data l with
          | some r => some r
          | none => eatCI "credential".data l

/-- Matcher for the hardcoded-secret pattern
`(?:api[_-]?key|secret|password|token|auth|credential)\s*[:=]\s*['"][^'"]{8,}`
(case-insensitive).  Only existence of a match is used (`regex.test`), so
the returned length is not significant beyond being positive. -/
def secretMatcher : Matcher := fun _ l =>
  match eatSecretKeyword l with
  | none => none
  | some r1 =>
    let r2 := r1.dropWhile isWs
    match r2 with
    | c :: r3 =>
      if c = ':' ∨ c = '=' then
        let r4 := r3.dropWhile isWs
        match r4 with
        | q :: r5 =>
          if q = sq ∨ q = dq then
            if 8 ≤ (r5.takeWhile (fun c => !(c == sq || c == dq))).length then some 1
            else none
          else none
        | [] => none
      else none
    | [] => none

/-- The placeholder-marker exclusion
`example|placeholder|your[_-]|changeme|xxx|test` (case-insensitive). -/
def hasPlaceholderMarker (l : List Char) : Bool :=
  containsSubCI "example".data l || containsSubCI "placeholder".data l ||
  containsSubCI "your_".data l || containsSubCI "your-".data l ||
  containsSubCI "changeme".data l || containsSubCI "xxx".data l ||
  containsSubCI "test".data l

/-- The hardcoded-secret test of the source, per line. -/
def secretLineTest (l : List Char) : Bool :=
  testMatch secretMatcher l && !hasPlaceholderMarker l

/-- Matcher for `\beval\s*\(`. -/
def evalCallMatcher : Matcher := fun prev l =>
  if boundaryBefore prev ∧ ("eval".data).isPrefixOf l then
    let rest := (l.drop 4).dropWhile isWs
    match rest with
    | '(' :: _ => some 1
    | _ => none
  else none

/-- The unsafe-eval test of the source, per line: the pattern matches and
the trimmed line is not a `//` or `#` comment line. -/
def evalLineTest (l : List Char) : Bool :=
  testMatch evalCallMatcher l &&
  !(("//".data).isPrefixOf (jsTrim l)) && !(("#".data).isPrefixOf (jsTrim l))

/-- Tail of the SQL-injection pattern: `.*(?:\$\{|\+\s*\w)` — somewhere in
the rest of the line, either `${` occurs or a `+` followed by optional
white-space and a word character. -/
def sqlTail : List Char → Bool
  | [] => false
  | c :: cs =>
    (c == '$' && (match cs with
      | b :: _ => b == obrace
      | [] => false)) ||
    (c == '+' && (match cs.dropWhile isWs with
      | w :: _ => isWordChar w
      | [] => false)) ||
    sqlTail cs

/-- Matcher for `(?:query|execute|raw)\s*\(\s*[`'"]` followed by `sqlTail`
(case-sensitive, as in the source). -/
def sqlMatcher : Matcher := fun _ l =>
  let kw :=
    if ("query".data).isPrefixOf l then some (l.drop 5)
    else if ("execute".data).isPrefixOf l then some (l.drop 7)
    else if ("raw".data).isPrefixOf l then some (l.drop 3)
    else none
  match kw with
  | none => none
  | some r1 =>
    match r1.dropWhile isWs with
    | '(' :: r2 =>
      match r2.dropWhile isWs with
      | q :: r3 =>
        if (q = btick ∨ q = sq ∨ q = dq) ∧ sqlTail r3 then some 1 else none
      | [] => none
    | _ => none

/-- The SQL-injection test of the source, per line. -/
def sqlLineTest (l : List Char) : Bool :=
  testMatch sqlMatcher l

/-- The insights emitted for a single line (`i` is the 0-based index): the
three checks of the loop body of `scanForSecurityIssues`, in source order. -/
def lineIssues (filePath : String) (i : Nat) (l : List Char) : List SecurityInsight :=
  (if secretLineTest l then
    [{ type := InsightType.hardcodedSecret, filePath := filePath, line := i + 1
     , severity := Severity.critical
     , message := "Potential hardcoded secret detected" }]
   else []) ++
  (if evalLineTest l then
    [{ type := InsightType.unsafeEval, filePath := filePath, line := i + 1
     , severity := Severity.warning
     , message := "Usage of eval() — potential code injection risk" }]
   else []) ++
  (if sqlLineTest l then
    [{ type := InsightType.sqlInjectionRisk, filePath := filePath, line := i + 1
     , severity := Severity.warning
     , message := "Possible SQL injection via string interpolation" }]
   else [])

/-- Loop of `scanForSecurityIssues` over the lines, carrying the 0-based
line index. -/
def scanLines (filePath : String) : Nat → List (List Char) → List SecurityInsight
  | _, [] => []
  | i, l :: ls => lineIssues filePath i l ++ scanLines filePath (i + 1) ls

/-- Model of `scanForSecurityIssues`. -/
def scanForSecurityIssues (filePath : String) (content : String) : List SecurityInsight :=
  scanLines filePath 0 (splitOnChar '\n' content.data)

-- ───────────────────────────────────────────────────────────────────
-- Language parser registry (the data of `LANGUAGE_PARSERS`)
-- ───────────────────────────────────────────────────────────────────

/-- One language descriptor.  The regex import patterns and their two
extraction callbacks operate on raw file content and are exercised through
the import-extraction parameter of the analyser model (`AnalyzerParams`);
the structural data of the registry is reproduced here verbatim. -/
structure LanguageParser where
  name : String
  extensions : List String
  entryPoints : List String
  manifestFiles : List String
  skipDirs : List String
deriving DecidableEq, Repr

/-- The registry, in source order. -/
def LANGUAGE_PARSERS : List LanguageParser :=
  [ { name := "javascript"
    , extensions := [".ts", ".tsx", ".js", ".jsx", ".mjs", ".cjs"]
    , entryPoints := ["page.tsx", "page.jsx", "layout.tsx", "index.ts", "index.js",
        "index.tsx", "index.jsx", "App.tsx", "App.jsx", "main.ts", "main.js",
        "server.ts", "server.js"]
    , manifestFiles := ["package.json"]
    , skipDirs := ["node_modules", ".next", "dist", "build", ".turbo"] }
  , { name := "python"
    , extensions := [".py", ".pyw"]
    , entryPoints := ["main.py", "app.py", "manage.py", "wsgi.py", "asgi.py",
        "__main__.py", "setup.py"]
    , manifestFiles := ["requirements.txt", "pyproject.toml", "setup.py",
        "setup.cfg", "Pipfile"]
    , skipDirs := ["__pycache__", ".venv", "venv", "env", ".mypy_cache", ".pytest_cache"] }
  , { name := "go"
    , extensions := [".go"]
    , entryPoints := ["main.go", "cmd/main.go"]
    , manifestFiles := ["go.mod", "go.sum"]
    , skipDirs := ["vendor"] }
  , { name := "java"
    , extensions := [".java"]
    , entryPoints := ["Main.java", "Application.java", "App.java"]
    , manifestFiles := ["pom.xml", "build.gradle", "build.gradle.kts"]
    , skipDirs := ["target", ".gradle", "build", ".idea"] }
  , { name := "rust"
    , extensions := [".rs"]
    , entryPoints := ["main.rs", "lib.rs"]
    , manifestFiles := ["Cargo.toml"]
    , skipDirs := ["target"] }
  , { name := "c_cpp"
    , extensions := [".c", ".cpp", ".cc", ".cxx", ".h", ".hpp", ".hxx"]
    , entryPoints := ["main.c", "main.cpp", "main.cc"]
    , manifestFiles := ["CMakeLists.txt", "Makefile", "meson.build", "conanfile.txt"]
    , skipDirs := ["build", "cmake-build-debug", "cmake-build-release"] }
  , { name := "ruby"
    , extensions := [".rb"]
    , entryPoints := ["app.rb", "config.ru", "Rakefile"]
    , manifestFiles := ["Gemfile", "Gemfile.lock"]
    , skipDirs := [".bundle", "vendor/bundle"] }
  , { name := "php"
    , extensions := [".php"]
    , entryPoints := ["index.php", "artisan", "public/index.php"]
    , manifestFiles := ["composer.json"]
    , skipDirs := ["vendor"] }
  , { name := "csharp"
    , extensions := [".cs"]
    , entryPoints := ["Program.cs", "Startup.cs"]
    , manifestFiles := [".csproj", ".sln"]
    , skipDirs := ["bin", "obj"] }
  , { name := "kotlin"
    , extensions := [".kt", ".kts"]
    , entryPoints := ["Main.kt", "Application.kt", "App.kt"]
    , manifestFiles := ["build.gradle.kts", "build.gradle"]
    , skipDirs := ["build", ".gradle"] }
  , { name := "swift"
    , extensions := [".swift"]
    , entryPoints := ["main.swift", "App.swift", "AppDelegate.swift"]
    , manifestFiles := ["Package.swift"]
    , skipDirs := [".build", "Pods"] }
  , { name := "dart"
    , extensions := [".dart"]
    , entryPoints := ["main.dart", "lib/main.dart"]
    , manifestFiles := ["pubspec.yaml"]
    , skipDirs := [".dart_tool", "build"] } ]

/-- The extension-to-descriptor map: built with `Map.set` in registry
order, so a later registration wins on a conflicting extension. -/
def extParserMap : List (String × LanguageParser) :=
  LANGUAGE_PARSERS.foldl
    (fun m p => p.extensions.foldl (fun m e => mapSet m e p) m) []

/-- Lookup in the extension map (`extToParser.get`). -/
def extToParser (ext : String) : Option LanguageParser :=
  mapGet extParserMap ext

/-- All supported source extensions (membership only). -/
def allSupportedExts : List String :=
  dedupFirst (LANGUAGE_PARSERS.flatMap (·.extensions))

/-- Directory names skipped during the scan: `.git` plus every
ecosystem's skip list. -/
def allSkipDirs : List String :=
  dedupFirst (".git" :: LANGUAGE_PARSERS.flatMap (·.skipDirs))

/-- Known manifest filenames (the keys of `MANIFEST_PARSERS`). -/
def manifestKeys : List String :=
  ["package.json", "requirements.txt", "pyproject.toml", "setup.py", "Pipfile",
   "go.mod", "Cargo.toml", "pom.xml", "build.gradle", "build.gradle.kts",
   "Gemfile", "composer.json"]

/-- Known entry-point filenames. -/
def allEntryPoints : List String :=
  dedupFirst (LANGUAGE_PARSERS.flatMap (·.entryPoints))

-- ───────────────────────────────────────────────────────────────────
-- POSIX path model (the `path` collaborator of the engine)
-- ───────────────────────────────────────────────────────────────────

/-- The `/`-separated segments of a path string. -/
def pathSegs (s : String) : List String :=
  ((splitOnChar '/' s.data).map (fun l => String.mk l)).filter (· ≠ "")

/-- Normalise segments: drop `.`, resolve `..` against the previous
segment.  All paths handled by the engine are rooted at the absolute
repository root, so `..` at the root is simply dropped, as POSIX
`path.resolve` does for absolute paths. -/
def normSegs (segs : List String) : List String :=
  segs.foldl
    (fun acc seg =>
      if seg = "." then acc
      else if seg = ".." then acc.dropLast
      else acc ++ [seg])
    []

/-- Rebuild an absolute path from segments. -/
def mkAbsPath (segs : List String) : String :=
  "/" ++ String.intercalate "/" segs

/-- `path.join(dir, rel)` for an absolute `dir`. -/
def pathJoin (dir rel : String) : String :=
  mkAbsPath (normSegs (pathSegs dir ++ pathSegs rel))

/-- `path.join` over a list of further segments
(`path.join(root, ...parts)`). -/
def pathJoinList (dir : String) (parts : List String) : String :=
  mkAbsPath (normSegs (pathSegs dir ++ parts.flatMap pathSegs))

/-- `path.resolve(dir, rel)` for an absolute `dir`: an absolute `rel` wins,
otherwise resolve against `dir`. -/
def pathResolve (dir rel : String) : String :=
  if rel.data.head? = some '/' then mkAbsPath (normSegs (pathSegs rel))
  else pathJoin dir rel

/-- `path.dirname` for an absolute path. -/
def pathDirname (p : String) : String :=
  mkAbsPath ((pathSegs p).dropLast)

/-- `path.basename`. -/
def pathBasename (p : String) : String :=
  ((pathSegs p).getLast?).getD ""

/-- `path.extname(name)`: the suffix from the last `.` of the last
segment; empty for dot-files and names without a dot. -/
def extnameOf (name : String) : String :=
  let base := (splitOnChar '/' name.data).getLast? |>.getD []
  let parts := splitOnChar '.' base
  match parts with
  | [] => ""
  | [_] => ""
  | first :: rest =>
    let lastPart := rest.getLast? |>.getD []
    if first = [] ∧ rest.length = 1 then ""
    else String.mk ('.' :: lastPart)

/-- `resolveImportPath` of the source: dot-relative imports resolve against
the importing file's directory, anything else is returned unchanged. -/
def resolveImportPath (currentDir importPath : String) : String :=
  if importPath.data.head? = some '.' then pathResolve currentDir importPath
  else importPath

-- ───────────────────────────────────────────────────────────────────
-- Graph data model
-- ───────────────────────────────────────────────────────────────────

/-- Risk levels. -/
inductive RiskLevel where
  | low
  | medium
  | high
deriving DecidableEq, Repr

/-- Module roles. -/
inductive ModuleRole where
  | core
  | connector
  | peripheral
deriving DecidableEq, Repr

/-- The risk detail attached to a node: numeric score plus ordered factor
descriptions. -/
structure RiskDetail where
  level : RiskLevel
  score : Nat
  factors : List String
deriving DecidableEq, Repr

/-- A dependency-graph node.  Node type and layer classification are not
modelled: no verified property depends on them, and they feed no other
computation of the engine.  Fields filled in by later passes carry their
pre-pass defaults, mirroring the in-place mutation of the source. -/
structure GraphNode where
  id : String
  label : String
  path : String
  riskLevel : RiskLevel := RiskLevel.low
  fanIn : Nat := 0
  fanOut : Nat := 0
  inCycle : Bool := false
  metrics : CodeMetrics := { linesOfCode := 0, cyclomaticComplexity := 0, commentLines := 0 }
  riskDetail : RiskDetail := { level := RiskLevel.low, score := 0, factors := [] }
  moduleRole : Option ModuleRole := none
deriving DecidableEq, Repr

/-- A dependency edge. -/
structure GraphEdge where
  id : String
  source : String
  target : String
  label : String
  imports : List String
deriving DecidableEq, Repr

/-- One reported circular dependency. -/
structure CircularDependency where
  ids : List String
  pathLabels : List String
deriving DecidableEq, Repr

/-- Aggregate project statistics.  `languages` is an insertion-ordered
association list (extension-without-dot ↦ count), mirroring the JS object.
Framework versions, language versions and architectural patterns are not
modelled: no verified property depends on them. -/
structure ProjectStats where
  languages : List (String × Nat) := []
  frameworks : List String := []
  entryPoints : List String := []
  totalFiles : Nat := 0
  primaryLanguage : Option String := none
deriving DecidableEq, Repr

/-- The root result object.  The three fields that the scan-failure early
return of the source leaves `undefined` are `Option`s. -/
structure DependencyGraph where
  nodes : List GraphNode
  edges : List GraphEdge
  stats : ProjectStats
  circularDependencies : List CircularDependency
  highFanInIds : List String
  highFanOutIds : List String
  securityInsights : Option (List SecurityInsight) := none
  codeQualityScore : Option Int := none
deriving DecidableEq, Repr

-- ───────────────────────────────────────────────────────────────────
-- Risk scoring (model of `calculateRiskV2`)
-- ───────────────────────────────────────────────────────────────────

/-- A string containing one single quote, for the factor message
`Uses 'any' type`. -/
def sqStr : String := String.mk [sq]

/-- The comparison `metrics.commentRatio < 0.05` of the source, decided by
exact integer arithmetic (`c/l < 1/20 ↔ 20·c < l` for `l > 0`; the ratio is
`0 < 1/20` when `l = 0`). -/
def commentRatioBelow (m : CodeMetrics) : Bool :=
  if 0 < m.linesOfCode then 20 * m.commentLines < m.linesOfCode else true

/-- `/\bany\b/.test(content)`. -/
def usesAnyType (content : String) : Bool :=
  testMatch (kwMatcher "any".data) content.data

/-- Does the node's path end in `.ts` or `.tsx`? -/
def tsLikePath (p : String) : Bool :=
  (".ts".data).isSuffixOf p.data || (".tsx".data).isSuffixOf p.data

/-- The risk level classification of the source:
score > 50 → high, score > 25 → medium, else low. -/
def riskLevelOf (score : Nat) : RiskLevel :=
  if 50 < score then RiskLevel.high
  else if 25 < score then RiskLevel.medium
  else RiskLevel.low

/-- Model of `calculateRiskV2`: weighted penalties accumulated in source
order, with the factor strings of the source. -/
def calculateRiskV2 (node : GraphNode) (content : String) (metrics : CodeMetrics) :
    RiskDetail :=
  let steps : List (Bool × Nat × String) :=
    [ (500 < metrics.linesOfCode, 15, "Large file (>500 LOC)")
    , (1000 < metrics.linesOfCode, 10, "Very large file (>1000 LOC)")
    , (20 < metrics.cyclomaticComplexity, 20, "High complexity")
    , (¬ (20 < metrics.cyclomaticComplexity) ∧ 10 < metrics.cyclomaticComplexity,
        10, "Moderate complexity")
    , (commentRatioBelow metrics ∧ 100 < metrics.linesOfCode, 10, "Low documentation")
    , (10 < node.fanIn, 20, "Heavily depended on (high fan-in)")
    , (¬ (10 < node.fanIn) ∧ 5 < node.fanIn, 10, "Moderate fan-in")
    , (15 < node.fanOut, 10, "Too many dependencies (high fan-out)")
    , (node.inCycle, 15, "In circular dependency")
    , (usesAnyType content ∧ tsLikePath node.path, 5,
        "Uses " ++ sqStr ++ "any" ++ sqStr ++ " type") ]
  let (score, factors) :=
    steps.foldl
      (fun (acc : Nat × List String) step =>
        if step.1 then (acc.1 + step.2.1, acc.2 ++ [step.2.2]) else acc)
      (0, [])
  { level := riskLevelOf score, score := score, factors := factors }

-- ───────────────────────────────────────────────────────────────────
-- Tarjan's SCC (model of `findCircularDependencies`)
-- ───────────────────────────────────────────────────────────────────

/-- The mutable state of the Tarjan pass: visitation counter, index and
lowlink maps, explicit stack (head = top), the on-stack set, and the
reported cycles.  The JS `Map`s become association lists, the `Set` a
membership list. -/
structure TarjanState where
  idx : Nat
  indexMap : List (Nat × Nat)
  lowlinkMap : List (Nat × Nat)
  stack : List Nat
  onStack : List Nat
  cycles : List CircularDependency
deriving Repr

/-- The initial Tarjan state. -/
def tarjanInit : TarjanState :=
  { idx := 0, indexMap := [], lowlinkMap := [], stack := [], onStack := []
  , cycles := [] }

/-- The do/while pop loop closing an SCC root `v`: pop (collecting into the
component, in pop order) until `v` itself has been popped.  Returns the
component and the remaining stack. -/
def popUntil (v : Nat) : List Nat → List Nat × List Nat
  | [] => ([], [])
  | w :: rest =>
    if w = v then ([w], rest)
    else
      let (s, r) := popUntil v rest
      (w :: s, r)

/-- The cycle record pushed for a component (`scc.length > 1` is checked by
the caller): member ids in discovery order, with each id's node path as
label (`basename` fallback when the id is unknown to `idToNode`). -/
def cycleOfScc (indexToId : List String) (idToNode : List (String × GraphNode))
    (scc : List Nat) : CircularDependency :=
  { ids := scc.map (fun i => (indexToId.get? i).getD "")
  , pathLabels := scc.map (fun i =>
      let id := (indexToId.get? i).getD ""
      match mapGet idToNode id with
      | some node => node.path
      | none => pathBasename id) }

/-- The head of `strongConnect`: assign index and lowlink, advance the
counter, push onto the stack. -/
def tarjanVisit (v : Nat) (st : TarjanState) : TarjanState :=
  { st with
    indexMap := mapSet st.indexMap v st.idx
    lowlinkMap := mapSet st.lowlinkMap v st.idx
    idx := st.idx + 1
    stack := v :: st.stack
    onStack := v :: st.onStack }

/-- The body of `strongConnect`'s successor loop for one successor `w`:
recurse into an unvisited successor and fold its lowlink in, or fold in
the index of an on-stack successor.  `recurse` is the recursive call at
the remaining fuel. -/
def tarjanEdgeStep (recurse : Nat → TarjanState → TarjanState) (v : Nat)
    (st : TarjanState) (w : Nat) : TarjanState :=
  if (mapGet st.indexMap w).isNone then
    let st' := recurse w st
    { st' with
      lowlinkMap := mapSet st'.lowlinkMap v
        (min ((mapGet st'.lowlinkMap v).getD 0)
             ((mapGet st'.lowlinkMap w).getD 0)) }
  else if w ∈ st.onStack then
    { st with
      lowlinkMap := mapSet st.lowlinkMap v
        (min ((mapGet st.lowlinkMap v).getD 0)
             ((mapGet st.indexMap w).getD 0)) }
  else st

/-- The root check and component pop at the end of `strongConnect`. -/
def tarjanCloseRoot (indexToId : List String) (idToNode : List (String × GraphNode))
    (v : Nat) (st2 : TarjanState) : TarjanState :=
  if (mapGet st2.lowlinkMap v).getD 0 = (mapGet st2.indexMap v).getD 0 then
    let pr := popUntil v st2.stack
    { st2 with
      stack := pr.2
      onStack := st2.onStack.filter (fun x => x ∉ pr.1)
      cycles :=
        if 1 < pr.1.length then
          st2.cycles ++ [cycleOfScc indexToId idToNode pr.1]
        else st2.cycles }
  else st2

/-- Model of `strongConnect`.  The JS function recurses without a bound;
here the recursion carries fuel, instantiated with the number of vertices
by the caller, which suffices because every call immediately marks its
vertex visited and only recurses into unvisited vertices.  The `!`
non-null map accesses of the source become `getD 0`. -/
def strongConnect (adj : List (List Nat)) (indexToId : List String)
    (idToNode : List (String × GraphNode)) :
    Nat → Nat → TarjanState → TarjanState
  | 0, _, st => st
  | fuel + 1, v, st =>
    tarjanCloseRoot indexToId idToNode v
      (((adj.get? v).getD []).foldl
        (tarjanEdgeStep (strongConnect adj indexToId idToNode fuel) v)
        (tarjanVisit v st))

/-- The id-to-index map of `findCircularDependencies` (`forEach` with
`Map.set`: a duplicated id keeps its last index). -/
def tarjanIdToIndex (nodes : List GraphNode) : List (String × Nat) :=
  nodes.enum.foldl (fun m p => mapSet m p.2.id p.1) []

/-- The adjacency lists over node indices: edges with an unknown endpoint
are dropped, self-loops (`si === ti`) are excluded. -/
def buildAdj (nodes : List GraphNode) (edges : List GraphEdge) : List (List Nat) :=
  edges.foldl
    (fun adj e =>
      match mapGet (tarjanIdToIndex nodes) e.source, mapGet (tarjanIdToIndex nodes) e.target with
      | some si, some ti =>
        if si ≠ ti then adj.set si ((adj.get? si).getD [] ++ [ti]) else adj
      | _, _ => adj)
    (List.replicate nodes.length [])

/-- The driver loop of the Tarjan pass: `strongConnect` from every vertex
not yet indexed, in index order. -/
def tarjanRun (adj : List (List Nat)) (indexToId : List String)
    (idToNode : List (String × GraphNode)) (n : Nat) : TarjanState :=
  (List.range n).foldl
    (fun st i =>
      if (mapGet st.indexMap i).isNone then
        strongConnect adj indexToId idToNode n i st
      else st)
    tarjanInit

/-- Model of `findCircularDependencies`: adjacency over node indices with
self-edges and unknown endpoints dropped, then Tarjan from every unvisited
vertex in index order. -/
def findCircularDependencies (nodes : List GraphNode) (edges : List GraphEdge)
    (idToNode : List (String × GraphNode)) : List CircularDependency :=
  (tarjanRun (buildAdj nodes edges) (nodes.map (·.id)) idToNode nodes.length).cycles

-- ───────────────────────────────────────────────────────────────────
-- Specification-side view of strongly-connected components
-- ───────────────────────────────────────────────────────────────────

/-- The edge-step relation of an adjacency structure. -/
def adjStep (adj : List (List Nat)) (v w : Nat) : Prop :=
  w ∈ (adj.get? v).getD []

/-- Reachability: the reflexive-transitive closure of the edge steps. -/
def adjReaches (adj : List (List Nat)) : Nat → Nat → Prop :=
  Relation.ReflTransGen (adjStep adj)

/-- Mutual reachability of two vertices. -/
def sameSCC (adj : List (List Nat)) (v w : Nat) : Prop :=
  adjReaches adj v w ∧ adjReaches adj w v

/-- A set of vertices is a strongly-connected component of the graph on
`{0, …, n-1}` iff it is the mutual-reachability class of one of its
members. -/
def isSCC (adj : List (List Nat)) (n : Nat) (s : Set Nat) : Prop :=
  ∃ v < n, s = {w | w < n ∧ sameSCC adj v w}

-- ───────────────────────────────────────────────────────────────────
-- Scanner (model of `scan` inside `analyzeRepoDependencies`)
-- ───────────────────────────────────────────────────────────────────

/-- The hard cap on scanned files. -/
def MAX_FILES : Nat := 5000

/-- Top-N size for the fan-in/fan-out rankings. -/
def TOP_FAN_THRESHOLD : Nat := 5

/-- One parsed import statement (the output of the regex-based
`extractImports`). -/
structure ParsedImport where
  importPath : String
  specifiers : List String
deriving DecidableEq, Repr

/-- The two regex-table-driven text analyses that the engine runs over raw
file content, abstracted as parameters of the model: `extractImp` is
`extractImports` (parser name and content to parsed imports) and
`manifestDetect` is the `MANIFEST_PARSERS` dispatch (manifest filename and
content to detected framework names).  Everything downstream of these two
functions is modelled concretely. -/
structure AnalyzerParams where
  extractImp : String → String → List ParsedImport
  manifestDetect : String → String → List String

/-- A directory tree on local storage.  A directory's `none` listing
models a `readdir` failure (unreadable directory). -/
inductive FSTree where
  | file (name content : String)
  | dir (name : String) (entries : Option (List FSTree))
deriving Repr

/-- State accumulated by the scanner.  `fileMap` is the source's
`fileMap` (absolute path ↦ node id); `contentMap` models the file contents
on disk as visited, which is what `getCachedContent` returns for them
(missing path ↦ "" on read failure). -/
structure ScanState where
  stats : ProjectStats
  nodes : List GraphNode
  fileMap : List (String × String)
  contentMap : List (String × String)
deriving Repr

/-- The initial scan state. -/
def initScanState : ScanState :=
  { stats := {}, nodes := [], fileMap := [], contentMap := [] }

/-- Bump a per-language counter, preserving the JS object's key insertion
order. -/
def bumpCount (m : List (String × Nat)) (k : String) : List (String × Nat) :=
  if (m.find? (fun p => p.1 = k)).isSome then
    m.map (fun p => if p.1 = k then (p.1, p.2 + 1) else p)
  else m ++ [(k, 1)]

/-- Processing of one regular file by the scanner: count it, track its
language, run a matching manifest parser, record a matching entry point
(bounded by path depth), and create a graph node when the extension is
supported.  The root-level `package.json` retention for engine detection
only feeds the unmodelled `languageVersions` field and is omitted. -/
def processScannedFile (P : AnalyzerParams) (rootPath cur name content : String)
    (st : ScanState) : ScanState :=
  let fullPath := cur ++ "/" ++ name
  let relativePath := String.mk (replaceFirst rootPath.data fullPath.data)
  let stats0 := st.stats
  let stats1 := { stats0 with totalFiles := stats0.totalFiles + 1 }
  let ext := String.mk (lowerList (extnameOf name).data)
  let stats2 :=
    if ext ≠ "" then
      { stats1 with languages := bumpCount stats1.languages (String.mk (ext.data.drop 1)) }
    else stats1
  let stats3 :=
    if name ∈ manifestKeys then
      { stats2 with frameworks := dedupFirst (stats2.frameworks ++ P.manifestDetect name content) }
    else stats2
  let stats4 :=
    if name ∈ allEntryPoints ∧ (splitOnChar '/' relativePath.data).length ≤ 4 then
      { stats3 with entryPoints := stats3.entryPoints ++ [relativePath] }
    else stats3
  let st1 := { st with stats := stats4, contentMap := mapSet st.contentMap fullPath content }
  if ext ∈ allSupportedExts then
    let node : GraphNode := { id := fullPath, label := name, path := relativePath }
    { st1 with nodes := st1.nodes ++ [node], fileMap := mapSet st1.fileMap fullPath node.id }
  else st1

/-- Scanning of one directory entry (the body of the scanner's `for` loop
after the cap check): files are processed, skip-listed directories are
passed over, and other directories are recursed into — an unreadable one
throws (`false`), propagating with the state mutated so far.  The loop over
a listing, with the cap check `totalFiles > MAX_FILES` guarding every
entry, is the `where` helper `scanEntries`. -/
def scanEntry (P : AnalyzerParams) (rootPath : String) :
    String → FSTree → ScanState → ScanState × Bool
  | cur, FSTree.file name content, st =>
    (processScannedFile P rootPath cur name content st, true)
  | _, FSTree.dir name none, st =>
    if name ∈ allSkipDirs then (st, true) else (st, false)
  | cur, FSTree.dir name (some sub), st =>
    if name ∈ allSkipDirs then (st, true)
    else scanEntries (cur ++ "/" ++ name) sub st
where scanEntries : String → List FSTree → ScanState → ScanState × Bool
  | _, [], st => (st, true)
  | cur, e :: rest, st =>
    if MAX_FILES < st.stats.totalFiles then (st, true)
    else
      match scanEntry P rootPath cur e st with
      | (st2, true) => scanEntries cur rest st2
      | (st2, false) => (st2, false)

/-- The loop of the scanner over one directory listing. -/
def scanList (P : AnalyzerParams) (rootPath : String) :
    String → List FSTree → ScanState → ScanState × Bool :=
  scanEntry.scanEntries P rootPath

/-- `scan(rootPath)`: an unlistable root fails with the untouched initial
state. -/
def scanRoot (P : AnalyzerParams) (rootPath : String) :
    Option (List FSTree) → ScanState × Bool
  | none => (initScanState, false)
  | some entries => scanList P rootPath rootPath entries initScanState

-- ───────────────────────────────────────────────────────────────────
-- Import resolution and edge construction (step 2)
-- ───────────────────────────────────────────────────────────────────

/-- Closing brace character. -/
def cbrace : Char := Char.ofNat 125

/-- Strip the first `::\{[^}]+\}` group of a Rust import path
(`replace(/::\{[^}]+\}/, "")`). -/
def stripRustBraces : List Char → List Char
  | [] => []
  | c :: cs =>
    match c :: cs with
    | ':' :: ':' :: b :: rest =>
      if b = obrace then
        let inner := rest.takeWhile (fun x => x ≠ cbrace)
        match inner, rest.drop inner.length with
        | _ :: _, close :: rest' =>
          if close = cbrace then rest' else c :: stripRustBraces cs
        | _, _ => c :: stripRustBraces cs
      else c :: stripRustBraces cs
    | _ => c :: stripRustBraces cs

/-- Replace every `::` by `/` (`replace(/::/g, "/")`). -/
def rustSepToSlash : List Char → List Char
  | [] => []
  | ':' :: ':' :: rest => '/' :: rustSepToSlash rest
  | c :: rest => c :: rustSepToSlash rest

/-- The per-language candidate-path computation of the step-2 resolution
branch ladder, in source order.  `none` models `continue` (external or
unmappable import: no edge).  The Python and Ruby inner branches for
dot/slash-prefixed paths are unreachable (the generic relative branch
above them catches those paths first) and are kept as in the source. -/
def resolveCandidate (rootPath : String) (fileMap : List (String × String))
    (parserName currentDir importPath : String) : Option String :=
  if parserName = "javascript" then
    if ("@/".data).isPrefixOf importPath.data then
      some (pathJoin rootPath (String.mk (replaceFirst "@/".data importPath.data)))
    else if importPath.data.head? = some '.' then
      some (resolveImportPath currentDir importPath)
    else none
  else if importPath.data.head? = some '.' ∨ importPath.data.head? = some '/' then
    some (resolveImportPath currentDir importPath)
  else if parserName = "c_cpp" ∧ ¬ containsSub "/".data importPath.data then
    some (pathJoin currentDir importPath)
  else if parserName = "python" then
    if importPath.data.head? = some '.' then
      some (pathJoinList currentDir
        ((splitOnChar '.' (importPath.data.dropWhile (· = '.'))).map String.mk))
    else
      some (pathJoinList rootPath ((splitOnChar '.' importPath.data).map String.mk))
  else if parserName = "go" then
    let parts := (splitOnChar '/' importPath.data).map String.mk
    (List.range' 1 (min parts.length 4)).findSome? (fun segs =>
      let tryPath := pathJoinList rootPath (parts.drop (parts.length - segs))
      if (mapGet fileMap tryPath).isSome ∨ (mapGet fileMap (tryPath ++ ".go")).isSome then
        some tryPath
      else none)
  else if parserName = "java" ∨ parserName = "kotlin" ∨ parserName = "csharp" then
    let parts := (splitOnChar '.' importPath.data).map String.mk
    if parts.getLast? = some "*" then none
    else some (pathJoinList rootPath (parts.dropLast ++ [(parts.getLast?).getD ""]))
  else if parserName = "rust" then
    some (pathJoin currentDir (String.mk (rustSepToSlash (stripRustBraces importPath.data))))
  else if parserName = "ruby" then
    if importPath.data.head? = some '/' then some (pathJoin rootPath importPath)
    else some (pathJoin currentDir importPath)
  else none

/-- Probe for the target node: exact `fileMap` hit first, then the
language's extensions and `/index` conventions. -/
def lookupTarget (fileMap : List (String × String)) (parser? : Option LanguageParser)
    (resolvedPath : String) : Option String :=
  match mapGet fileMap resolvedPath with
  | some t => some t
  | none =>
    let tryExts :=
      match parser? with
      | some p => p.extensions ++ p.extensions.map (fun e => "/index" ++ e)
      | none => [".ts", ".tsx", ".js", ".jsx", "/index.ts", "/index.tsx"]
    tryExts.findSome? (fun te => mapGet fileMap (resolvedPath ++ te))

/-- The mutable state of the edge-construction pass. -/
structure EdgeState where
  edges : List GraphEdge
  added : List String
  incoming : List (String × Nat)
  outgoing : List (String × Nat)
deriving Repr

/-- The empty edge state. -/
def initEdgeState : EdgeState :=
  { edges := [], added := [], incoming := [], outgoing := [] }

/-- Merge specifiers onto the first edge with the given id
(`edges.find` followed by the in-place `imports` union). -/
def updateFirstEdge (edgeId : String) (specs : List String) :
    List GraphEdge → List GraphEdge
  | [] => []
  | e :: rest =>
    if e.id = edgeId then { e with imports := dedupFirst (e.imports ++ specs) } :: rest
    else e :: updateFirstEdge edgeId specs rest

/-- Add or merge one resolved edge, exactly as the body of the
`if (targetNodeId && targetNodeId !== node.id)` block: dedup on the
synthetic id `source-target`, push plus counter increments on a fresh id,
specifier union on an existing one. -/
def addResolvedEdge (idToNode : List (String × GraphNode)) (node : GraphNode)
    (st : EdgeState) (targetNodeId : String) (specs : List String) : EdgeState :=
  if targetNodeId = node.id then st
  else
    let edgeId := node.id ++ "-" ++ targetNodeId
    if edgeId ∈ st.added then
      { st with edges := updateFirstEdge edgeId specs st.edges }
    else
      let sourceLabel := if node.label = "" then pathBasename node.id else node.label
      let targetLabel :=
        match mapGet idToNode targetNodeId with
        | some tn => if tn.label = "" then pathBasename targetNodeId else tn.label
        | none => pathBasename targetNodeId
      { st with
        edges := st.edges ++
          [{ id := edgeId, source := node.id, target := targetNodeId
           , label := sourceLabel ++ " → " ++ targetLabel, imports := specs }]
        added := edgeId :: st.added
        incoming := mapSet st.incoming targetNodeId
          (((mapGet st.incoming targetNodeId).getD 0) + 1)
        outgoing := mapSet st.outgoing node.id
          (((mapGet st.outgoing node.id).getD 0) + 1) }

/-- Step 2 of the engine: per node, extract imports, resolve each and add
or merge edges.  The batched I/O of the source only overlaps file reads;
the per-node import loop runs synchronously after its single read, so the
fold order below observes the same state transitions. -/
def buildEdges (P : AnalyzerParams) (rootPath : String)
    (fileMap : List (String × String)) (idToNode : List (String × GraphNode))
    (contentOf : String → String) (nodes : List GraphNode) : EdgeState :=
  nodes.foldl
    (fun st node =>
      let ext := String.mk (lowerList (extnameOf node.id).data)
      match extToParser ext with
      | none => st
      | some parser =>
        let content := contentOf node.id
        let currentDir := pathDirname node.id
        (P.extractImp parser.name content).foldl
          (fun st imp =>
            match resolveCandidate rootPath fileMap parser.name currentDir imp.importPath with
            | none => st
            | some resolvedPath =>
              if resolvedPath = "" then st
              else
                match lookupTarget fileMap (extToParser ext) resolvedPath with
                | none => st
                | some t => addResolvedEdge idToNode node st t imp.specifiers)
          st)
    initEdgeState

-- ───────────────────────────────────────────────────────────────────
-- Steps 3–7 of `analyzeRepoDependencies`
-- ───────────────────────────────────────────────────────────────────

/-- Step 3 for a single node: fan counts from the step-2 maps, code
metrics, risk scoring (cycle membership still unknown, hence `false`), and
this node's quality contribution and security insights. -/
def step3Node (contentOf : String → String) (incoming outgoing : List (String × Nat))
    (node : GraphNode) : GraphNode × Int × List SecurityInsight :=
  let content := contentOf node.id
  let fanIn := (mapGet incoming node.id).getD 0
  let fanOut := (mapGet outgoing node.id).getD 0
  let metrics := calculateCodeMetrics content
  let node1 := { node with fanIn := fanIn, fanOut := fanOut, metrics := metrics }
  let risk := calculateRiskV2 node1 content metrics
  let node2 := { node1 with riskLevel := risk.level, riskDetail := risk }
  (node2, max 0 (100 - (risk.score : Int)), scanForSecurityIssues node2.path content)

/-- The accumulator update of the step-3 loop. -/
def step3Step (contentOf : String → String) (incoming outgoing : List (String × Nat))
    (acc : List GraphNode × Int × List SecurityInsight) (node : GraphNode) :
    List GraphNode × Int × List SecurityInsight :=
  let r := step3Node contentOf incoming outgoing node
  (acc.1 ++ [r.1], acc.2.1 + r.2.1, acc.2.2 ++ r.2.2)

/-- Step 3 over all nodes, in order, accumulating the total quality score
and the security insights. -/
def step3All (contentOf : String → String) (incoming outgoing : List (String × Nat))
    (nodes : List GraphNode) : List GraphNode × Int × List SecurityInsight :=
  nodes.foldl (step3Step contentOf incoming outgoing) ([], 0, [])

/-- Step 4 for a single node: set the cycle flag and, for a newly cyclic
node, redo the risk scoring (score + 15, appended factor, reclassified
level), as the second pass of the source does. -/
def rescoreCycleNode (cycleNodeIds : List String) (node : GraphNode) : GraphNode :=
  let inC := node.id ∈ cycleNodeIds
  let node1 := { node with inCycle := inC }
  if inC ∧ "In circular dependency" ∉ node1.riskDetail.factors then
    let newScore := node1.riskDetail.score + 15
    let newLevel := riskLevelOf newScore
    { node1 with
      riskDetail :=
        { level := newLevel, score := newScore
        , factors := node1.riskDetail.factors ++ ["In circular dependency"] }
      riskLevel := newLevel }
  else node1

/-- Step 6: the module-role classification.  The float comparisons
`fi >= Math.max(2, threshold * 0.5)` are decided exactly:
`fi ≥ max(2, t/2) ↔ fi ≥ 2 ∧ 2·fi ≥ t` (halving is exact). -/
def moduleRoleOf (fanInThreshold fanOutThreshold fi fo : Nat) : ModuleRole :=
  if 2 ≤ fi ∧ fanInThreshold ≤ 2 * fi ∧ fo ≤ 3 then ModuleRole.core
  else if 2 ≤ fo ∧ fanOutThreshold ≤ 2 * fo ∧ fi ≤ 3 then ModuleRole.connector
  else if fi ≤ 1 ∧ fo ≤ 1 then ModuleRole.peripheral
  else ModuleRole.connector

/-- The content accessor of a completed scan: what `getCachedContent`
returns for any path during the analysis of that scan's tree ("" for a
path that could not be read). -/
def scanContentOf (st : ScanState) : String → String :=
  fun id => (mapGet st.contentMap id).getD ""

/-- The id-to-node map built before the edge pass. -/
def mkIdToNode (nodes : List GraphNode) : List (String × GraphNode) :=
  nodes.foldl (fun m n => mapSet m n.id n) []

/-- The completed edge-construction state of one analysis (step 2). -/
def pipelineEdges (P : AnalyzerParams) (rootPath : String) (st : ScanState) : EdgeState :=
  buildEdges P rootPath st.fileMap (mkIdToNode st.nodes) (scanContentOf st) st.nodes

/-- The step-3 pass of one analysis (fan counts, metrics, risk, security,
quality accumulation). -/
def pipelineStep3 (P : AnalyzerParams) (rootPath : String) (st : ScanState) :
    List GraphNode × Int × List SecurityInsight :=
  step3All (scanContentOf st) (pipelineEdges P rootPath st).incoming
    (pipelineEdges P rootPath st).outgoing st.nodes

/-- The circular dependencies of one analysis (step 4). -/
def pipelineCycles (P : AnalyzerParams) (rootPath : String) (st : ScanState) :
    List CircularDependency :=
  findCircularDependencies (pipelineStep3 P rootPath st).1
    (pipelineEdges P rootPath st).edges (mkIdToNode (pipelineStep3 P rootPath st).1)

/-- The nodes after the cycle-flag/re-scoring pass of step 4. -/
def pipelineNodes3 (P : AnalyzerParams) (rootPath : String) (st : ScanState) :
    List GraphNode :=
  (pipelineStep3 P rootPath st).1.map
    (rescoreCycleNode ((pipelineCycles P rootPath st).flatMap (·.ids)))

/-- The module-role assignment of one node (the loop body of step 6). -/
def assignRole (fanInThreshold fanOutThreshold : Nat) (n : GraphNode) : GraphNode :=
  { n with moduleRole := some (moduleRoleOf fanInThreshold fanOutThreshold n.fanIn n.fanOut) }

/-- The final nodes, after module-role assignment (step 6). -/
def pipelineNodes4 (P : AnalyzerParams) (rootPath : String) (st : ScanState) :
    List GraphNode :=
  let nodes3 := pipelineNodes3 P rootPath st
  let fanInThreshold :=
    max 1 ((((sortByKeyDesc (·.fanIn) nodes3).head?).map (·.fanIn)).getD 0)
  let fanOutThreshold :=
    max 1 ((((sortByKeyDesc (·.fanOut) nodes3).head?).map (·.fanOut)).getD 0)
  nodes3.map (assignRole fanInThreshold fanOutThreshold)

/-- The engine after a successful scan: primary language, edge
construction, metrics/risk pass, cycle detection and re-scoring, top
fan-in/fan-out lists, module roles and the quality score.  Framework
versions, language versions, architectural patterns and the layer
breakdown feed no verified property and are not modelled. -/
def analyzeScanned (P : AnalyzerParams) (rootPath : String) (st : ScanState) :
    DependencyGraph :=
  let langEntries := sortByKeyDesc (fun p => p.2) st.stats.languages
  let stats :=
    { st.stats with primaryLanguage := (langEntries.head?).map (·.1) }
  let totalQualityScore := (pipelineStep3 P rootPath st).2.1
  let securityInsights := (pipelineStep3 P rootPath st).2.2
  let circularDependencies := pipelineCycles P rootPath st
  let nodes3 := pipelineNodes3 P rootPath st
  let idToNode3 := mkIdToNode nodes3
  let sortedByFanIn := sortByKeyDesc (·.fanIn) nodes3
  let sortedByFanOut := sortByKeyDesc (·.fanOut) nodes3
  let highFanInIds :=
    ((sortedByFanIn.take TOP_FAN_THRESHOLD).map (·.id)).filter
      (fun id => 0 < ((mapGet idToNode3 id).map (·.fanIn)).getD 0)
  let highFanOutIds :=
    ((sortedByFanOut.take TOP_FAN_THRESHOLD).map (·.id)).filter
      (fun id => 0 < ((mapGet idToNode3 id).map (·.fanOut)).getD 0)
  let nodes4 := pipelineNodes4 P rootPath st
  let codeQualityScore : Int :=
    if 0 < nodes4.length then mathRoundDiv totalQualityScore nodes4.length else 100
  { nodes := nodes4
  , edges := (pipelineEdges P rootPath st).edges
  , stats := stats
  , circularDependencies := circularDependencies
  , highFanInIds := highFanInIds
  , highFanOutIds := highFanOutIds
  , securityInsights := some securityInsights
  , codeQualityScore := some codeQualityScore }

/-- Model of `analyzeRepoDependencies`: scan, and on a scan failure return
the early empty graph carrying the stats object as mutated so far
(`catch` branch of the source); otherwise run the analysis pipeline. -/
def analyzeRepoDependencies (P : AnalyzerParams) (rootPath : String)
    (rootEntries : Option (List FSTree)) : DependencyGraph :=
  let r := scanRoot P rootPath rootEntries
  if r.2 then analyzeScanned P rootPath r.1
  else
    { nodes := [], edges := [], stats := r.1.stats, circularDependencies := []
    , highFanInIds := [], highFanOutIds := [] }

-- ───────────────────────────────────────────────────────────────────
-- Invariants of the edge-construction state
-- ───────────────────────────────────────────────────────────────────

/-- Well-formedness of one edge with respect to the scanned node ids and
the values of the file map: synthetic id, no self-loop, endpoints known. -/
def edgeWellFormed (nodeIds fmapVals : List String) (e : GraphEdge) : Prop :=
  e.id = e.source ++ "-" ++ e.target ∧ e.source ≠ e.target ∧
  e.source ∈ nodeIds ∧ e.target ∈ fmapVals

/-- The invariant the edge-construction fold maintains: all edges
well-formed, pairwise-distinct edge ids, and every edge id recorded in the
dedup set. -/
def edgeStateInv (nodeIds fmapVals : List String) (st : EdgeState) : Prop :=
  (∀ e ∈ st.edges, edgeWellFormed nodeIds fmapVals e) ∧
  (st.edges.map (fun e => e.id)).Nodup ∧
  (∀ e ∈ st.edges, e.id ∈ st.added)

/-- The counter invariant: the incoming (resp. outgoing) count of every id
equals the number of current edges targeting (resp. leaving) it. -/
def countsMatch (st : EdgeState) : Prop :=
  ∀ x : String,
    (mapGet st.incoming x).getD 0 = (st.edges.filter (fun e => e.target = x)).length ∧
    (mapGet st.outgoing x).getD 0 = (st.edges.filter (fun e => e.source = x)).length

-- ───────────────────────────────────────────────────────────────────
-- Claim-side definitions and concrete scenario inputs
-- ───────────────────────────────────────────────────────────────────

/-- The quality score as claim C5 words it: the rounded mean over all
nodes of `max(0, 100 − reported risk score)`, where the reported score is
the one in the returned graph (including cycle re-scoring); `100` when
there are no nodes.  Stated from the claim for comparison with the
engine's `codeQualityScore`. -/
def claimedQualityScore (g : DependencyGraph) : Int :=
  if 0 < g.nodes.length then
    mathRoundDiv
      (g.nodes.foldl (fun a n => a + max 0 (100 - (n.riskDetail.score : Int))) 0)
      g.nodes.length
  else 100

/-- The per-node quality contribution the engine actually averages: the
risk score recomputed with the cycle flag cleared (the step-3 score, before
the cycle re-scoring of step 4). -/
def preCycleQuality (contentOf : String → String) (n : GraphNode) : Int :=
  max 0 (100 -
    (((calculateRiskV2 { n with inCycle := false } (contentOf n.id) n.metrics).score : Int)))

/-- Analyzer parameters whose import extraction returns a fixed table of
parsed imports per content string and detects no manifests — the shape all
concrete scenarios below use. -/
def tableParams (table : List (String × List ParsedImport)) : AnalyzerParams :=
  { extractImp := fun _ content => ((table.find? (fun p => p.1 = content)).map (·.2)).getD []
  , manifestDetect := fun _ _ => [] }

/-- Content of file `A.ts` in the two-file scenario of claim C6. -/
def c6ContentA : String := "import \x7b x \x7d from \"./B\"\nexport const x = 1\n"

/-- Content of file `B.ts` in the two-file scenario of claim C6. -/
def c6ContentB : String := "export const y = 2\n"

/-- The parsed-import table for the C6 scenario: `A.ts` imports `./B`
binding `x`, `B.ts` imports nothing (what `extractImports` yields on these
contents with the JavaScript patterns). -/
def c6Params : AnalyzerParams :=
  tableParams [(c6ContentA, [{ importPath := "./B", specifiers := ["x"] }])]

/-- The two-file project tree of claim C6. -/
def c6Tree : Option (List FSTree) :=
  some [FSTree.file "A.ts" c6ContentA, FSTree.file "B.ts" c6ContentB]

/-- The graph the engine returns for the C6 scenario. -/
def c6Graph : DependencyGraph := analyzeRepoDependencies c6Params "/repo" c6Tree

/-- Content of file `A.ts` in the mutual-import scenario used against
claim C5. -/
def c5ContentA : String := "import \x7b b \x7d from \"./B\"\n"

/-- Content of file `B.ts` in the mutual-import scenario used against
claim C5. -/
def c5ContentB : String := "import \x7b a \x7d from \"./A\"\n"

/-- The parsed-import table for the C5 scenario: `A.ts` and `B.ts` import
each other. -/
def c5Params : AnalyzerParams :=
  tableParams
    [ (c5ContentA, [{ importPath := "./B", specifiers := ["b"] }])
    , (c5ContentB, [{ importPath := "./A", specifiers := ["a"] }]) ]

/-- The two-file mutually-importing tree of the C5 scenario. -/
def c5Tree : Option (List FSTree) :=
  some [FSTree.file "A.ts" c5ContentA, FSTree.file "B.ts" c5ContentB]

/-- The graph the engine returns for the C5 scenario. -/
def c5Graph : DependencyGraph := analyzeRepoDependencies c5Params "/repo" c5Tree

/-- A tree whose root lists one readable source file followed by an
unreadable subdirectory: the scan fails after counting the file. -/
def c7Tree : Option (List FSTree) :=
  some [FSTree.file "a.ts" "const x = 1\n", FSTree.dir "bad" none]

/-- The graph the engine returns for the partially-scanned C7 tree. -/
def c7Graph : DependencyGraph :=
  analyzeRepoDependencies (tableParams []) "/repo" c7Tree

-- ───────────────────────────────────────────────────────────────────
-- Tarjan verification infrastructure: state predicates and invariants
-- ───────────────────────────────────────────────────────────────────

/-- The successor list of a vertex in the adjacency structure. -/
def succsOf (adj : List (List Nat)) (v : Nat) : List Nat :=
  (adj.get? v).getD []

/-- A vertex has been visited (assigned an index) in a Tarjan state. -/
def visitedIn (st : TarjanState) (v : Nat) : Prop :=
  (mapGet st.indexMap v).isSome = true

instance (st : TarjanState) (v : Nat) : Decidable (visitedIn st v) :=
  inferInstanceAs (Decidable ((mapGet st.indexMap v).isSome = true))

/-- The index assigned to a vertex (0 when unvisited, as the source reads
the map with a non-null assertion only on visited vertices). -/
def numOf (st : TarjanState) (v : Nat) : Nat :=
  (mapGet st.indexMap v).getD 0

/-- The current lowlink of a vertex. -/
def lowOf (st : TarjanState) (v : Nat) : Nat :=
  (mapGet st.lowlinkMap v).getD 0

/-- A vertex whose strongly-connected component has been closed: visited
and no longer on the stack. -/
def doneIn (st : TarjanState) (v : Nat) : Prop :=
  visitedIn st v ∧ v ∉ st.stack

/-- All successor lists point below `n`. -/
def adjBounded (adj : List (List Nat)) (n : Nat) : Prop :=
  ∀ v, ∀ w ∈ succsOf adj v, w < n

/-- The component list `comps` explains a Tarjan state: the recorded
cycles are the labellings of the components with more than one member,
each component is (the member list of) a mutual-reachability class of
one of its members, components consist of closed vertices, every closed
vertex lies in a component, and distinct components are disjoint. -/
def compsOK (adj : List (List Nat)) (n : Nat) (indexToId : List String)
    (idToNode : List (String × GraphNode)) (st : TarjanState)
    (comps : List (List Nat)) : Prop :=
  st.cycles = (comps.filter (fun c => 1 < c.length)).map (cycleOfScc indexToId idToNode)
  ∧ (∀ C ∈ comps, C.Nodup ∧ (∀ x ∈ C, doneIn st x) ∧
      ∃ r ∈ C, ∀ w, w ∈ C ↔ (w < n ∧ sameSCC adj r w))
  ∧ (∀ u, doneIn st u → ∃ C ∈ comps, u ∈ C)
  ∧ comps.Pairwise (fun c d => ∀ x ∈ c, x ∉ d)

/-- The state invariant of the Tarjan pass, holding between any two
top-level or recursive `strongConnect` steps. -/
structure TWF (adj : List (List Nat)) (n : Nat) (indexToId : List String)
    (idToNode : List (String × GraphNode)) (st : TarjanState) : Prop where
  onStack_eq : st.onStack = st.stack
  stack_visited : ∀ y ∈ st.stack, visitedIn st y
  stack_sorted : st.stack.Pairwise (fun a b => numOf st b < numOf st a)
  visited_lt : ∀ v, visitedIn st v → v < n
  num_lt_idx : ∀ v, visitedIn st v → numOf st v < st.idx
  num_inj : ∀ v w, visitedIn st v → visitedIn st w → numOf st v = numOf st w → v = w
  num_surj : ∀ k, k < st.idx → ∃ v, visitedIn st v ∧ numOf st v = k
  low_le : ∀ y ∈ st.stack, lowOf st y ≤ numOf st y
  low_wit : ∀ y ∈ st.stack, ∃ z ∈ st.stack, numOf st z = lowOf st y ∧ adjReaches adj y z
  done_closed : ∀ u, doneIn st u → ∀ w ∈ succsOf adj u, doneIn st w
  comps_ex : ∃ comps, compsOK adj n indexToId idToNode st comps

/-- The invariant maintained along the successor loop of
`strongConnect v`, relating the entry state `st0` to the current state
`st`:  `parts` are the vertices pushed above `v` and still on the stack,
`procd` the successors of `v` already processed. -/
structure FInv (adj : List (List Nat)) (n : Nat) (indexToId : List String)
    (idToNode : List (String × GraphNode)) (v : Nat) (st0 st : TarjanState)
    (parts procd : List Nat) : Prop where
  twf : TWF adj n indexToId idToNode st
  stack_eq : st.stack = parts ++ v :: st0.stack
  vis_mono : ∀ u, visitedIn st0 u → visitedIn st u
  num_pres : ∀ u, visitedIn st0 u → mapGet st.indexMap u = mapGet st0.indexMap u
  low_pres : ∀ u, visitedIn st0 u → mapGet st.lowlinkMap u = mapGet st0.lowlinkMap u
  idx_gt : st0.idx < st.idx
  v_vis : visitedIn st v
  v_num : numOf st v = st0.idx
  v_low : lowOf st v ≤ numOf st v
  v_unvis0 : ¬ visitedIn st0 v
  parts_new : ∀ y ∈ parts, ¬ visitedIn st0 y
  parts_num : ∀ y ∈ parts, st0.idx < numOf st y
  parts_strict : ∀ y ∈ parts, lowOf st y < numOf st y
  parts_lowv : ∀ y ∈ parts, lowOf st v ≤ lowOf st y
  parts_succ : ∀ y ∈ parts, ∀ w ∈ succsOf adj y, visitedIn st w
  parts_back : ∀ y ∈ parts, ∀ w ∈ succsOf adj y, w ∈ st.stack → lowOf st y ≤ numOf st w
  proc_vis : ∀ w ∈ procd, visitedIn st w
  proc_back : ∀ w ∈ procd, w ∈ st.stack → lowOf st v ≤ numOf st w
  new_reach : ∀ u, ¬ visitedIn st0 u → visitedIn st u → adjReaches adj v u

/-- The stack-extension part of the postcondition of `strongConnect v`:
`np` is the list of vertices newly pushed and still on the stack (empty
exactly when `v` closed its own component). -/
structure SCNP (adj : List (List Nat)) (v : Nat) (st0 st' : TarjanState)
    (np : List Nat) : Prop where
  stack_eq : st'.stack = np ++ st0.stack
  np_new : ∀ y ∈ np, ¬ visitedIn st0 y
  np_num : ∀ y ∈ np, st0.idx ≤ numOf st' y
  np_strict : ∀ y ∈ np, lowOf st' y < numOf st' y
  np_lowv : ∀ y ∈ np, lowOf st' v ≤ lowOf st' y
  np_succ : ∀ y ∈ np, ∀ w ∈ succsOf adj y, visitedIn st' w
  np_back : ∀ y ∈ np, ∀ w ∈ succsOf adj y, w ∈ st'.stack → lowOf st' y ≤ numOf st' w
  np_shape : np = [] ∨ ∃ q, np = q ++ [v]
  pop_low : np = [] → lowOf st' v = numOf st' v

/-- The postcondition of `strongConnect v` run from state `st0`. -/
structure SCPost (adj : List (List Nat)) (n : Nat) (indexToId : List String)
    (idToNode : List (String × GraphNode)) (v : Nat) (st0 st' : TarjanState) : Prop where
  twf : TWF adj n indexToId idToNode st'
  vis_mono : ∀ u, visitedIn st0 u → visitedIn st' u
  num_pres : ∀ u, visitedIn st0 u → mapGet st'.indexMap u = mapGet st0.indexMap u
  low_pres : ∀ u, visitedIn st0 u → mapGet st'.lowlinkMap u = mapGet st0.lowlinkMap u
  idx_gt : st0.idx < st'.idx
  v_vis : visitedIn st' v
  v_num : numOf st' v = st0.idx
  new_reach : ∀ u, ¬ visitedIn st0 u → visitedIn st' u → adjReaches adj v u
  np_ex : ∃ np, SCNP adj v st0 st' np

-- ───────────────────────────────────────────────────────────────────
-- Helper lemmas
-- ───────────────────────────────────────────────────────────────────

/-- A comment line has non-blank trimmed content: every recognised marker
is non-empty, so a blank trimmed line matches none of them. -/
lemma trim_ne_nil_of_isCommentLine {l : List Char} (h : isCommentLine l = true) :
    0 < (jsTrim l).length := by
  by_contra hlen
  have ht : jsTrim l = [] := by
    cases hjt : jsTrim l with
    | nil => rfl
    | cons c cs => rw [hjt] at hlen; simp at hlen
  rw [isCommentLine, ht] at h
  revert h
  decide

/-- `takeWhile` passes over a block whose members all satisfy the
predicate. -/
lemma takeWhile_append_of_all {α : Type} {p : α → Bool} {s : List α} (l : List α)
    (h : ∀ c ∈ s, p c = true) :
    (s ++ l).takeWhile p = s ++ l.takeWhile p := by
  induction s with
  | nil => simp
  | cons c cs ih =>
    simp only [List.cons_append, List.takeWhile_cons]
    rw [h c (by simp)]
    simp only [if_true]
    rw [ih (fun x hx => h x (by simp [hx]))]

/-- The hardcoded-secret pattern matches right at an
`apiKey = "<literal>"` assignment whose following characters carry an
8-plus-character quote-free literal. -/
lemma secretMatcher_apiKey (prev : Option Char) (rest : List Char) :
    secretMatcher prev ("apiKey = ".data ++ dq :: rest) =
      if 8 ≤ (rest.takeWhile (fun c => !(c == sq || c == dq))).length then some 1
      else none := rfl

/-- The hardcoded-secret pattern matches an `apiKey` assignment of a
quote-free literal of length at least 8. -/
lemma secretMatcher_matches (prev : Option Char) (s post : List Char)
    (hlen : 8 ≤ s.length) (hq : ∀ c ∈ s, c ≠ sq ∧ c ≠ dq) :
    secretMatcher prev ("apiKey = ".data ++ [dq] ++ s ++ [dq] ++ post) = some 1 := by
  have hshape : "apiKey = ".data ++ [dq] ++ s ++ [dq] ++ post =
      "apiKey = ".data ++ dq :: (s ++ dq :: post) := by simp
  rw [hshape, secretMatcher_apiKey]
  have hall : ∀ c ∈ s, (fun c => !(c == sq || c == dq)) c = true := by
    intro c hc
    obtain ⟨h1, h2⟩ := hq c hc
    simp [h1, h2]
  rw [takeWhile_append_of_all _ hall]
  have h2 : (dq :: post).takeWhile (fun c => !(c == sq || c == dq)) = [] := by
    simp [List.takeWhile_cons]
  rw [h2]
  simpa using hlen

/-- A position-independent matcher that matches a suffix makes the whole
scan succeed. -/
lemma anyMatch_of_suffix {m : Matcher} (hm : ∀ p q l, m p l = m q l)
    (l1 l2 : List Char) (prev : Option Char)
    (h : (m none l2).isSome = true) : anyMatch m prev (l1 ++ l2) = true := by
  induction l1 generalizing prev with
  | nil =>
    cases l2 with
    | nil => simpa [anyMatch, hm prev none] using h
    | cons c cs =>
      simp only [List.nil_append, anyMatch]
      rw [hm prev none]
      simp [h]
  | cons c cs ih =>
    have := ih (some c)
    simp [anyMatch, this]

/-- Every insight emitted for a line carries that line's 1-based number. -/
lemma lineIssues_line {fp : String} {i : Nat} {l : List Char} {ins : SecurityInsight}
    (h : ins ∈ lineIssues fp i l) : ins.line = i + 1 := by
  rw [lineIssues, List.mem_append, List.mem_append] at h
  rcases h with (h | h) | h <;> split at h <;> simp_all

/-- Insights emitted from line index `k` onwards have line numbers above
`k`. -/
lemma mem_scanLines_line_ge {fp : String} {ins : SecurityInsight} :
    ∀ {k : Nat} {ls : List (List Char)}, ins ∈ scanLines fp k ls → k + 1 ≤ ins.line := by
  intro k ls
  induction ls generalizing k with
  | nil => intro h; simp [scanLines] at h
  | cons l rest ih =>
    intro h
    rw [scanLines, List.mem_append] at h
    rcases h with h | h
    · exact le_of_eq (lineIssues_line h).symm
    · have := ih h
      omega

/-- The hardcoded-secret insights attributed to line `j` are exactly the
output of the secret check on that line. -/
lemma filter_scanLines_secret (fp : String) (ls : List (List Char)) :
    ∀ (k j : Nat) (line : List Char), ls.get? j = some line →
    (scanLines fp k ls).filter
        (fun ins => decide (ins.type = InsightType.hardcodedSecret) &&
          decide (ins.line = k + j + 1)) =
      (if secretLineTest line then
        [{ type := InsightType.hardcodedSecret, filePath := fp, line := k + j + 1
         , severity := Severity.critical
         , message := "Potential hardcoded secret detected" }]
      else []) := by
  induction ls with
  | nil => intro k j line h; simp at h
  | cons l rest ih =>
    intro k j line h
    cases j with
    | zero =>
      have h2 : l = line := by simpa using h
      subst h2
      rw [scanLines, List.filter_append]
      have hrest : (scanLines fp (k + 1) rest).filter
          (fun ins => decide (ins.type = InsightType.hardcodedSecret) &&
            decide (ins.line = k + 0 + 1)) = [] := by
        rw [List.filter_eq_nil_iff]
        intro ins hins
        have := mem_scanLines_line_ge hins
        simp only [Bool.and_eq_true, decide_eq_true_eq]
        rintro ⟨-, h2⟩
        omega
      rw [hrest, List.append_nil]
      by_cases hs : secretLineTest l <;>
        by_cases he : evalLineTest l <;>
        by_cases hqq : sqlLineTest l <;>
        simp [lineIssues, hs, he, hqq]
    | succ j' =>
      simp only [List.get?] at h
      rw [scanLines, List.filter_append]
      have hline : (lineIssues fp k l).filter
          (fun ins => decide (ins.type = InsightType.hardcodedSecret) &&
            decide (ins.line = k + (j' + 1) + 1)) = [] := by
        rw [List.filter_eq_nil_iff]
        intro ins hins
        have := lineIssues_line hins
        simp only [Bool.and_eq_true, decide_eq_true_eq]
        rintro ⟨-, h2⟩
        omega
      rw [hline, List.nil_append]
      have harith : k + (j' + 1) + 1 = (k + 1) + j' + 1 := by omega
      rw [harith]
      exact ih (k + 1) j' line h

/-- Scanning one file adds exactly one to the total-file counter. -/
lemma processScannedFile_totalFiles (P : AnalyzerParams) (rootPath cur name content : String)
    (st : ScanState) :
    (processScannedFile P rootPath cur name content st).stats.totalFiles =
      st.stats.totalFiles + 1 := by
  unfold processScannedFile
  dsimp only
  split_ifs <;> rfl

/-- Once the counter exceeds the cap, the directory loop returns its state
untouched and reports success. -/
lemma scanEntries_stop (P : AnalyzerParams) (rootPath cur : String)
    (entries : List FSTree) (st : ScanState) (hcap : MAX_FILES < st.stats.totalFiles) :
    scanEntry.scanEntries P rootPath cur entries st = (st, true) := by
  cases entries with
  | nil => rfl
  | cons e rest =>
    rw [scanEntry.scanEntries]
    simp [hcap]

/-- The cap invariant: starting at or below `MAX_FILES + 1`, the scanner
never pushes the counter above `MAX_FILES + 1` (each admitted file is
checked against the cap before being counted). -/
lemma scanEntries_totalFiles_le (P : AnalyzerParams) (rootPath : String) :
    ∀ (cur : String) (entries : List FSTree) (st : ScanState),
      st.stats.totalFiles ≤ MAX_FILES + 1 →
      (scanEntry.scanEntries P rootPath cur entries st).1.stats.totalFiles ≤ MAX_FILES + 1 := by
  apply scanEntry.scanEntries.induct P rootPath
    (fun cur entries st => st.stats.totalFiles ≤ MAX_FILES + 1 →
      (scanEntry.scanEntries P rootPath cur entries st).1.stats.totalFiles ≤ MAX_FILES + 1)
    (fun cur e st => st.stats.totalFiles ≤ MAX_FILES →
      (scanEntry P rootPath cur e st).1.stats.totalFiles ≤ MAX_FILES + 1)
  · intro cur name content st h
    rw [scanEntry]
    rw [processScannedFile_totalFiles]
    omega
  · intro cur name st hskip h
    rw [scanEntry]
    simp [hskip]
    omega
  · intro cur name st hskip h
    rw [scanEntry]
    simp [hskip]
    omega
  · intro cur name sub st hskip h
    rw [scanEntry]
    simp [hskip]
    omega
  · intro cur name sub st hskip ih h
    rw [scanEntry]
    simp only [if_neg hskip]
    exact ih (by omega)
  · intro cur st h
    rw [scanEntry.scanEntries]
    exact h
  · intro cur e rest st hcap h
    rw [scanEntry.scanEntries]
    simp [hcap]
    omega
  · intro cur e rest st hcap st2 heq ih1 ih2 h
    rw [scanEntry.scanEntries]
    simp only [if_neg hcap, heq]
    apply ih2
    have := ih1 (by omega)
    rw [heq] at this
    exact this
  · intro cur e rest st hcap st2 heq ih1 h
    rw [scanEntry.scanEntries]
    simp only [if_neg hcap, heq]
    have := ih1 (by omega)
    rw [heq] at this
    exact this

/-- The post-scan pipeline does not change the total-file count. -/
lemma analyzeScanned_totalFiles (P : AnalyzerParams) (rootPath : String) (st : ScanState) :
    (analyzeScanned P rootPath st).stats.totalFiles = st.stats.totalFiles := rfl


lemma mapGet_mapSet {α β : Type} [DecidableEq α] (m : List (α × β)) (k x : α) (v : β) :
    mapGet (mapSet m k v) x = if x = k then some v else mapGet m x := by
  rw [mapSet, mapGet]
  by_cases h : k = x
  · subst h
    rw [List.find?_cons_of_pos _ (by simp)]
    simp
  · rw [List.find?_cons_of_neg _ (by simp [h])]
    rw [if_neg (fun hx => h hx.symm)]
    rfl

lemma mapGet_mem_values {α β : Type} [DecidableEq α] {m : List (α × β)} {k : α} {v : β}
    (h : mapGet m k = some v) : v ∈ m.map Prod.snd := by
  rw [mapGet] at h
  cases hf : m.find? (fun p => p.1 = k) with
  | none => rw [hf] at h; simp at h
  | some p =>
    rw [hf] at h
    simp at h
    subst h
    exact List.mem_map_of_mem _ (List.mem_of_find?_eq_some hf)

lemma lookupTarget_mem_values {fmap : List (String × String)} {p? : Option LanguageParser}
    {r t : String} (h : lookupTarget fmap p? r = some t) : t ∈ fmap.map Prod.snd := by
  rw [lookupTarget.eq_def] at h
  split at h
  · rename_i t' hm
    injection h with h
    subst h
    exact mapGet_mem_values hm
  · obtain ⟨te, -, hte⟩ := List.exists_of_findSome?_eq_some h
    exact mapGet_mem_values hte

lemma updateFirstEdge_map_id (edgeId : String) (specs : List String) :
    ∀ l : List GraphEdge,
      (updateFirstEdge edgeId specs l).map (fun e => e.id) = l.map (fun e => e.id)
  | [] => rfl
  | e :: rest => by
    rw [updateFirstEdge]
    split
    · rfl
    · simp only [List.map_cons]
      rw [updateFirstEdge_map_id edgeId specs rest]

lemma updateFirstEdge_filter_target (edgeId : String) (specs : List String) (x : String) :
    ∀ l : List GraphEdge,
      ((updateFirstEdge edgeId specs l).filter (fun e => e.target = x)).length =
        (l.filter (fun e => e.target = x)).length
  | [] => rfl
  | e :: rest => by
    rw [updateFirstEdge]
    split
    · simp only [List.filter_cons]
      have hrec := updateFirstEdge_filter_target edgeId specs x rest
      split <;> simp
    · simp only [List.filter_cons]
      have hrec := updateFirstEdge_filter_target edgeId specs x rest
      split <;> simp [hrec]

lemma updateFirstEdge_filter_source (edgeId : String) (specs : List String) (x : String) :
    ∀ l : List GraphEdge,
      ((updateFirstEdge edgeId specs l).filter (fun e => e.source = x)).length =
        (l.filter (fun e => e.source = x)).length
  | [] => rfl
  | e :: rest => by
    rw [updateFirstEdge]
    split
    · simp only [List.filter_cons]
      have hrec := updateFirstEdge_filter_source edgeId specs x rest
      split <;> simp
    · simp only [List.filter_cons]
      have hrec := updateFirstEdge_filter_source edgeId specs x rest
      split <;> simp [hrec]

lemma mem_updateFirstEdge {edgeId : String} {specs : List String} :
    ∀ {l : List GraphEdge} {x : GraphEdge}, x ∈ updateFirstEdge edgeId specs l →
      ∃ e ∈ l, x.id = e.id ∧ x.source = e.source ∧ x.target = e.target := by
  intro l
  induction l with
  | nil => intro x hx; simp [updateFirstEdge] at hx
  | cons e rest ih =>
    intro x hx
    rw [updateFirstEdge] at hx
    split at hx
    · rcases List.mem_cons.mp hx with hx | hx
      · subst hx
        exact ⟨e, List.mem_cons_self _ _, rfl, rfl, rfl⟩
      · exact ⟨x, List.mem_cons_of_mem _ hx, rfl, rfl, rfl⟩
    · rcases List.mem_cons.mp hx with hx | hx
      · subst hx
        exact ⟨_, List.mem_cons_self _ _, rfl, rfl, rfl⟩
      · obtain ⟨e0, he0, h⟩ := ih hx
        exact ⟨e0, List.mem_cons_of_mem _ he0, h⟩

lemma foldl_preserves {α β : Type} (Inv : β → Prop) (f : β → α → β) :
    ∀ (l : List α) (b : β), (∀ b a, a ∈ l → Inv b → Inv (f b a)) → Inv b → Inv (l.foldl f b) := by
  intro l
  induction l with
  | nil => intro b _ hb; exact hb
  | cons a rest ih =>
    intro b h hb
    exact ih _ (fun b' a' ha' => h b' a' (List.mem_cons_of_mem _ ha'))
      (h b a (List.mem_cons_self _ _) hb)

lemma addResolvedEdge_edgeStateInv {nodeIds fmapVals : List String}
    (idToNode : List (String × GraphNode)) (node : GraphNode) (st : EdgeState)
    (t : String) (specs : List String)
    (hsrc : node.id ∈ nodeIds) (htgt : t ∈ fmapVals)
    (hinv : edgeStateInv nodeIds fmapVals st) :
    edgeStateInv nodeIds fmapVals (addResolvedEdge idToNode node st t specs) := by
  obtain ⟨hwf, hnd, hadd⟩ := hinv
  rw [addResolvedEdge]
  by_cases hne : t = node.id
  · rw [if_pos hne]
    exact ⟨hwf, hnd, hadd⟩
  · rw [if_neg hne]
    dsimp only
    by_cases hmem : (node.id ++ "-" ++ t) ∈ st.added
    · rw [if_pos hmem]
      refine ⟨?_, ?_, ?_⟩
      · intro e he
        obtain ⟨e0, he0, h1, h2, h3⟩ := mem_updateFirstEdge he
        obtain ⟨w1, w2, w3, w4⟩ := hwf e0 he0
        refine ⟨?_, ?_, ?_, ?_⟩
        · rw [h1, h2, h3]; exact w1
        · rw [h2, h3]; exact w2
        · rw [h2]; exact w3
        · rw [h3]; exact w4
      · simpa only [updateFirstEdge_map_id] using hnd
      · intro e he
        obtain ⟨e0, he0, h1, -, -⟩ := mem_updateFirstEdge he
        rw [h1]
        exact hadd e0 he0
    · rw [if_neg hmem]
      refine ⟨?_, ?_, ?_⟩
      · intro e he
        rcases List.mem_append.mp he with he | he
        · exact hwf e he
        · simp only [List.mem_singleton] at he
          subst he
          exact ⟨rfl, fun hst => hne hst.symm, hsrc, htgt⟩
      · rw [List.map_append]
        apply List.Nodup.append hnd (by simp)
        intro x hx hx2
        simp at hx2
        subst hx2
        obtain ⟨a, ha, haid⟩ := List.mem_map.mp hx
        exact hmem (haid ▸ hadd a ha)
      · intro e he
        rcases List.mem_append.mp he with he | he
        · exact List.mem_cons_of_mem _ (hadd e he)
        · simp only [List.mem_singleton] at he
          subst he
          exact List.mem_cons_self _ _

lemma addResolvedEdge_countsMatch (idToNode : List (String × GraphNode)) (node : GraphNode)
    (st : EdgeState) (t : String) (specs : List String)
    (hc : countsMatch st) : countsMatch (addResolvedEdge idToNode node st t specs) := by
  rw [addResolvedEdge]
  by_cases hne : t = node.id
  · rw [if_pos hne]
    exact hc
  · rw [if_neg hne]
    dsimp only
    by_cases hmem : (node.id ++ "-" ++ t) ∈ st.added
    · rw [if_pos hmem]
      intro x
      obtain ⟨h1, h2⟩ := hc x
      exact ⟨by rw [updateFirstEdge_filter_target]; exact h1,
             by rw [updateFirstEdge_filter_source]; exact h2⟩
    · rw [if_neg hmem]
      intro x
      obtain ⟨h1, h2⟩ := hc x
      constructor
      · rw [mapGet_mapSet]
        by_cases hx : x = t
        · subst hx
          rw [if_pos rfl]
          rw [List.filter_append, List.length_append]
          simp only [Option.getD_some, List.filter_cons, List.filter_nil]
          rw [if_pos (by simp)]
          simp [h1]
        · rw [if_neg hx]
          rw [List.filter_append, List.length_append]
          simp only [List.filter_cons, List.filter_nil]
          rw [if_neg (by simp; exact fun h => hx h.symm)]
          simp [h1]
      · rw [mapGet_mapSet]
        by_cases hx : x = node.id
        · subst hx
          rw [if_pos rfl]
          rw [List.filter_append, List.length_append]
          simp only [Option.getD_some, List.filter_cons, List.filter_nil]
          rw [if_pos (by simp)]
          simp [h2]
        · rw [if_neg hx]
          rw [List.filter_append, List.length_append]
          simp only [List.filter_cons, List.filter_nil]
          rw [if_neg (by simp; exact fun h => hx h.symm)]
          simp [h2]

lemma initEdgeState_inv (nodeIds fmapVals : List String) :
    edgeStateInv nodeIds fmapVals initEdgeState ∧ countsMatch initEdgeState := by
  refine ⟨⟨?_, ?_, ?_⟩, ?_⟩ <;> simp [initEdgeState, countsMatch, mapGet]

lemma buildEdges_inv (P : AnalyzerParams) (rootPath : String) (fmap : List (String × String))
    (idToNode : List (String × GraphNode)) (contentOf : String → String)
    (nodes : List GraphNode) :
    edgeStateInv (nodes.map (fun n => n.id)) (fmap.map Prod.snd)
        (buildEdges P rootPath fmap idToNode contentOf nodes) ∧
    countsMatch (buildEdges P rootPath fmap idToNode contentOf nodes) := by
  rw [buildEdges]
  refine foldl_preserves
    (fun st => edgeStateInv (nodes.map (fun n => n.id)) (fmap.map Prod.snd) st ∧ countsMatch st)
    _ _ _ ?_ (initEdgeState_inv _ _)
  intro st node hnode hst
  dsimp only
  cases hp : extToParser (String.mk (lowerList (extnameOf node.id).data)) with
  | none => exact hst
  | some parser =>
    dsimp only
    refine foldl_preserves
      (fun s => edgeStateInv (nodes.map (fun n => n.id)) (fmap.map Prod.snd) s ∧ countsMatch s)
      _ _ _ ?_ hst
    intro st' imp himp hst'
    dsimp only
    cases hr : resolveCandidate rootPath fmap parser.name (pathDirname node.id) imp.importPath with
    | none => exact hst'
    | some resolvedPath =>
      dsimp only
      by_cases hemp : resolvedPath = ""
      · rw [if_pos hemp]
        exact hst'
      · rw [if_neg hemp]
        cases hl : lookupTarget fmap (some parser) resolvedPath with
        | none => exact hst'
        | some t =>
          exact ⟨addResolvedEdge_edgeStateInv idToNode node st' t imp.specifiers
              (List.mem_map_of_mem _ hnode) (lookupTarget_mem_values hl) hst'.1,
            addResolvedEdge_countsMatch idToNode node st' t imp.specifiers hst'.2⟩

lemma step3All_nodes (c : String → String) (i o : List (String × Nat)) :
    ∀ (ns : List GraphNode) (acc : List GraphNode × Int × List SecurityInsight),
    (ns.foldl (step3Step c i o) acc).1 = acc.1 ++ ns.map (fun n => (step3Node c i o n).1) := by
  intro ns
  induction ns with
  | nil => intro acc; simp
  | cons n rest ih =>
    intro acc
    rw [List.foldl_cons, ih]
    simp [step3Step]

lemma rescoreCycleNode_fields (ids : List String) (n : GraphNode) :
    (rescoreCycleNode ids n).id = n.id ∧
    (rescoreCycleNode ids n).fanIn = n.fanIn ∧
    (rescoreCycleNode ids n).fanOut = n.fanOut ∧
    (rescoreCycleNode ids n).metrics = n.metrics ∧
    (rescoreCycleNode ids n).path = n.path ∧
    (rescoreCycleNode ids n).inCycle = decide (n.id ∈ ids) := by
  rw [rescoreCycleNode]
  dsimp only
  split_ifs <;> exact ⟨rfl, rfl, rfl, rfl, rfl, rfl⟩

lemma mem_pipelineNodes4 (P : AnalyzerParams) (rootPath : String) (st : ScanState)
    {n : GraphNode} (hn : n ∈ pipelineNodes4 P rootPath st) :
    ∃ m ∈ st.nodes, n.id = m.id ∧
      n.fanIn = (mapGet (pipelineEdges P rootPath st).incoming m.id).getD 0 ∧
      n.fanOut = (mapGet (pipelineEdges P rootPath st).outgoing m.id).getD 0 ∧
      n.metrics = calculateCodeMetrics (scanContentOf st m.id) ∧
      n.inCycle = decide (m.id ∈ (pipelineCycles P rootPath st).flatMap (fun c => c.ids)) := by
  rw [pipelineNodes4] at hn
  obtain ⟨n3, hn3, rfl⟩ := List.mem_map.mp hn
  rw [pipelineNodes3] at hn3
  obtain ⟨n2, hn2, rfl⟩ := List.mem_map.mp hn3
  rw [pipelineStep3, step3All, step3All_nodes] at hn2
  simp only [List.nil_append] at hn2
  obtain ⟨m, hm, rfl⟩ := List.mem_map.mp hn2
  obtain ⟨f1, f2, f3, f4, f5, f6⟩ :=
    rescoreCycleNode_fields ((pipelineCycles P rootPath st).flatMap (fun c => c.ids))
      (step3Node (scanContentOf st) (pipelineEdges P rootPath st).incoming
        (pipelineEdges P rootPath st).outgoing m).1
  refine ⟨m, hm, ?_, ?_, ?_, ?_, ?_⟩
  · simp only [assignRole]
    rw [f1]
    rfl
  · simp only [assignRole]
    rw [f2]
    rfl
  · simp only [assignRole]
    rw [f3]
    rfl
  · simp only [assignRole]
    rw [f4]
    rfl
  · simp only [assignRole]
    rw [f6]
    rfl

lemma processScannedFile_inv (P : AnalyzerParams) (rootPath cur name content : String)
    (st : ScanState)
    (h : (∀ kv ∈ st.fileMap, kv.2 ∈ st.nodes.map (fun n => n.id)) ∧
      (∀ n ∈ st.nodes, n.inCycle = false)) :
    (∀ kv ∈ (processScannedFile P rootPath cur name content st).fileMap,
      kv.2 ∈ (processScannedFile P rootPath cur name content st).nodes.map (fun n => n.id)) ∧
    (∀ n ∈ (processScannedFile P rootPath cur name content st).nodes, n.inCycle = false) := by
  obtain ⟨h1, h2⟩ := h
  unfold processScannedFile
  dsimp only
  split_ifs <;>
    refine ⟨fun kv hkv => ?_, fun n hn => ?_⟩ <;>
    first
      | exact h1 kv hkv
      | exact h2 n hn
      | (rcases List.mem_cons.mp hkv with hh | hh
         · subst hh
           simp
         · simp only [List.map_append, List.mem_append]
           exact Or.inl (h1 kv hh))
      | (rcases List.mem_append.mp hn with hh | hh
         · exact h2 n hh
         · simp only [List.mem_singleton] at hh
           subst hh
           rfl)

lemma scan_state_inv (P : AnalyzerParams) (rootPath : String) :
    ∀ (cur : String) (entries : List FSTree) (st : ScanState),
      ((∀ kv ∈ st.fileMap, kv.2 ∈ st.nodes.map (fun n => n.id)) ∧
       (∀ n ∈ st.nodes, n.inCycle = false)) →
      ((∀ kv ∈ (scanEntry.scanEntries P rootPath cur entries st).1.fileMap,
          kv.2 ∈ (scanEntry.scanEntries P rootPath cur entries st).1.nodes.map (fun n => n.id)) ∧
       (∀ n ∈ (scanEntry.scanEntries P rootPath cur entries st).1.nodes, n.inCycle = false)) := by
  apply scanEntry.scanEntries.induct P rootPath
    (fun cur entries st =>
      ((∀ kv ∈ st.fileMap, kv.2 ∈ st.nodes.map (fun n => n.id)) ∧
       (∀ n ∈ st.nodes, n.inCycle = false)) →
      ((∀ kv ∈ (scanEntry.scanEntries P rootPath cur entries st).1.fileMap,
          kv.2 ∈ (scanEntry.scanEntries P rootPath cur entries st).1.nodes.map (fun n => n.id)) ∧
       (∀ n ∈ (scanEntry.scanEntries P rootPath cur entries st).1.nodes, n.inCycle = false)))
    (fun cur e st =>
      ((∀ kv ∈ st.fileMap, kv.2 ∈ st.nodes.map (fun n => n.id)) ∧
       (∀ n ∈ st.nodes, n.inCycle = false)) →
      ((∀ kv ∈ (scanEntry P rootPath cur e st).1.fileMap,
          kv.2 ∈ (scanEntry P rootPath cur e st).1.nodes.map (fun n => n.id)) ∧
       (∀ n ∈ (scanEntry P rootPath cur e st).1.nodes, n.inCycle = false)))
  · intro cur name content st h
    rw [scanEntry]
    exact processScannedFile_inv P rootPath cur name content st h
  · intro cur name st hskip h
    rw [scanEntry]
    simp only [if_pos hskip]
    exact h
  · intro cur name st hskip h
    rw [scanEntry]
    simp only [if_neg hskip]
    exact h
  · intro cur name sub st hskip h
    rw [scanEntry]
    simp only [if_pos hskip]
    exact h
  · intro cur name sub st hskip ih h
    rw [scanEntry]
    simp only [if_neg hskip]
    exact ih h
  · intro cur st h
    rw [scanEntry.scanEntries]
    exact h
  · intro cur e rest st hcap h
    rw [scanEntry.scanEntries]
    simp only [if_pos hcap]
    exact h
  · intro cur e rest st hcap st2 heq ih1 ih2 h
    rw [scanEntry.scanEntries]
    simp only [if_neg hcap, heq]
    apply ih2
    have := ih1 h
    rw [heq] at this
    exact this
  · intro cur e rest st hcap st2 heq ih1 h
    rw [scanEntry.scanEntries]
    simp only [if_neg hcap, heq]
    have := ih1 h
    rw [heq] at this
    exact this

lemma map_id_assignRole (t1 t2 : Nat) (l : List GraphNode) :
    (l.map (assignRole t1 t2)).map (fun n => n.id) = l.map (fun n => n.id) := by
  rw [List.map_map]
  rfl

lemma map_id_rescore (ids : List String) (l : List GraphNode) :
    (l.map (rescoreCycleNode ids)).map (fun n => n.id) = l.map (fun n => n.id) := by
  rw [List.map_map]
  exact List.map_congr_left (fun n _ => (rescoreCycleNode_fields ids n).1)

lemma pipelineNodes4_ids (P : AnalyzerParams) (rootPath : String) (st : ScanState) :
    (pipelineNodes4 P rootPath st).map (fun n => n.id) = st.nodes.map (fun n => n.id) := by
  rw [pipelineNodes4]
  rw [map_id_assignRole, pipelineNodes3, map_id_rescore]
  rw [pipelineStep3, step3All, step3All_nodes]
  simp only [List.nil_append, List.map_map]
  rfl

lemma updateFirstEdge_mem_updated (edgeId : String) (specs : List String) :
    ∀ {l : List GraphEdge}, (l.map (fun e => e.id)).Nodup →
      ∀ {e₀ : GraphEdge}, e₀ ∈ l → e₀.id = edgeId →
      { e₀ with imports := dedupFirst (e₀.imports ++ specs) } ∈ updateFirstEdge edgeId specs l := by
  intro l
  induction l with
  | nil =>
    intro _ e₀ h
    simp at h
  | cons e rest ih =>
    intro hnd e₀ he₀ hid
    rw [updateFirstEdge]
    rcases List.mem_cons.mp he₀ with h | h
    · subst h
      rw [if_pos hid]
      exact List.mem_cons_self _ _
    · by_cases hee : e.id = edgeId
      · exfalso
        rw [List.map_cons, List.nodup_cons] at hnd
        apply hnd.1
        have : e.id = e₀.id := hee.trans hid.symm
        rw [this]
        exact List.mem_map_of_mem _ h
      · rw [if_neg hee]
        rw [List.map_cons, List.nodup_cons] at hnd
        exact List.mem_cons_of_mem _ (ih hnd.2 h hid)

/-- Claim C3: in every graph returned by `analyzeRepoDependencies`, each
edge's source and target are distinct ids present in the node set, no two
edges share the same `(source, target)` ordered pair, and when a pair that
already has an edge arises again the specifier lists are unioned onto that
one existing edge without adding a duplicate (stated for the edge-adding
step on any state satisfying the construction invariant). -/
theorem c3_edge_invariants (P : AnalyzerParams) (rootPath : String)
    (rootEntries : Option (List FSTree)) :
    (∀ e ∈ (analyzeRepoDependencies P rootPath rootEntries).edges,
      e.source ≠ e.target ∧
      e.source ∈ (analyzeRepoDependencies P rootPath rootEntries).nodes.map (fun n => n.id) ∧
      e.target ∈ (analyzeRepoDependencies P rootPath rootEntries).nodes.map (fun n => n.id)) ∧
    (((analyzeRepoDependencies P rootPath rootEntries).edges.map
        (fun e => (e.source, e.target))).Nodup) ∧
    (∀ (idToNode : List (String × GraphNode)) (node : GraphNode) (st : EdgeState)
        (t : String) (specs : List String) (nodeIds fmapVals : List String) (e₀ : GraphEdge),
      edgeStateInv nodeIds fmapVals st → e₀ ∈ st.edges → e₀.source = node.id → e₀.target = t →
      (addResolvedEdge idToNode node st t specs).edges.length = st.edges.length ∧
      { e₀ with imports := dedupFirst (e₀.imports ++ specs) } ∈
        (addResolvedEdge idToNode node st t specs).edges) := by
  refine ⟨?_, ?_, ?_⟩
  · intro e he
    unfold analyzeRepoDependencies at he ⊢
    dsimp only at he ⊢
    by_cases hok : (scanRoot P rootPath rootEntries).2 = true
    · rw [if_pos hok] at he ⊢
      have hscan : (∀ kv ∈ (scanRoot P rootPath rootEntries).1.fileMap,
            kv.2 ∈ (scanRoot P rootPath rootEntries).1.nodes.map (fun n => n.id)) ∧
          (∀ n ∈ (scanRoot P rootPath rootEntries).1.nodes, n.inCycle = false) := by
        cases rootEntries with
        | none => simp [scanRoot] at hok
        | some entries =>
          exact scan_state_inv P rootPath rootPath entries initScanState
            (by simp [initScanState])
      have hinv := (buildEdges_inv P rootPath (scanRoot P rootPath rootEntries).1.fileMap
        (mkIdToNode (scanRoot P rootPath rootEntries).1.nodes)
        (scanContentOf (scanRoot P rootPath rootEntries).1)
        (scanRoot P rootPath rootEntries).1.nodes).1
      have he' : e ∈ (pipelineEdges P rootPath (scanRoot P rootPath rootEntries).1).edges := he
      obtain ⟨w1, w2, w3, w4⟩ := hinv.1 e he'
      have hnodes : (analyzeScanned P rootPath (scanRoot P rootPath rootEntries).1).nodes.map
          (fun n => n.id) = (scanRoot P rootPath rootEntries).1.nodes.map (fun n => n.id) :=
        pipelineNodes4_ids P rootPath (scanRoot P rootPath rootEntries).1
      refine ⟨w2, ?_, ?_⟩
      · rw [hnodes]
        exact w3
      · rw [hnodes]
        obtain ⟨kv, hkv, hkv2⟩ := List.mem_map.mp w4
        rw [← hkv2]
        exact hscan.1 kv hkv
    · rw [if_neg hok] at he
      simp at he
  · unfold analyzeRepoDependencies
    dsimp only
    by_cases hok : (scanRoot P rootPath rootEntries).2 = true
    · rw [if_pos hok]
      have hinv := (buildEdges_inv P rootPath (scanRoot P rootPath rootEntries).1.fileMap
        (mkIdToNode (scanRoot P rootPath rootEntries).1.nodes)
        (scanContentOf (scanRoot P rootPath rootEntries).1)
        (scanRoot P rootPath rootEntries).1.nodes).1
      obtain ⟨hwf, hnd, -⟩ := hinv
      unfold List.Nodup at hnd ⊢
      rw [List.pairwise_map] at hnd ⊢
      refine List.Pairwise.imp_of_mem ?_ hnd
      intro e1 e2 h1 h2 hne hpair
      apply hne
      obtain ⟨i1, -, -, -⟩ := hwf e1 h1
      obtain ⟨i2, -, -, -⟩ := hwf e2 h2
      rw [i1, i2]
      have hs : e1.source = e2.source := congrArg Prod.fst hpair
      have ht : e1.target = e2.target := congrArg Prod.snd hpair
      rw [hs, ht]
    · rw [if_neg hok]
      simp
  · intro idToNode node st t specs nodeIds fmapVals e₀ hinv he₀ hs ht
    obtain ⟨hwf, hnd, hadd⟩ := hinv
    obtain ⟨wid, wne, -, -⟩ := hwf e₀ he₀
    have hid : e₀.id = node.id ++ "-" ++ t := by rw [wid, hs, ht]
    have hne : ¬ (t = node.id) := by
      intro h
      apply wne
      rw [hs, ht, h]
    have hmem : (node.id ++ "-" ++ t) ∈ st.added := hid ▸ hadd e₀ he₀
    rw [addResolvedEdge]
    rw [if_neg hne]
    dsimp only
    rw [if_pos hmem]
    constructor
    · have := updateFirstEdge_map_id (node.id ++ "-" ++ t) specs st.edges
      have hlen := congrArg List.length this
      simpa using hlen
    · exact updateFirstEdge_mem_updated (node.id ++ "-" ++ t) specs hnd he₀ hid

/-- Claim C4: in every returned graph, each node's `fanIn` equals the
number of edges targeting it and its `fanOut` the number of edges leaving
it. -/
theorem c4_fan_counts (P : AnalyzerParams) (rootPath : String)
    (rootEntries : Option (List FSTree)) :
    ∀ n ∈ (analyzeRepoDependencies P rootPath rootEntries).nodes,
      n.fanIn = ((analyzeRepoDependencies P rootPath rootEntries).edges.filter
          (fun e => e.target = n.id)).length ∧
      n.fanOut = ((analyzeRepoDependencies P rootPath rootEntries).edges.filter
          (fun e => e.source = n.id)).length := by
  intro n hn
  unfold analyzeRepoDependencies at hn ⊢
  dsimp only at hn ⊢
  by_cases hok : (scanRoot P rootPath rootEntries).2 = true
  · rw [if_pos hok] at hn ⊢
    have hn' : n ∈ pipelineNodes4 P rootPath (scanRoot P rootPath rootEntries).1 := hn
    obtain ⟨m, hm, hids, hfi, hfo, -, -⟩ :=
      mem_pipelineNodes4 P rootPath (scanRoot P rootPath rootEntries).1 hn'
    have hc := (buildEdges_inv P rootPath (scanRoot P rootPath rootEntries).1.fileMap
      (mkIdToNode (scanRoot P rootPath rootEntries).1.nodes)
      (scanContentOf (scanRoot P rootPath rootEntries).1)
      (scanRoot P rootPath rootEntries).1.nodes).2
    obtain ⟨hc1, hc2⟩ := hc m.id
    constructor
    · rw [hfi, hids]
      exact hc1
    · rw [hfo, hids]
      exact hc2
  · rw [if_neg hok] at hn
    simp at hn

/-- Witness for C3: the merge clause applied to a concrete one-edge
state. -/
theorem c3_edge_invariants_witness :
    (addResolvedEdge []
        { id := "/a", label := "a", path := "/a" }
        { edges := [{ id := "/a-/b", source := "/a", target := "/b", label := "", imports := ["x"] }]
        , added := ["/a-/b"], incoming := [("/b", 1)], outgoing := [("/a", 1)] }
        "/b" ["y"]).edges.length =
      ([{ id := "/a-/b", source := "/a", target := "/b", label := "", imports := ["x"] }] :
        List GraphEdge).length ∧
    ({ id := "/a-/b", source := "/a", target := "/b", label := ""
     , imports := dedupFirst ((["x"] : List String) ++ ["y"]) } : GraphEdge) ∈
      (addResolvedEdge []
        { id := "/a", label := "a", path := "/a" }
        { edges := [{ id := "/a-/b", source := "/a", target := "/b", label := "", imports := ["x"] }]
        , added := ["/a-/b"], incoming := [("/b", 1)], outgoing := [("/a", 1)] }
        "/b" ["y"]).edges :=
  (c3_edge_invariants (tableParams []) "/w" none).2.2 []
    { id := "/a", label := "a", path := "/a" }
    { edges := [{ id := "/a-/b", source := "/a", target := "/b", label := "", imports := ["x"] }]
    , added := ["/a-/b"], incoming := [("/b", 1)], outgoing := [("/a", 1)] }
    "/b" ["y"] ["/a"] ["/b"]
    { id := "/a-/b", source := "/a", target := "/b", label := "", imports := ["x"] }
    (by unfold edgeStateInv edgeWellFormed; decide) (by decide) (by decide) (by decide)

/-- Witness for C4: the fan-count equations hold for a node of the
concrete two-file scenario graph. -/
theorem c4_fan_counts_witness :
    ∃ n ∈ c6Graph.nodes,
      n.fanIn = (c6Graph.edges.filter (fun e => e.target = n.id)).length ∧
      n.fanOut = (c6Graph.edges.filter (fun e => e.source = n.id)).length := by
  have hlen : 0 < c6Graph.nodes.length := by decide
  refine ⟨c6Graph.nodes.get ⟨0, hlen⟩, List.get_mem _ _ _, ?_⟩
  exact c4_fan_counts c6Params "/repo" c6Tree _ (List.get_mem _ _ _)


lemma tarjanVisit_cycles (v : Nat) (st : TarjanState) :
    (tarjanVisit v st).cycles = st.cycles := rfl

lemma tarjanEdgeStep_cycles_min_len (recurse : Nat → TarjanState → TarjanState) (v : Nat)
    (hrec : ∀ (w : Nat) (st : TarjanState), (∀ c ∈ st.cycles, 2 ≤ c.ids.length) →
      ∀ c ∈ (recurse w st).cycles, 2 ≤ c.ids.length)
    (st : TarjanState) (w : Nat) (h : ∀ c ∈ st.cycles, 2 ≤ c.ids.length) :
    ∀ c ∈ (tarjanEdgeStep recurse v st w).cycles, 2 ≤ c.ids.length := by
  rw [tarjanEdgeStep]
  split
  · exact hrec w st h
  · split
    · exact h
    · exact h

lemma tarjanCloseRoot_cycles_min_len (indexToId : List String)
    (idToNode : List (String × GraphNode)) (v : Nat) (st2 : TarjanState)
    (h : ∀ c ∈ st2.cycles, 2 ≤ c.ids.length) :
    ∀ c ∈ (tarjanCloseRoot indexToId idToNode v st2).cycles, 2 ≤ c.ids.length := by
  rw [tarjanCloseRoot]
  split
  · dsimp only
    split
    · intro c hc
      rcases List.mem_append.mp hc with hc | hc
      · exact h c hc
      · simp only [List.mem_singleton] at hc
        subst hc
        rename_i _ hlen
        rw [cycleOfScc]
        simpa using hlen
    · exact h
  · exact h

lemma strongConnect_cycles_min_len (adj : List (List Nat)) (indexToId : List String)
    (idToNode : List (String × GraphNode)) :
    ∀ (fuel v : Nat) (st : TarjanState),
      (∀ c ∈ st.cycles, 2 ≤ c.ids.length) →
      ∀ c ∈ (strongConnect adj indexToId idToNode fuel v st).cycles, 2 ≤ c.ids.length := by
  intro fuel
  induction fuel with
  | zero =>
    intro v st h
    rw [strongConnect]
    exact h
  | succ fuel ih =>
    intro v st h
    rw [strongConnect]
    apply tarjanCloseRoot_cycles_min_len
    refine foldl_preserves (fun (s : TarjanState) => ∀ c ∈ s.cycles, 2 ≤ c.ids.length) _ _ _ ?_ ?_
    · intro s w hw hs
      exact tarjanEdgeStep_cycles_min_len _ v (fun w' st' h' => ih w' st' h') s w hs
    · exact h

lemma findCircularDependencies_min_len (nodes : List GraphNode) (edges : List GraphEdge)
    (idToNode : List (String × GraphNode)) :
    ∀ c ∈ findCircularDependencies nodes edges idToNode, 2 ≤ c.ids.length := by
  rw [findCircularDependencies, tarjanRun]
  refine foldl_preserves (fun (s : TarjanState) => ∀ c ∈ s.cycles, 2 ≤ c.ids.length) _ _ _ ?_ ?_
  · intro s i hi hs
    dsimp only
    split
    · exact strongConnect_cycles_min_len _ _ _ _ _ _ hs
    · exact hs
  · intro c hc
    simp [tarjanInit] at hc

/-- Claim C2: after `analyzeRepoDependencies` completes, a node's
`inCycle` flag is true exactly when its id appears in some reported
circular dependency's id list, and every reported circular dependency has
at least two member ids. -/
theorem c2_cycle_consistency (P : AnalyzerParams) (rootPath : String)
    (rootEntries : Option (List FSTree)) :
    (∀ n ∈ (analyzeRepoDependencies P rootPath rootEntries).nodes,
      (n.inCycle = true ↔
        ∃ c ∈ (analyzeRepoDependencies P rootPath rootEntries).circularDependencies,
          n.id ∈ c.ids)) ∧
    (∀ c ∈ (analyzeRepoDependencies P rootPath rootEntries).circularDependencies,
      2 ≤ c.ids.length) := by
  unfold analyzeRepoDependencies
  dsimp only
  by_cases hok : (scanRoot P rootPath rootEntries).2 = true
  · rw [if_pos hok]
    constructor
    · intro n hn
      have hn' : n ∈ pipelineNodes4 P rootPath (scanRoot P rootPath rootEntries).1 := hn
      obtain ⟨m, hm, hids, -, -, -, hic⟩ :=
        mem_pipelineNodes4 P rootPath (scanRoot P rootPath rootEntries).1 hn'
      have hcyc : (analyzeScanned P rootPath (scanRoot P rootPath rootEntries).1).circularDependencies =
          pipelineCycles P rootPath (scanRoot P rootPath rootEntries).1 := rfl
      rw [hcyc, hic, hids]
      rw [decide_eq_true_iff]
      exact List.mem_flatMap
    · intro c hc
      have hc' : c ∈ pipelineCycles P rootPath (scanRoot P rootPath rootEntries).1 := hc
      rw [pipelineCycles] at hc'
      exact findCircularDependencies_min_len _ _ _ c hc'
  · rw [if_neg hok]
    exact ⟨fun n hn => by simp at hn, fun c hc => by simp at hc⟩

/-- Witness for C2: both parts instantiated on the concrete mutual-import
scenario, whose graph has one two-node cycle. -/
theorem c2_cycle_consistency_witness :
    (∃ n ∈ c5Graph.nodes,
      (n.inCycle = true ↔ ∃ c ∈ c5Graph.circularDependencies, n.id ∈ c.ids)) ∧
    (∃ c ∈ c5Graph.circularDependencies, 2 ≤ c.ids.length) := by
  constructor
  · have hlen : 0 < c5Graph.nodes.length := by decide
    exact ⟨c5Graph.nodes.get ⟨0, hlen⟩, List.get_mem _ _ _,
      (c2_cycle_consistency c5Params "/repo" c5Tree).1 _ (List.get_mem _ _ _)⟩
  · have hlen : 0 < c5Graph.circularDependencies.length := by decide
    exact ⟨c5Graph.circularDependencies.get ⟨0, hlen⟩, List.get_mem _ _ _,
      (c2_cycle_consistency c5Params "/repo" c5Tree).2 _ (List.get_mem _ _ _)⟩


lemma calculateRiskV2_congr (n₁ n₂ : GraphNode) (content : String) (metrics : CodeMetrics)
    (h1 : n₁.fanIn = n₂.fanIn) (h2 : n₁.fanOut = n₂.fanOut) (h3 : n₁.inCycle = n₂.inCycle)
    (h4 : n₁.path = n₂.path) :
    calculateRiskV2 n₁ content metrics = calculateRiskV2 n₂ content metrics := by
  simp only [calculateRiskV2, h1, h2, h3, h4]

lemma step3All_total (c : String → String) (i o : List (String × Nat)) :
    ∀ (ns : List GraphNode) (acc : List GraphNode × Int × List SecurityInsight),
    (ns.foldl (step3Step c i o) acc).2.1 =
      acc.2.1 + (ns.map (fun n => (step3Node c i o n).2.1)).sum := by
  intro ns
  induction ns with
  | nil => intro acc; simp
  | cons n rest ih =>
    intro acc
    rw [List.foldl_cons, ih]
    simp [step3Step]
    ring

lemma foldl_add_map {β : Type} (f : β → Int) :
    ∀ (l : List β) (a : Int), l.foldl (fun acc x => acc + f x) a = a + (l.map f).sum := by
  intro l
  induction l with
  | nil => intro a; simp
  | cons x rest ih =>
    intro a
    rw [List.foldl_cons, ih]
    simp
    ring

lemma calculateRiskV2_congr_full (n₁ n₂ : GraphNode) (c₁ c₂ : String) (m₁ m₂ : CodeMetrics)
    (h1 : n₁.fanIn = n₂.fanIn) (h2 : n₁.fanOut = n₂.fanOut) (h3 : n₁.inCycle = n₂.inCycle)
    (h4 : n₁.path = n₂.path) (h5 : c₁ = c₂) (h6 : m₁ = m₂) :
    calculateRiskV2 n₁ c₁ m₁ = calculateRiskV2 n₂ c₂ m₂ := by
  subst h5
  subst h6
  exact calculateRiskV2_congr n₁ n₂ c₁ m₁ h1 h2 h3 h4

lemma preCycleQuality_step3 (c : String → String) (i o : List (String × Nat))
    (ids : List String) (t1 t2 : Nat) (m : GraphNode) (hminC : m.inCycle = false) :
    preCycleQuality c (assignRole t1 t2 (rescoreCycleNode ids (step3Node c i o m).1)) =
      (step3Node c i o m).2.1 := by
  obtain ⟨f1, f2, f3, f4, f5, f6⟩ := rescoreCycleNode_fields ids (step3Node c i o m).1
  have hid : (assignRole t1 t2 (rescoreCycleNode ids (step3Node c i o m).1)).id = m.id := by
    simp only [assignRole]
    rw [f1]
    rfl
  have key : calculateRiskV2
      { assignRole t1 t2 (rescoreCycleNode ids (step3Node c i o m).1) with inCycle := false }
      (c ((assignRole t1 t2 (rescoreCycleNode ids (step3Node c i o m).1)).id))
      ((assignRole t1 t2 (rescoreCycleNode ids (step3Node c i o m).1)).metrics) =
      calculateRiskV2
      { m with
        fanIn := (mapGet i m.id).getD 0
        fanOut := (mapGet o m.id).getD 0
        metrics := calculateCodeMetrics (c m.id) }
      (c m.id) (calculateCodeMetrics (c m.id)) :=
    calculateRiskV2_congr_full _ _ _ _ _ _
      (f2.trans rfl) (f3.trans rfl) hminC.symm (f5.trans rfl)
      (congrArg c hid) (f4.trans rfl)
  rw [preCycleQuality, key]
  rfl

/-- Counterexample to C5 as stated: on the concrete mutual-import
scenario the returned quality score is 100, while the rounded mean of the
reported (post-re-scoring) per-node scores is 85 — the engine averages the
pre-re-scoring scores. -/
theorem c5_quality_counterexample :
    c5Graph.codeQualityScore = some 100 ∧
    claimedQualityScore c5Graph = 85 ∧
    c5Graph.codeQualityScore ≠ some (claimedQualityScore c5Graph) := by
  decide

/-- Claim C5 (amended): the returned `codeQualityScore` is the rounded
mean over all nodes of `max(0, 100 − s)` where `s` is the node's risk
score as computed before the cycle re-scoring (the node's final metrics
and fan counts with the cycle flag cleared); `100` when there are no
nodes. -/
theorem c5_quality_pre_rescore (P : AnalyzerParams) (rootPath : String)
    (rootEntries : Option (List FSTree))
    (hok : (scanRoot P rootPath rootEntries).2 = true) :
    (analyzeRepoDependencies P rootPath rootEntries).codeQualityScore =
      some (if 0 < (analyzeRepoDependencies P rootPath rootEntries).nodes.length then
        mathRoundDiv
          ((analyzeRepoDependencies P rootPath rootEntries).nodes.foldl
            (fun a n => a + preCycleQuality (scanContentOf (scanRoot P rootPath rootEntries).1) n) 0)
          (analyzeRepoDependencies P rootPath rootEntries).nodes.length
      else 100) := by
  unfold analyzeRepoDependencies
  dsimp only
  rw [if_pos hok]
  have hscan : ∀ n ∈ (scanRoot P rootPath rootEntries).1.nodes, n.inCycle = false := by
    cases rootEntries with
    | none => simp [scanRoot] at hok
    | some entries =>
      exact (scan_state_inv P rootPath rootPath entries initScanState
        (by simp [initScanState])).2
  have hnodes : (analyzeScanned P rootPath (scanRoot P rootPath rootEntries).1).nodes =
      pipelineNodes4 P rootPath (scanRoot P rootPath rootEntries).1 := rfl
  have hq : (analyzeScanned P rootPath (scanRoot P rootPath rootEntries).1).codeQualityScore =
      some (if 0 < (pipelineNodes4 P rootPath (scanRoot P rootPath rootEntries).1).length then
        mathRoundDiv (pipelineStep3 P rootPath (scanRoot P rootPath rootEntries).1).2.1
          (pipelineNodes4 P rootPath (scanRoot P rootPath rootEntries).1).length
      else 100) := rfl
  rw [hq, hnodes]
  congr 1
  have htot : (pipelineStep3 P rootPath (scanRoot P rootPath rootEntries).1).2.1 =
      ((scanRoot P rootPath rootEntries).1.nodes.map
        (fun n => (step3Node (scanContentOf (scanRoot P rootPath rootEntries).1)
          (pipelineEdges P rootPath (scanRoot P rootPath rootEntries).1).incoming
          (pipelineEdges P rootPath (scanRoot P rootPath rootEntries).1).outgoing n).2.1)).sum := by
    rw [pipelineStep3, step3All, step3All_total]
    simp
  have hfold : (pipelineNodes4 P rootPath (scanRoot P rootPath rootEntries).1).foldl
      (fun a n => a + preCycleQuality (scanContentOf (scanRoot P rootPath rootEntries).1) n) 0 =
      (pipelineStep3 P rootPath (scanRoot P rootPath rootEntries).1).2.1 := by
    rw [foldl_add_map]
    rw [htot]
    simp only [Int.zero_add, zero_add]
    rw [pipelineNodes4]
    rw [List.map_map]
    rw [pipelineNodes3, List.map_map]
    conv_lhs =>
      rw [pipelineStep3, step3All, step3All_nodes]
    simp only [List.nil_append, List.map_map]
    apply congrArg List.sum
    apply List.map_congr_left
    intro m hm
    exact preCycleQuality_step3 _ _ _ _ _ _ m (hscan m hm)
  rw [hfold]

/-- Witness for C5's amended theorem: the pre-re-scoring quality identity
evaluated on the concrete mutual-import scenario. -/
theorem c5_quality_pre_rescore_witness :
    (scanRoot c5Params "/repo" c5Tree).2 = true ∧
    (analyzeRepoDependencies c5Params "/repo" c5Tree).codeQualityScore =
      some (if 0 < (analyzeRepoDependencies c5Params "/repo" c5Tree).nodes.length then
        mathRoundDiv
          ((analyzeRepoDependencies c5Params "/repo" c5Tree).nodes.foldl
            (fun a n => a + preCycleQuality (scanContentOf (scanRoot c5Params "/repo" c5Tree).1) n) 0)
          (analyzeRepoDependencies c5Params "/repo" c5Tree).nodes.length
      else 100) :=
  ⟨by decide, c5_quality_pre_rescore c5Params "/repo" c5Tree (by decide)⟩

/-- Counterexample to C6 as stated: in the two-file scenario the thresholds
give `fanInThreshold = 1`, so the core test `fanIn ≥ max(2, 0.5)` fails for
`B` (fan-in 1) and `B` is classified peripheral, not core. -/
theorem c6_two_file_counterexample :
    c6Graph.edges.length = 1 ∧
    c6Graph.circularDependencies = [] ∧
    ¬ (∃ n ∈ c6Graph.nodes, n.id = "/repo/B.ts" ∧ n.moduleRole = some ModuleRole.core) ∧
    (∃ n ∈ c6Graph.nodes, n.id = "/repo/B.ts" ∧ n.moduleRole = some ModuleRole.peripheral) := by
  decide

/-- Claim C6 (amended): the two-file scenario produces exactly one edge
`A → B`, fan-in(B) = 1, fan-out(A) = 1, zero cycles, and module role
peripheral for both files (with a maximal fan-in of 1 the core threshold
`max(2, fanInThreshold/2) = 2` is not reached by `B`). -/
theorem c6_two_file_scenario :
    c6Graph.edges.map (fun e => (e.source, e.target)) = [("/repo/A.ts", "/repo/B.ts")] ∧
    c6Graph.nodes.map (fun n => (n.id, n.fanIn, n.fanOut, n.moduleRole)) =
      [("/repo/A.ts", 0, 1, some ModuleRole.peripheral),
       ("/repo/B.ts", 1, 0, some ModuleRole.peripheral)] ∧
    c6Graph.circularDependencies = [] := by
  decide

-- ───────────────────────────────────────────────────────────────────
-- Tarjan verification: basic lemmas
-- ───────────────────────────────────────────────────────────────────

lemma adjReaches_refl (adj : List (List Nat)) (v : Nat) : adjReaches adj v v :=
  Relation.ReflTransGen.refl

lemma adjReaches_trans {adj : List (List Nat)} {u v w : Nat}
    (h1 : adjReaches adj u v) (h2 : adjReaches adj v w) : adjReaches adj u w :=
  Relation.ReflTransGen.trans h1 h2

lemma adjReaches_single {adj : List (List Nat)} {v w : Nat}
    (h : w ∈ succsOf adj v) : adjReaches adj v w :=
  Relation.ReflTransGen.single h

lemma adjReaches_head {adj : List (List Nat)} {v w u : Nat}
    (h : w ∈ succsOf adj v) (h2 : adjReaches adj w u) : adjReaches adj v u :=
  Relation.ReflTransGen.head h h2

/-- A successor-closed predicate propagates along reachability. -/
lemma adjReaches_closed {adj : List (List Nat)} {D : Nat → Prop}
    (hD : ∀ u, D u → ∀ w ∈ succsOf adj u, D w) {v w : Nat}
    (hvw : adjReaches adj v w) (hv : D v) : D w := by
  induction hvw with
  | refl => exact hv
  | tail _ hbc ih => exact hD _ ih _ hbc

lemma sameSCC_refl (adj : List (List Nat)) (v : Nat) : sameSCC adj v v :=
  ⟨adjReaches_refl adj v, adjReaches_refl adj v⟩

lemma sameSCC_symm {adj : List (List Nat)} {v w : Nat}
    (h : sameSCC adj v w) : sameSCC adj w v := ⟨h.2, h.1⟩

lemma sameSCC_trans {adj : List (List Nat)} {u v w : Nat}
    (h1 : sameSCC adj u v) (h2 : sameSCC adj v w) : sameSCC adj u w :=
  ⟨adjReaches_trans h1.1 h2.1, adjReaches_trans h2.2 h1.2⟩

/-- Popping down to `v` removes exactly the part of the stack above `v`
(inclusive), in stack order. -/
lemma popUntil_append (v : Nat) (a b : List Nat) (ha : v ∉ a) :
    popUntil v (a ++ v :: b) = (a ++ [v], b) := by
  induction a with
  | nil => simp [popUntil]
  | cons x xs ih =>
    have hxv : x ≠ v := fun h => ha (h ▸ List.mem_cons_self x xs)
    have hv : v ∉ xs := fun h => ha (List.mem_cons_of_mem _ h)
    simp [popUntil, hxv, ih hv]

/-- A strictly sorted stack has no duplicates. -/
lemma TWF.stack_nodup {adj : List (List Nat)} {n : Nat} {indexToId : List String}
    {idToNode : List (String × GraphNode)} {st : TarjanState}
    (h : TWF adj n indexToId idToNode st) : st.stack.Nodup := by
  refine h.stack_sorted.imp ?_
  intro a b hlt heq
  subst heq
  exact absurd hlt (lt_irrefl _)

/-- Everything below `v` on a sorted stack has a smaller index. -/
lemma sorted_tail_lt {st : TarjanState} {parts old : List Nat} {v : Nat}
    (hs : (parts ++ v :: old).Pairwise (fun a b => numOf st b < numOf st a)) :
    ∀ y ∈ old, numOf st y < numOf st v :=
  (List.pairwise_cons.mp (List.pairwise_append.mp hs).2.1).1

/-- Once the visitation counter reaches `n`, every vertex below `n` is
visited: the assigned indices form a bijection with `[0, idx)`. -/
lemma all_visited_of_idx_ge {adj : List (List Nat)} {n : Nat}
    {indexToId : List String} {idToNode : List (String × GraphNode)}
    {st : TarjanState} (h : TWF adj n indexToId idToNode st) (hn : n ≤ st.idx) :
    ∀ v, v < n → visitedIn st v := by
  intro v hv
  by_contra hnv
  have himg : Finset.range st.idx ⊆
      (((Finset.range n).filter (fun u => visitedIn st u)).image (fun u => numOf st u)) := by
    intro k hk
    rw [Finset.mem_range] at hk
    obtain ⟨u, hu, hnum⟩ := h.num_surj k hk
    refine Finset.mem_image.mpr ⟨u, ?_, hnum⟩
    exact Finset.mem_filter.mpr ⟨Finset.mem_range.mpr (h.visited_lt u hu), hu⟩
  have hcard1 : st.idx ≤ ((Finset.range n).filter (fun u => visitedIn st u)).card := by
    calc st.idx = (Finset.range st.idx).card := (Finset.card_range _).symm
    _ ≤ _ := Finset.card_le_card himg
    _ ≤ _ := Finset.card_image_le
  have hFeq : (Finset.range n).filter (fun u => visitedIn st u) = Finset.range n :=
    Finset.eq_of_subset_of_card_le (Finset.filter_subset _ _)
      (by rw [Finset.card_range]; exact le_trans hn hcard1)
  have hvF : v ∈ (Finset.range n).filter (fun u => visitedIn st u) := by
    rw [hFeq]; exact Finset.mem_range.mpr hv
  exact hnv (Finset.mem_filter.mp hvF).2

/-- The initial Tarjan state satisfies the invariant. -/
lemma twf_init (adj : List (List Nat)) (n : Nat) (indexToId : List String)
    (idToNode : List (String × GraphNode)) :
    TWF adj n indexToId idToNode tarjanInit := by
  refine ⟨rfl, ?_, List.Pairwise.nil, ?_, ?_, ?_, ?_, ?_, ?_, ?_, ⟨[], rfl, ?_, ?_, List.Pairwise.nil⟩⟩
  · intro y hy; exact absurd hy (List.not_mem_nil y)
  · intro v hv; simp [visitedIn, tarjanInit, mapGet] at hv
  · intro v hv; simp [visitedIn, tarjanInit, mapGet] at hv
  · intro v w hv; simp [visitedIn, tarjanInit, mapGet] at hv
  · intro k hk; exact absurd hk (Nat.not_lt_zero k)
  · intro y hy; exact absurd hy (List.not_mem_nil y)
  · intro y hy; exact absurd hy (List.not_mem_nil y)
  · intro u hu; exact absurd hu.1 (by simp [visitedIn, tarjanInit, mapGet])
  · intro C hC; exact absurd hC (List.not_mem_nil C)
  · intro u hu; exact absurd hu.1 (by simp [visitedIn, tarjanInit, mapGet])

/-- Visiting an unvisited vertex `v` establishes the successor-loop
invariant with no new parts and no processed successors. -/
lemma finv_visit {adj : List (List Nat)} {n : Nat} {indexToId : List String}
    {idToNode : List (String × GraphNode)} {v : Nat} {st0 : TarjanState}
    (htwf : TWF adj n indexToId idToNode st0) (hunvis : ¬ visitedIn st0 v)
    (hvn : v < n) :
    FInv adj n indexToId idToNode v st0 (tarjanVisit v st0) [] [] := by
  have hvisv : visitedIn (tarjanVisit v st0) v := by
    simp [visitedIn, tarjanVisit, mapGet_mapSet]
  have hviso : ∀ u, u ≠ v → (visitedIn (tarjanVisit v st0) u ↔ visitedIn st0 u) := by
    intro u hu; simp [visitedIn, tarjanVisit, mapGet_mapSet, hu]
  have hnumv : numOf (tarjanVisit v st0) v = st0.idx := by
    simp [numOf, tarjanVisit, mapGet_mapSet]
  have hnumo : ∀ u, u ≠ v → numOf (tarjanVisit v st0) u = numOf st0 u := by
    intro u hu; simp [numOf, tarjanVisit, mapGet_mapSet, hu]
  have hlowv : lowOf (tarjanVisit v st0) v = st0.idx := by
    simp [lowOf, tarjanVisit, mapGet_mapSet]
  have hne : ∀ u, visitedIn st0 u → u ≠ v := by
    intro u hu he; exact hunvis (he ▸ hu)
  have hst : (tarjanVisit v st0).stack = v :: st0.stack := rfl
  have hvis1 : ∀ u, visitedIn (tarjanVisit v st0) u → u = v ∨ visitedIn st0 u := by
    intro u hu
    by_cases h : u = v
    · exact Or.inl h
    · exact Or.inr ((hviso u h).mp hu)
  have htwf1 : TWF adj n indexToId idToNode (tarjanVisit v st0) := by
    refine ⟨?_, ?_, ?_, ?_, ?_, ?_, ?_, ?_, ?_, ?_, ?_⟩
    · show v :: st0.onStack = v :: st0.stack
      rw [htwf.onStack_eq]
    · intro y hy
      rcases List.mem_cons.mp hy with h | h
      · exact h ▸ hvisv
      · exact (hviso y (hne y (htwf.stack_visited y h))).mpr (htwf.stack_visited y h)
    · rw [hst]
      refine List.pairwise_cons.mpr ⟨?_, ?_⟩
      · intro y hy
        rw [hnumv, hnumo y (hne y (htwf.stack_visited y hy))]
        exact htwf.num_lt_idx y (htwf.stack_visited y hy)
      · refine htwf.stack_sorted.imp_of_mem ?_
        intro a b ha hb hab
        rw [hnumo a (hne a (htwf.stack_visited a ha)),
            hnumo b (hne b (htwf.stack_visited b hb))]
        exact hab
    · intro u hu
      rcases hvis1 u hu with h | h
      · exact h ▸ hvn
      · exact htwf.visited_lt u h
    · intro u hu
      show numOf (tarjanVisit v st0) u < st0.idx + 1
      rcases hvis1 u hu with h | h
      · subst h; rw [hnumv]; exact Nat.lt_succ_self _
      · rw [hnumo u (hne u h)]
        exact Nat.lt_succ_of_lt (htwf.num_lt_idx u h)
    · intro a b ha hb hab
      rcases hvis1 a ha with h | h <;> rcases hvis1 b hb with h2 | h2
      · exact h.trans h2.symm
      · rw [h, hnumv] at hab
        rw [hnumo b (hne b h2)] at hab
        exact absurd (hab ▸ htwf.num_lt_idx b h2) (lt_irrefl _)
      · rw [h2, hnumv] at hab
        rw [hnumo a (hne a h)] at hab
        exact absurd (hab ▸ htwf.num_lt_idx a h) (lt_irrefl _)
      · exact htwf.num_inj a b h h2
          ((hnumo a (hne a h)) ▸ (hnumo b (hne b h2)) ▸ hab)
    · intro k hk
      rcases Nat.lt_succ_iff_lt_or_eq.mp hk with h | h
      · obtain ⟨u, hu, hnum⟩ := htwf.num_surj k h
        exact ⟨u, (hviso u (hne u hu)).mpr hu, (hnumo u (hne u hu)) ▸ hnum⟩
      · exact ⟨v, hvisv, hnumv ▸ h.symm ▸ rfl⟩
    · intro y hy
      rcases List.mem_cons.mp hy with h | h
      · subst h; rw [hnumv, hlowv]
      · have hyv := hne y (htwf.stack_visited y h)
        rw [hnumo y hyv]
        have : lowOf (tarjanVisit v st0) y = lowOf st0 y := by
          simp [lowOf, tarjanVisit, mapGet_mapSet, hyv]
        rw [this]
        exact htwf.low_le y h
    · intro y hy
      rcases List.mem_cons.mp hy with h | h
      · subst h
        exact ⟨y, List.mem_cons_self _ _, by rw [hnumv, hlowv], adjReaches_refl adj y⟩
      · have hyv := hne y (htwf.stack_visited y h)
        obtain ⟨z, hz, hzn, hzr⟩ := htwf.low_wit y h
        have hzv := hne z (htwf.stack_visited z hz)
        refine ⟨z, List.mem_cons_of_mem _ hz, ?_, hzr⟩
        rw [hnumo z hzv]
        have : lowOf (tarjanVisit v st0) y = lowOf st0 y := by
          simp [lowOf, tarjanVisit, mapGet_mapSet, hyv]
        rw [this]
        exact hzn
    · intro u hu w hw
      have huv : u ≠ v := fun h => hu.2 (h ▸ List.mem_cons_self _ _)
      have hu0 : doneIn st0 u :=
        ⟨(hviso u huv).mp hu.1, fun h => hu.2 (List.mem_cons_of_mem _ h)⟩
      have hw0 := htwf.done_closed u hu0 w hw
      have hwv := hne w hw0.1
      exact ⟨(hviso w hwv).mpr hw0.1,
        fun h => (List.mem_cons.mp h).elim hwv hw0.2⟩
    · obtain ⟨comps, hc1, hc2, hc3, hc4⟩ := htwf.comps_ex
      refine ⟨comps, hc1, ?_, ?_, hc4⟩
      · intro C hC
        obtain ⟨hnd, hdone, hclass⟩ := hc2 C hC
        refine ⟨hnd, ?_, hclass⟩
        intro x hx
        have hx0 := hdone x hx
        have hxv := hne x hx0.1
        exact ⟨(hviso x hxv).mpr hx0.1,
          fun h => (List.mem_cons.mp h).elim hxv hx0.2⟩
      · intro u hu
        have huv : u ≠ v := fun h => hu.2 (h ▸ List.mem_cons_self _ _)
        exact hc3 u ⟨(hviso u huv).mp hu.1,
          fun h => hu.2 (List.mem_cons_of_mem _ h)⟩
  refine ⟨htwf1, hst, ?_, ?_, ?_, Nat.lt_succ_self _, hvisv, hnumv, ?_, hunvis,
    ?_, ?_, ?_, ?_, ?_, ?_, ?_, ?_, ?_⟩
  · intro u hu; exact (hviso u (hne u hu)).mpr hu
  · intro u hu
    show mapGet (mapSet st0.indexMap v st0.idx) u = mapGet st0.indexMap u
    rw [mapGet_mapSet, if_neg (hne u hu)]
  · intro u hu
    show mapGet (mapSet st0.lowlinkMap v st0.idx) u = mapGet st0.lowlinkMap u
    rw [mapGet_mapSet, if_neg (hne u hu)]
  · rw [hnumv, hlowv]
  · intro y hy; exact absurd hy (List.not_mem_nil y)
  · intro y hy; exact absurd hy (List.not_mem_nil y)
  · intro y hy; exact absurd hy (List.not_mem_nil y)
  · intro y hy; exact absurd hy (List.not_mem_nil y)
  · intro y hy; exact absurd hy (List.not_mem_nil y)
  · intro y hy; exact absurd hy (List.not_mem_nil y)
  · intro w hw; exact absurd hw (List.not_mem_nil w)
  · intro w hw; exact absurd hw (List.not_mem_nil w)
  · intro u hu hu1
    rcases hvis1 u hu1 with h | h
    · exact h ▸ adjReaches_refl adj u
    · exact absurd h hu

/-- The root of the current call is not among the newly pushed parts. -/
lemma FInv.v_not_mem_parts {adj : List (List Nat)} {n : Nat} {indexToId : List String}
    {idToNode : List (String × GraphNode)} {v : Nat} {st0 st : TarjanState}
    {parts procd : List Nat}
    (hF : FInv adj n indexToId idToNode v st0 st parts procd) : v ∉ parts := by
  have hnd := hF.twf.stack_nodup
  rw [hF.stack_eq] at hnd
  intro hv
  exact (List.nodup_append.mp hnd).2.2 hv (List.mem_cons_self _ _)

/-- Parts are on the stack. -/
lemma FInv.parts_sub {adj : List (List Nat)} {n : Nat} {indexToId : List String}
    {idToNode : List (String × GraphNode)} {v : Nat} {st0 st : TarjanState}
    {parts procd : List Nat}
    (hF : FInv adj n indexToId idToNode v st0 st parts procd) :
    ∀ y ∈ parts, y ∈ st.stack := by
  intro y hy; rw [hF.stack_eq]; exact List.mem_append_left _ hy

/-- The root is on the stack. -/
lemma FInv.v_mem {adj : List (List Nat)} {n : Nat} {indexToId : List String}
    {idToNode : List (String × GraphNode)} {v : Nat} {st0 st : TarjanState}
    {parts procd : List Nat}
    (hF : FInv adj n indexToId idToNode v st0 st parts procd) : v ∈ st.stack := by
  rw [hF.stack_eq]; exact List.mem_append_right _ (List.mem_cons_self _ _)

/-- Every vertex pushed above the current root and still on the stack
reaches the root: its strict lowlink points at a lower stack vertex, and
iterating this descends to the root or to a pre-existing stack vertex,
which reaches the root by precondition. -/
lemma FInv.parts_reach {adj : List (List Nat)} {n : Nat} {indexToId : List String}
    {idToNode : List (String × GraphNode)} {v : Nat} {st0 st : TarjanState}
    {parts procd : List Nat}
    (hF : FInv adj n indexToId idToNode v st0 st parts procd)
    (hpre : ∀ y ∈ st0.stack, adjReaches adj y v) :
    ∀ y ∈ parts, adjReaches adj y v := by
  have H : ∀ k y, y ∈ parts → numOf st y = k → adjReaches adj y v := by
    intro k
    induction k using Nat.strong_induction_on with
    | _ k ih =>
      intro y hy hk
      obtain ⟨z, hz, hzn, hzr⟩ := hF.twf.low_wit y (hF.parts_sub y hy)
      have hzlt : numOf st z < k := by
        rw [hzn, ← hk]
        exact lt_of_le_of_lt (le_refl _) (hF.parts_strict y hy)
      rw [hF.stack_eq] at hz
      rcases List.mem_append.mp hz with hzp | hzvo
      · exact adjReaches_trans hzr (ih (numOf st z) hzlt z hzp rfl)
      · rcases List.mem_cons.mp hzvo with hzv | hzo
        · exact hzv ▸ hzr
        · exact adjReaches_trans hzr (hpre z hzo)
  exact fun y hy => H (numOf st y) y hy rfl

/-- Edge step, already-closed successor: the state is unchanged and the
invariant extends to the processed successor. -/
lemma finv_edge_done {adj : List (List Nat)} {n : Nat} {indexToId : List String}
    {idToNode : List (String × GraphNode)} {v : Nat} {st0 st : TarjanState}
    {parts procd : List Nat} {w : Nat}
    (hF : FInv adj n indexToId idToNode v st0 st parts procd)
    (hwvis : visitedIn st w) (hwoff : w ∉ st.onStack) :
    FInv adj n indexToId idToNode v st0 st parts (procd ++ [w]) := by
  refine ⟨hF.twf, hF.stack_eq, hF.vis_mono, hF.num_pres, hF.low_pres, hF.idx_gt,
    hF.v_vis, hF.v_num, hF.v_low, hF.v_unvis0, hF.parts_new, hF.parts_num,
    hF.parts_strict, hF.parts_lowv, hF.parts_succ, hF.parts_back, ?_, ?_,
    hF.new_reach⟩
  · intro u hu
    rcases List.mem_append.mp hu with h | h
    · exact hF.proc_vis u h
    · rw [List.mem_singleton.mp h]; exact hwvis
  · intro u hu hus
    rcases List.mem_append.mp hu with h | h
    · exact hF.proc_back u h hus
    · rw [List.mem_singleton.mp h] at hus
      exact absurd (hF.twf.onStack_eq ▸ hus) hwoff

/-- Edge step, successor on the stack: only the root's lowlink changes,
falling to at most the successor's index. -/
lemma finv_edge_onstack {adj : List (List Nat)} {n : Nat} {indexToId : List String}
    {idToNode : List (String × GraphNode)} {v : Nat} {st0 st : TarjanState}
    {parts procd : List Nat} {w : Nat}
    (hF : FInv adj n indexToId idToNode v st0 st parts procd)
    (hw : w ∈ succsOf adj v) (hwon : w ∈ st.onStack) :
    FInv adj n indexToId idToNode v st0
      { st with lowlinkMap := mapSet st.lowlinkMap v (min ((mapGet st.lowlinkMap v).getD 0) ((mapGet st.indexMap w).getD 0)) }
      parts (procd ++ [w]) := by
  set st' := { st with lowlinkMap := mapSet st.lowlinkMap v (min ((mapGet st.lowlinkMap v).getD 0) ((mapGet st.indexMap w).getD 0)) } with hst'
  have hws : w ∈ st.stack := hF.twf.onStack_eq ▸ hwon
  have hlow'v : lowOf st' v = min (lowOf st v) (numOf st w) := by
    simp [lowOf, numOf, hst', mapGet_mapSet]
  have hlow'o : ∀ u, u ≠ v → lowOf st' u = lowOf st u := by
    intro u hu; simp [lowOf, hst', mapGet_mapSet, hu]
  have hnum' : ∀ u, numOf st' u = numOf st u := fun u => rfl
  have hvis' : ∀ u, visitedIn st' u ↔ visitedIn st u := fun u => Iff.rfl
  have hstk : st'.stack = st.stack := rfl
  have hvparts := hF.v_not_mem_parts
  have htwf' : TWF adj n indexToId idToNode st' := by
    refine ⟨hF.twf.onStack_eq, hF.twf.stack_visited, hF.twf.stack_sorted,
      hF.twf.visited_lt, hF.twf.num_lt_idx, hF.twf.num_inj, hF.twf.num_surj,
      ?_, ?_, hF.twf.done_closed, hF.twf.comps_ex⟩
    · intro y hy
      by_cases hyv : y = v
      · subst hyv
        rw [hnum' y, hlow'v]
        exact le_trans (min_le_left _ _) (hF.v_low.trans (le_of_eq rfl))
      · rw [hnum' y, hlow'o y hyv]
        exact hF.twf.low_le y hy
    · intro y hy
      by_cases hyv : y = v
      · subst hyv
        rcases le_total (numOf st w) (lowOf st y) with hcmp | hcmp
        · refine ⟨w, hws, ?_, adjReaches_single hw⟩
          rw [hnum' w, hlow'v, min_eq_right hcmp]
        · obtain ⟨z, hz, hzn, hzr⟩ := hF.twf.low_wit y hy
          refine ⟨z, hz, ?_, hzr⟩
          rw [hnum' z, hlow'v, min_eq_left hcmp, hzn]
      · obtain ⟨z, hz, hzn, hzr⟩ := hF.twf.low_wit y hy
        refine ⟨z, hz, ?_, hzr⟩
        rw [hnum' z, hlow'o y hyv, hzn]
  have hpne : ∀ y ∈ parts, y ≠ v := fun y hy h => hvparts (h ▸ hy)
  refine ⟨htwf', hF.stack_eq, hF.vis_mono, hF.num_pres, ?_, hF.idx_gt,
    hF.v_vis, hF.v_num, ?_, hF.v_unvis0, hF.parts_new, ?_, ?_, ?_,
    hF.parts_succ, ?_, ?_, ?_, hF.new_reach⟩
  · intro u hu
    have huv : u ≠ v := fun h => hF.v_unvis0 (h ▸ hu)
    show mapGet (mapSet st.lowlinkMap v _) u = _
    rw [mapGet_mapSet, if_neg huv]
    exact hF.low_pres u hu
  · rw [hnum' v, hlow'v]
    exact le_trans (min_le_left _ _) hF.v_low
  · intro y hy; rw [hnum' y]; exact hF.parts_num y hy
  · intro y hy
    rw [hnum' y, hlow'o y (hpne y hy)]
    exact hF.parts_strict y hy
  · intro y hy
    rw [hlow'v, hlow'o y (hpne y hy)]
    exact le_trans (min_le_left _ _) (hF.parts_lowv y hy)
  · intro y hy u hu hus
    rw [hnum' u, hlow'o y (hpne y hy)]
    exact hF.parts_back y hy u hu hus
  · intro u hu
    rcases List.mem_append.mp hu with h | h
    · exact hF.proc_vis u h
    · rw [List.mem_singleton.mp h]
      exact hF.twf.stack_visited w hws
  · intro u hu hus
    rcases List.mem_append.mp hu with h | h
    · rw [hnum' u, hlow'v]
      exact le_trans (min_le_left _ _) (hF.proc_back u h hus)
    · rw [List.mem_singleton.mp h, hnum' w, hlow'v]
      exact min_le_right _ _

/-- Edge step, unvisited successor: the recursive call's postcondition is
merged into the successor-loop invariant, with the root's lowlink folded
down by the child's lowlink. -/
lemma finv_edge_recurse {adj : List (List Nat)} {n : Nat} {indexToId : List String}
    {idToNode : List (String × GraphNode)} {v : Nat} {st0 st : TarjanState}
    {parts procd : List Nat} {w : Nat} {st2 : TarjanState}
    (hF : FInv adj n indexToId idToNode v st0 st parts procd)
    (hw : w ∈ succsOf adj v)
    (hpost : SCPost adj n indexToId idToNode w st st2) :
    ∃ parts', FInv adj n indexToId idToNode v st0
      { st2 with lowlinkMap := mapSet st2.lowlinkMap v (min ((mapGet st2.lowlinkMap v).getD 0) ((mapGet st2.lowlinkMap w).getD 0)) }
      parts' (procd ++ [w]) := by
  obtain ⟨np, hnp⟩ := hpost.np_ex
  set st3 := { st2 with lowlinkMap := mapSet st2.lowlinkMap v (min ((mapGet st2.lowlinkMap v).getD 0) ((mapGet st2.lowlinkMap w).getD 0)) } with hst3
  have hnum2 : ∀ u, visitedIn st u → numOf st2 u = numOf st u := by
    intro u hu; rw [numOf, numOf, hpost.num_pres u hu]
  have hlow2 : ∀ u, visitedIn st u → lowOf st2 u = lowOf st u := by
    intro u hu; rw [lowOf, lowOf, hpost.low_pres u hu]
  have hlow3v : lowOf st3 v = min (lowOf st2 v) (lowOf st2 w) := by
    simp [lowOf, hst3, mapGet_mapSet]
  have hlow3o : ∀ u, u ≠ v → lowOf st3 u = lowOf st2 u := by
    intro u hu; simp [lowOf, hst3, mapGet_mapSet, hu]
  have hnum3 : ∀ u, numOf st3 u = numOf st2 u := fun u => rfl
  have hstk3 : st3.stack = st2.stack := rfl
  have hvstk2 : v ∈ st2.stack :=
    hnp.stack_eq ▸ List.mem_append_right np hF.v_mem
  have hnpnev : ∀ y ∈ np, y ≠ v := by
    intro y hy h
    exact hnp.np_new y hy (h ▸ hF.v_vis)
  have hpne : ∀ y ∈ parts, y ≠ v := fun y hy h => hF.v_not_mem_parts (h ▸ hy)
  have hlow2v_le : lowOf st2 v ≤ st0.idx := by
    rw [hlow2 v hF.v_vis]
    exact le_trans hF.v_low (le_of_eq hF.v_num)
  have htwf3 : TWF adj n indexToId idToNode st3 := by
    refine ⟨hpost.twf.onStack_eq, hpost.twf.stack_visited, hpost.twf.stack_sorted,
      hpost.twf.visited_lt, hpost.twf.num_lt_idx, hpost.twf.num_inj,
      hpost.twf.num_surj, ?_, ?_, hpost.twf.done_closed, hpost.twf.comps_ex⟩
    · intro y hy
      by_cases hyv : y = v
      · subst hyv
        rw [hnum3 y, hlow3v, hnum2 y hF.v_vis]
        exact le_trans (min_le_left _ _)
          (le_trans (le_of_eq (hlow2 y hF.v_vis)) hF.v_low)
      · rw [hnum3 y, hlow3o y hyv]
        exact hpost.twf.low_le y hy
    · intro y hy
      by_cases hyv : y = v
      · subst hyv
        rcases le_or_lt (lowOf st2 w) (lowOf st2 y) with hcmp | hcmp
        · have hnpne : np ≠ [] := by
            intro hemp
            have hlw := hnp.pop_low hemp
            rw [hlw, hpost.v_num] at hcmp
            exact absurd (le_trans hcmp hlow2v_le) (not_le.mpr hF.idx_gt)
          obtain ⟨q, hq⟩ := hnp.np_shape.resolve_left hnpne
          have hwnp : w ∈ np := hq ▸ List.mem_append_right q (List.mem_singleton.mpr rfl)
          have hwstk2 : w ∈ st2.stack :=
            hnp.stack_eq ▸ List.mem_append_left _ hwnp
          obtain ⟨z, hz, hzn, hzr⟩ := hpost.twf.low_wit w hwstk2
          refine ⟨z, hz, ?_, adjReaches_head hw hzr⟩
          rw [hnum3 z, hlow3v, min_eq_right hcmp]
          exact hzn
        · obtain ⟨z, hz, hzn, hzr⟩ := hF.twf.low_wit y hF.v_mem
          have hzvis : visitedIn st z := hF.twf.stack_visited z hz
          refine ⟨z, hnp.stack_eq ▸ List.mem_append_right np hz, ?_, hzr⟩
          rw [hnum3 z, hnum2 z hzvis, hlow3v, min_eq_left (le_of_lt hcmp), hlow2 y hF.v_vis]
          exact hzn
      · obtain ⟨z, hz, hzn, hzr⟩ := hpost.twf.low_wit y hy
        refine ⟨z, hz, ?_, hzr⟩
        rw [hnum3 z, hlow3o y hyv]
        exact hzn
  refine ⟨np ++ parts, htwf3, ?_, ?_, ?_, ?_, ?_, ?_, ?_, ?_, hF.v_unvis0,
    ?_, ?_, ?_, ?_, ?_, ?_, ?_, ?_, ?_⟩
  · show st2.stack = (np ++ parts) ++ v :: st0.stack
    rw [hnp.stack_eq, hF.stack_eq, List.append_assoc]
  · intro u hu
    exact hpost.vis_mono u (hF.vis_mono u hu)
  · intro u hu
    show mapGet st2.indexMap u = mapGet st0.indexMap u
    rw [hpost.num_pres u (hF.vis_mono u hu), hF.num_pres u hu]
  · intro u hu
    have huv : u ≠ v := fun h => hF.v_unvis0 (h ▸ hu)
    show mapGet (mapSet st2.lowlinkMap v _) u = mapGet st0.lowlinkMap u
    rw [mapGet_mapSet, if_neg huv, hpost.low_pres u (hF.vis_mono u hu), hF.low_pres u hu]
  · exact lt_trans hF.idx_gt hpost.idx_gt
  · exact hpost.vis_mono v hF.v_vis
  · rw [hnum3 v, hnum2 v hF.v_vis]
    exact hF.v_num
  · rw [hnum3 v, hnum2 v hF.v_vis, hlow3v]
    exact le_trans (min_le_left _ _)
      (le_trans (le_of_eq (hlow2 v hF.v_vis)) hF.v_low)
  · intro y hy
    rcases List.mem_append.mp hy with h | h
    · exact fun hy0 => hnp.np_new y h (hF.vis_mono y hy0)
    · exact hF.parts_new y h
  · intro y hy
    rcases List.mem_append.mp hy with h | h
    · rw [hnum3 y]
      exact lt_of_lt_of_le hF.idx_gt (hnp.np_num y h)
    · rw [hnum3 y, hnum2 y (hF.twf.stack_visited y (hF.parts_sub y h))]
      exact hF.parts_num y h
  · intro y hy
    rcases List.mem_append.mp hy with h | h
    · rw [hnum3 y, hlow3o y (hnpnev y h)]
      exact hnp.np_strict y h
    · have hyvis := hF.twf.stack_visited y (hF.parts_sub y h)
      rw [hnum3 y, hnum2 y hyvis, hlow3o y (hpne y h), hlow2 y hyvis]
      exact hF.parts_strict y h
  · intro y hy
    rcases List.mem_append.mp hy with h | h
    · rw [hlow3v, hlow3o y (hnpnev y h)]
      exact le_trans (min_le_right _ _) (hnp.np_lowv y h)
    · have hyvis := hF.twf.stack_visited y (hF.parts_sub y h)
      rw [hlow3v, hlow3o y (hpne y h), hlow2 y hyvis]
      exact le_trans (min_le_left _ _)
        (le_trans (le_of_eq (hlow2 v hF.v_vis)) (hF.parts_lowv y h))
  · intro y hy u hu
    rcases List.mem_append.mp hy with h | h
    · exact hnp.np_succ y h u hu
    · exact hpost.vis_mono u (hF.parts_succ y h u hu)
  · intro y hy u hu hus
    rcases List.mem_append.mp hy with h | h
    · rw [hlow3o y (hnpnev y h), hnum3 u]
      exact hnp.np_back y h u hu hus
    · have hyvis := hF.twf.stack_visited y (hF.parts_sub y h)
      have huvis : visitedIn st u := hF.parts_succ y h u hu
      have hust : u ∈ st.stack := by
        rw [hstk3, hnp.stack_eq] at hus
        rcases List.mem_append.mp hus with h2 | h2
        · exact absurd huvis (hnp.np_new u h2)
        · exact h2
      rw [hlow3o y (hpne y h), hlow2 y hyvis, hnum3 u, hnum2 u huvis]
      exact hF.parts_back y h u hu hust
  · intro u hu
    rcases List.mem_append.mp hu with h | h
    · exact hpost.vis_mono u (hF.proc_vis u h)
    · rw [List.mem_singleton.mp h]
      exact hpost.v_vis
  · intro u hu hus
    rcases List.mem_append.mp hu with h | h
    · have huvis : visitedIn st u := hF.proc_vis u h
      have hust : u ∈ st.stack := by
        rw [hstk3, hnp.stack_eq] at hus
        rcases List.mem_append.mp hus with h2 | h2
        · exact absurd huvis (hnp.np_new u h2)
        · exact h2
      rw [hlow3v, hnum3 u, hnum2 u huvis]
      exact le_trans (min_le_left _ _)
        (le_trans (le_of_eq (hlow2 v hF.v_vis)) (hF.proc_back u h hust))
    · rw [List.mem_singleton.mp h] at hus ⊢
      rw [hlow3v, hnum3 w]
      exact le_trans (min_le_right _ _) (hpost.twf.low_le w (hstk3 ▸ hus))
  · intro u hu0 hu3
    by_cases hust : visitedIn st u
    · exact hF.new_reach u hu0 hust
    · exact adjReaches_head hw (hpost.new_reach u hust hu3)

/-- Closing the root: after the successor loop has processed every
successor of `v`, the root check either leaves the component on the
stack (lowlink strictly below the index) or pops exactly the vertices
above and including `v`, which form precisely the mutual-reachability
class of `v`. -/
lemma finv_close {adj : List (List Nat)} {n : Nat} {indexToId : List String}
    {idToNode : List (String × GraphNode)} {v : Nat} {st0 st : TarjanState}
    {parts : List Nat}
    (hF : FInv adj n indexToId idToNode v st0 st parts (succsOf adj v)) :
    SCPost adj n indexToId idToNode v st0 (tarjanCloseRoot indexToId idToNode v st) := by
  unfold tarjanCloseRoot
  by_cases hclose : (mapGet st.lowlinkMap v).getD 0 = (mapGet st.indexMap v).getD 0
  case neg =>
    rw [if_neg hclose]
    refine ⟨hF.twf, hF.vis_mono, hF.num_pres, hF.low_pres, hF.idx_gt, hF.v_vis,
      hF.v_num, hF.new_reach, parts ++ [v], ?_, ?_, ?_, ?_, ?_, ?_, ?_,
      Or.inr ⟨parts, rfl⟩, ?_⟩
    · rw [hF.stack_eq, List.append_assoc]
      rfl
    · intro y hy
      rcases List.mem_append.mp hy with h | h
      · exact hF.parts_new y h
      · rw [List.mem_singleton.mp h]; exact hF.v_unvis0
    · intro y hy
      rcases List.mem_append.mp hy with h | h
      · exact le_of_lt (hF.parts_num y h)
      · rw [List.mem_singleton.mp h, hF.v_num]
    · intro y hy
      rcases List.mem_append.mp hy with h | h
      · exact hF.parts_strict y h
      · rw [List.mem_singleton.mp h]
        exact lt_of_le_of_ne hF.v_low hclose
    · intro y hy
      rcases List.mem_append.mp hy with h | h
      · exact hF.parts_lowv y h
      · rw [List.mem_singleton.mp h]
    · intro y hy
      rcases List.mem_append.mp hy with h | h
      · exact hF.parts_succ y h
      · rw [List.mem_singleton.mp h]; exact hF.proc_vis
    · intro y hy
      rcases List.mem_append.mp hy with h | h
      · exact hF.parts_back y h
      · rw [List.mem_singleton.mp h]; exact hF.proc_back
    · intro h; simp at h
  case pos =>
    rw [if_pos hclose]
    have hclose' : lowOf st v = numOf st v := hclose
    have hvp : v ∉ parts := hF.v_not_mem_parts
    have hnd : (parts ++ v :: st0.stack).Nodup := hF.stack_eq ▸ hF.twf.stack_nodup
    have hndc := List.nodup_append.mp hnd
    have hv0 : v ∉ st0.stack := (List.nodup_cons.mp hndc.2.1).1
    have hdisj : ∀ y ∈ parts, y ∉ v :: st0.stack := fun y hy hy2 => hndc.2.2 hy hy2
    have hpr : popUntil v st.stack = (parts ++ [v], st0.stack) := by
      rw [hF.stack_eq]; exact popUntil_append v parts st0.stack hvp
    rw [hpr]
    have hsort : (parts ++ v :: st0.stack).Pairwise
        (fun a b => numOf st b < numOf st a) := hF.stack_eq ▸ hF.twf.stack_sorted
    have htail : ∀ y ∈ st0.stack, numOf st y < numOf st v := sorted_tail_lt hsort
    have hCmem : ∀ x ∈ parts ++ [v], x ∈ st.stack := by
      intro x hx
      rw [hF.stack_eq]
      rcases List.mem_append.mp hx with h | h
      · exact List.mem_append_left _ h
      · rw [List.mem_singleton.mp h]
        exact List.mem_append_right _ (List.mem_cons_self _ _)
    have hCvis : ∀ x ∈ parts ++ [v], visitedIn st x :=
      fun x hx => hF.twf.stack_visited x (hCmem x hx)
    have hCnotold : ∀ x ∈ parts ++ [v], x ∉ st0.stack := by
      intro x hx
      rcases List.mem_append.mp hx with h | h
      · exact fun h2 => hdisj x h (List.mem_cons_of_mem _ h2)
      · rw [List.mem_singleton.mp h]; exact hv0
    have hback : ∀ y ∈ parts, adjReaches adj y v := by
      have H : ∀ k y, y ∈ parts → numOf st y = k → adjReaches adj y v := by
        intro k
        induction k using Nat.strong_induction_on with
        | _ k ih =>
          intro y hy hk
          obtain ⟨z, hz, hzn, hzr⟩ := hF.twf.low_wit y (hF.parts_sub y hy)
          rw [hF.stack_eq] at hz
          rcases List.mem_append.mp hz with hzp | hzvo
          · have hzlt : numOf st z < k := by
              rw [hzn, ← hk]; exact hF.parts_strict y hy
            exact adjReaches_trans hzr (ih (numOf st z) hzlt z hzp rfl)
          · rcases List.mem_cons.mp hzvo with hzv | hzo
            · exact hzv ▸ hzr
            · exfalso
              have h1 : numOf st v ≤ lowOf st y := hclose' ▸ hF.parts_lowv y hy
              have h2 : numOf st v ≤ numOf st z := hzn ▸ h1
              exact absurd (lt_of_le_of_lt h2 (htail z hzo)) (lt_irrefl _)
      exact fun y hy => H (numOf st y) y hy rfl
    have hreachC : ∀ x ∈ parts ++ [v], adjReaches adj x v := by
      intro x hx
      rcases List.mem_append.mp hx with h | h
      · exact hback x h
      · rw [List.mem_singleton.mp h]
        exact adjReaches_refl adj v
    have hfwd : ∀ x ∈ parts ++ [v], adjReaches adj v x := by
      intro x hx
      rcases List.mem_append.mp hx with h | h
      · exact hF.new_reach x (hF.parts_new x h)
          (hF.twf.stack_visited x (hF.parts_sub x h))
      · rw [List.mem_singleton.mp h]
        exact adjReaches_refl adj v
    have hD : ∀ u, (visitedIn st u ∧ u ∉ st0.stack) →
        ∀ w ∈ succsOf adj u, (visitedIn st w ∧ w ∉ st0.stack) := by
      intro u hu w hw
      by_cases hus : u ∈ st.stack
      · have hu' : u ∈ parts ∨ u = v := by
          rw [hF.stack_eq] at hus
          rcases List.mem_append.mp hus with h | h
          · exact Or.inl h
          · rcases List.mem_cons.mp h with h2 | h2
            · exact Or.inr h2
            · exact absurd h2 hu.2
        have hwvis : visitedIn st w := by
          rcases hu' with h | h
          · exact hF.parts_succ u h w hw
          · exact hF.proc_vis w (h ▸ hw)
        refine ⟨hwvis, ?_⟩
        intro hwold
        have hwstack : w ∈ st.stack := by
          rw [hF.stack_eq]
          exact List.mem_append_right _ (List.mem_cons_of_mem _ hwold)
        have hlowu : lowOf st u ≤ numOf st w := by
          rcases hu' with h | h
          · exact hF.parts_back u h w hw hwstack
          · rw [h]; exact hF.proc_back w (h ▸ hw) hwstack
        have hlowv : lowOf st v ≤ lowOf st u := by
          rcases hu' with h | h
          · exact hF.parts_lowv u h
          · rw [h]
        have hcontra := lt_of_le_of_lt (le_trans hlowv hlowu) (htail w hwold)
        rw [hclose'] at hcontra
        exact absurd hcontra (lt_irrefl _)
      · have hdone := hF.twf.done_closed u ⟨hu.1, hus⟩ w hw
        refine ⟨hdone.1, fun hwold => hdone.2 ?_⟩
        rw [hF.stack_eq]
        exact List.mem_append_right _ (List.mem_cons_of_mem _ hwold)
    have hclassC : ∀ w, w ∈ parts ++ [v] ↔ (w < n ∧ sameSCC adj v w) := by
      intro w
      constructor
      · intro hw
        exact ⟨hF.twf.visited_lt w (hCvis w hw), hfwd w hw, hreachC w hw⟩
      · rintro ⟨hwn, hvw, hwv⟩
        have hDw := adjReaches_closed hD hvw ⟨hF.v_vis, hv0⟩
        by_cases hws : w ∈ st.stack
        · rw [hF.stack_eq] at hws
          rcases List.mem_append.mp hws with h | h
          · exact List.mem_append_left _ h
          · rcases List.mem_cons.mp h with h2 | h2
            · rw [h2]
              exact List.mem_append_right _ (List.mem_singleton.mpr rfl)
            · exact absurd h2 hDw.2
        · exfalso
          have hvdone := adjReaches_closed hF.twf.done_closed hwv ⟨hDw.1, hws⟩
          exact hvdone.2 hF.v_mem
    have hCnodup : (parts ++ [v]).Nodup :=
      List.nodup_append.mpr ⟨hndc.1, List.nodup_singleton v,
        fun a ha hav => hvp (List.mem_singleton.mp hav ▸ ha)⟩
    have honst : List.filter (fun x => decide (x ∉ parts ++ [v])) st.onStack
        = st0.stack := by
      rw [hF.twf.onStack_eq, hF.stack_eq, List.filter_append, List.filter_cons]
      have h1 : List.filter (fun x => decide (x ∉ parts ++ [v])) parts = [] := by
        rw [List.filter_eq_nil_iff]
        intro a ha
        simp only [decide_eq_true_eq]
        exact not_not_intro (List.mem_append_left _ ha)
      have h2 : decide (v ∉ parts ++ [v]) = false := by
        simp only [decide_eq_false_iff_not]
        exact not_not_intro (List.mem_append_right _ (List.mem_singleton.mpr rfl))
      have h3 : List.filter (fun x => decide (x ∉ parts ++ [v])) st0.stack
          = st0.stack := by
        rw [List.filter_eq_self]
        intro a ha
        simp only [decide_eq_true_eq]
        exact fun hc => hCnotold a hc ha
      rw [h1, h2, h3]
      simp
    obtain ⟨comps, hc1, hc2, hc3, hc4⟩ := hF.twf.comps_ex
    have htwf' : TWF adj n indexToId idToNode
        { st with stack := (parts ++ [v], st0.stack).2, onStack := st.onStack.filter (fun x => x ∉ (parts ++ [v], st0.stack).1), cycles := if 1 < (parts ++ [v], st0.stack).1.length then st.cycles ++ [cycleOfScc indexToId idToNode (parts ++ [v], st0.stack).1] else st.cycles } := by
      refine ⟨?_, ?_, ?_, hF.twf.visited_lt, hF.twf.num_lt_idx, hF.twf.num_inj,
        hF.twf.num_surj, ?_, ?_, ?_, ?_⟩
      · exact honst
      · intro y hy
        exact hF.twf.stack_visited y
          (hF.stack_eq ▸ List.mem_append_right _ (List.mem_cons_of_mem _ hy))
      · exact (List.pairwise_cons.mp (List.pairwise_append.mp hsort).2.1).2
      · intro y hy
        exact hF.twf.low_le y
          (hF.stack_eq ▸ List.mem_append_right _ (List.mem_cons_of_mem _ hy))
      · intro y hy
        obtain ⟨z, hz, hzn, hzr⟩ := hF.twf.low_wit y
          (hF.stack_eq ▸ List.mem_append_right _ (List.mem_cons_of_mem _ hy))
        have hznum : numOf st z < numOf st v := by
          rw [hzn]
          exact lt_of_le_of_lt
            (hF.twf.low_le y (hF.stack_eq ▸
              List.mem_append_right _ (List.mem_cons_of_mem _ hy)))
            (htail y hy)
        rw [hF.stack_eq] at hz
        rcases List.mem_append.mp hz with h | h
        · exact absurd hznum (not_lt.mpr (le_of_lt (hF.v_num ▸ hF.parts_num z h)))
        · rcases List.mem_cons.mp h with h2 | h2
          · rw [h2] at hznum
            exact absurd hznum (lt_irrefl _)
          · exact ⟨z, h2, hzn, hzr⟩
      · intro u hu w hw
        exact hD u hu w hw
      · refine ⟨comps ++ [parts ++ [v]], ?_, ?_, ?_, ?_⟩
        · show (if 1 < (parts ++ [v]).length then
              st.cycles ++ [cycleOfScc indexToId idToNode (parts ++ [v])]
              else st.cycles) = _
          rw [List.filter_append, List.map_append, ← hc1]
          by_cases hlen : 1 < (parts ++ [v]).length
          · rw [if_pos hlen]
            have hlen' : 0 < parts.length := by
              rw [List.length_append, List.length_singleton] at hlen
              omega
            simp [List.filter_singleton, hlen']
          · rw [if_neg hlen]
            have hlen' : ¬ 0 < parts.length := by
              rw [List.length_append, List.length_singleton] at hlen
              omega
            simp [List.filter_singleton, hlen']
        · intro C hC
          rcases List.mem_append.mp hC with h | h
          · obtain ⟨hnd2, hdone2, hclass2⟩ := hc2 C h
            refine ⟨hnd2, ?_, hclass2⟩
            intro x hx
            have hx2 := hdone2 x hx
            exact ⟨hx2.1, fun hxo => hx2.2 (hF.stack_eq ▸
              List.mem_append_right _ (List.mem_cons_of_mem _ hxo))⟩
          · rw [List.mem_singleton.mp h]
            exact ⟨hCnodup, fun x hx => ⟨hCvis x hx, hCnotold x hx⟩,
              v, List.mem_append_right _ (List.mem_singleton.mpr rfl), hclassC⟩
        · intro u hu
          by_cases hus : u ∈ st.stack
          · have hu' : u ∈ parts ∨ u = v := by
              rw [hF.stack_eq] at hus
              rcases List.mem_append.mp hus with h | h
              · exact Or.inl h
              · rcases List.mem_cons.mp h with h2 | h2
                · exact Or.inr h2
                · exact absurd h2 hu.2
            refine ⟨parts ++ [v], List.mem_append_right _ (List.mem_singleton.mpr rfl), ?_⟩
            rcases hu' with h | h
            · exact List.mem_append_left _ h
            · rw [h]
              exact List.mem_append_right _ (List.mem_singleton.mpr rfl)
          · obtain ⟨C, hC, huC⟩ := hc3 u ⟨hu.1, hus⟩
            exact ⟨C, List.mem_append_left _ hC, huC⟩
        · refine List.pairwise_append.mpr ⟨hc4, List.pairwise_singleton _ _, ?_⟩
          intro c hc d hd x hxc hxd
          have hxdone := (hc2 c hc).2.1 x hxc
          rw [List.mem_singleton.mp hd] at hxd
          exact hxdone.2 (hCmem x hxd)
    refine ⟨htwf', ?_, ?_, ?_, hF.idx_gt, hF.v_vis, hF.v_num, hF.new_reach,
      [], ?_, ?_, ?_, ?_, ?_, ?_, ?_, Or.inl rfl, ?_⟩
    · intro u hu; exact hF.vis_mono u hu
    · intro u hu; exact hF.num_pres u hu
    · intro u hu; exact hF.low_pres u hu
    · rfl
    · intro y hy; exact absurd hy (List.not_mem_nil y)
    · intro y hy; exact absurd hy (List.not_mem_nil y)
    · intro y hy; exact absurd hy (List.not_mem_nil y)
    · intro y hy; exact absurd hy (List.not_mem_nil y)
    · intro y hy; exact absurd hy (List.not_mem_nil y)
    · intro y hy; exact absurd hy (List.not_mem_nil y)
    · intro _; exact hclose'

/-- The successor loop of `strongConnect v` maintains the loop invariant,
processing each successor through one of the three edge cases. -/
lemma finv_fold {adj : List (List Nat)} {n : Nat} {indexToId : List String}
    {idToNode : List (String × GraphNode)} {fuel v : Nat} {st0 : TarjanState}
    (hadj : adjBounded adj n)
    (hfuel : n ≤ fuel + 1 + st0.idx)
    (hpre : ∀ y ∈ st0.stack, adjReaches adj y v)
    (IH : ∀ v' st', n ≤ fuel + st'.idx → TWF adj n indexToId idToNode st' →
      ¬ visitedIn st' v' → v' < n →
      (∀ y ∈ st'.stack, adjReaches adj y v') →
      SCPost adj n indexToId idToNode v' st'
        (strongConnect adj indexToId idToNode fuel v' st')) :
    ∀ (l procd : List Nat), (∀ w ∈ l, w ∈ succsOf adj v) →
      ∀ st parts, FInv adj n indexToId idToNode v st0 st parts procd →
      ∃ parts', FInv adj n indexToId idToNode v st0
        (l.foldl (tarjanEdgeStep (strongConnect adj indexToId idToNode fuel) v) st)
        parts' (procd ++ l) := by
  intro l
  induction l with
  | nil =>
    intro procd _ st parts hF
    rw [List.append_nil]
    exact ⟨parts, hF⟩
  | cons w ws ihl =>
    intro procd hl st parts hF
    have hw : w ∈ succsOf adj v := hl w (List.mem_cons_self w ws)
    have hstep : ∃ parts1, FInv adj n indexToId idToNode v st0
        (tarjanEdgeStep (strongConnect adj indexToId idToNode fuel) v st w)
        parts1 (procd ++ [w]) := by
      unfold tarjanEdgeStep
      by_cases hwvis : (mapGet st.indexMap w).isNone = true
      · rw [if_pos hwvis]
        have hnv : ¬ visitedIn st w := by
          rw [visitedIn, Option.isNone_iff_eq_none.mp hwvis]
          simp
        have hpre' : ∀ y ∈ st.stack, adjReaches adj y w := by
          intro y hy
          rw [hF.stack_eq] at hy
          rcases List.mem_append.mp hy with h | h
          · exact adjReaches_trans (hF.parts_reach hpre y h) (adjReaches_single hw)
          · rcases List.mem_cons.mp h with h2 | h2
            · exact h2 ▸ adjReaches_single hw
            · exact adjReaches_trans (hpre y h2) (adjReaches_single hw)
        have hfuel' : n ≤ fuel + st.idx := by
          have := hF.idx_gt
          omega
        have hpost := IH w st hfuel' hF.twf hnv (hadj v w hw) hpre'
        exact finv_edge_recurse hF hw hpost
      · have hwv : visitedIn st w := by
          cases hm : mapGet st.indexMap w with
          | none => exact absurd (by rw [hm]; rfl) hwvis
          | some a => rw [visitedIn, hm]; rfl
        rw [if_neg hwvis]
        by_cases hwon : w ∈ st.onStack
        · rw [if_pos hwon]
          exact ⟨parts, finv_edge_onstack hF hw hwon⟩
        · rw [if_neg hwon]
          exact ⟨parts, finv_edge_done hF hwv hwon⟩
    obtain ⟨parts1, h1⟩ := hstep
    obtain ⟨parts', h2⟩ :=
      ihl (procd ++ [w]) (fun u hu => hl u (List.mem_cons_of_mem _ hu)) _ parts1 h1
    rw [List.append_assoc] at h2
    exact ⟨parts', h2⟩

/-- The full specification of `strongConnect`: run with enough fuel on an
unvisited vertex reachable from the whole stack, it preserves the global
invariant and satisfies the postcondition. -/
lemma strongConnect_spec {adj : List (List Nat)} {n : Nat} {indexToId : List String}
    {idToNode : List (String × GraphNode)} (hadj : adjBounded adj n) :
    ∀ fuel v st, n ≤ fuel + st.idx → TWF adj n indexToId idToNode st →
      ¬ visitedIn st v → v < n →
      (∀ y ∈ st.stack, adjReaches adj y v) →
      SCPost adj n indexToId idToNode v st
        (strongConnect adj indexToId idToNode fuel v st) := by
  intro fuel
  induction fuel with
  | zero =>
    intro v st hfuel htwf hnv hvn _
    exact absurd (all_visited_of_idx_ge htwf (by omega) v hvn) hnv
  | succ fuel IH =>
    intro v st hfuel htwf hnv hvn hpre
    have hF0 := finv_visit htwf hnv hvn
    obtain ⟨parts, hF⟩ := finv_fold hadj (by omega) hpre IH (succsOf adj v) []
      (fun w hw => hw) (tarjanVisit v st) [] hF0
    exact finv_close hF

/-- From an empty stack, `strongConnect` always leaves an empty stack:
a surviving new part would put the root's strict lowlink below every new
index, contradicting the lowlink witness. -/
lemma scpost_stack_empty {adj : List (List Nat)} {n : Nat} {indexToId : List String}
    {idToNode : List (String × GraphNode)} {v : Nat} {st st' : TarjanState}
    (hpost : SCPost adj n indexToId idToNode v st st') (hempty : st.stack = []) :
    st'.stack = [] := by
  obtain ⟨np, hnp⟩ := hpost.np_ex
  rcases hnp.np_shape with h | ⟨q, hq⟩
  · rw [hnp.stack_eq, h, hempty]
    rfl
  · exfalso
    have hv : v ∈ np := hq ▸ List.mem_append_right q (List.mem_singleton.mpr rfl)
    have hvs : v ∈ st'.stack := hnp.stack_eq ▸ List.mem_append_left _ hv
    obtain ⟨z, hz, hzn, _⟩ := hpost.twf.low_wit v hvs
    have hznp : z ∈ np := by
      rw [hnp.stack_eq, hempty, List.append_nil] at hz
      exact hz
    have h2 : lowOf st' v < numOf st' v := hnp.np_strict v hv
    have h3 : st.idx ≤ numOf st' z := hnp.np_num z hznp
    have h4 : numOf st' v = st.idx := hpost.v_num
    omega

/-- The driver loop of the Tarjan pass preserves the invariant and the
empty stack, visits monotonically, and visits every processed index. -/
lemma tarjanRun_loop {adj : List (List Nat)} {n : Nat} {indexToId : List String}
    {idToNode : List (String × GraphNode)} (hadj : adjBounded adj n) :
    ∀ (l : List Nat) (st : TarjanState), (∀ i ∈ l, i < n) →
      TWF adj n indexToId idToNode st → st.stack = [] →
      TWF adj n indexToId idToNode
        (l.foldl (fun s i => if (mapGet s.indexMap i).isNone then strongConnect adj indexToId idToNode n i s else s) st)
      ∧ (l.foldl (fun s i => if (mapGet s.indexMap i).isNone then strongConnect adj indexToId idToNode n i s else s) st).stack = []
      ∧ (∀ u, visitedIn st u → visitedIn (l.foldl (fun s i => if (mapGet s.indexMap i).isNone then strongConnect adj indexToId idToNode n i s else s) st) u)
      ∧ (∀ i ∈ l, visitedIn (l.foldl (fun s i => if (mapGet s.indexMap i).isNone then strongConnect adj indexToId idToNode n i s else s) st) i) := by
  intro l
  induction l with
  | nil =>
    intro st _ htwf hempty
    exact ⟨htwf, hempty, fun u hu => hu, fun i hi => absurd hi (List.not_mem_nil i)⟩
  | cons i is ih =>
    intro st hl htwf hempty
    rw [List.foldl_cons]
    by_cases hiv : (mapGet st.indexMap i).isNone = true
    · rw [if_pos hiv]
      have hnv : ¬ visitedIn st i := by
        rw [visitedIn, Option.isNone_iff_eq_none.mp hiv]; simp
      have hpre : ∀ y ∈ st.stack, adjReaches adj y i := by
        rw [hempty]; intro y hy; exact absurd hy (List.not_mem_nil y)
      have hpost := strongConnect_spec hadj n i st (by omega) htwf hnv
        (hl i (List.mem_cons_self i is)) hpre
      have hempty1 := scpost_stack_empty hpost hempty
      obtain ⟨h1, h2, h3, h4⟩ := ih (strongConnect adj indexToId idToNode n i st)
        (fun j hj => hl j (List.mem_cons_of_mem _ hj)) hpost.twf hempty1
      refine ⟨h1, h2, fun u hu => h3 u (hpost.vis_mono u hu), ?_⟩
      intro j hj
      rcases List.mem_cons.mp hj with h | h
      · exact h ▸ h3 i hpost.v_vis
      · exact h4 j h
    · rw [if_neg hiv]
      have hvi : visitedIn st i := by
        cases hm : mapGet st.indexMap i with
        | none => exact absurd (by rw [hm]; rfl) hiv
        | some a => rw [visitedIn, hm]; rfl
      obtain ⟨h1, h2, h3, h4⟩ := ih st
        (fun j hj => hl j (List.mem_cons_of_mem _ hj)) htwf hempty
      refine ⟨h1, h2, h3, ?_⟩
      intro j hj
      rcases List.mem_cons.mp hj with h | h
      · exact h ▸ h3 i hvi
      · exact h4 j h

/-- All indices stored by the id-to-index map are positions in the node
list. -/
lemma tarjanIdToIndex_bound (nodes : List GraphNode) :
    ∀ p ∈ tarjanIdToIndex nodes, p.2 < nodes.length := by
  rw [tarjanIdToIndex]
  refine foldl_preserves (fun (m : List (String × Nat)) => ∀ p ∈ m, p.2 < nodes.length) _ nodes.enum [] ?_ ?_
  · intro m pr hpr hm p hp
    rcases List.mem_cons.mp hp with h | h
    · rw [h]
      have hg := List.mem_enum_iff_getElem?.mp hpr
      obtain ⟨hlt, _⟩ := List.getElem?_eq_some.mp hg
      exact hlt
    · exact hm p h
  · intro p hp; exact absurd hp (List.not_mem_nil p)

/-- A successful id-to-index lookup is a position in the node list. -/
lemma mapGet_tarjanIdToIndex_lt {nodes : List GraphNode} {s : String} {i : Nat}
    (h : mapGet (tarjanIdToIndex nodes) s = some i) : i < nodes.length := by
  obtain ⟨p, hp, hpe⟩ := List.mem_map.mp (mapGet_mem_values h)
  exact hpe ▸ tarjanIdToIndex_bound nodes p hp

/-- The adjacency structure built from the edges only points at node
positions. -/
lemma buildAdj_bounded (nodes : List GraphNode) (edges : List GraphEdge) :
    adjBounded (buildAdj nodes edges) nodes.length := by
  have hinv : ∀ l ∈ buildAdj nodes edges, ∀ w ∈ l, w < nodes.length := by
    rw [buildAdj]
    refine foldl_preserves (fun (adj : List (List Nat)) => ∀ l ∈ adj, ∀ w ∈ l, w < nodes.length) _ edges _ ?_ ?_
    · intro adj e he hadj l hl w hw
      cases hsi : mapGet (tarjanIdToIndex nodes) e.source with
      | none =>
        rw [hsi] at hl
        exact hadj l hl w hw
      | some si =>
        rw [hsi] at hl
        cases hti : mapGet (tarjanIdToIndex nodes) e.target with
        | none =>
          rw [hti] at hl
          exact hadj l hl w hw
        | some ti =>
          rw [hti] at hl
          dsimp only at hl
          by_cases hne : si ≠ ti
          · rw [if_pos hne] at hl
            rcases List.mem_or_eq_of_mem_set hl with h | h
            · exact hadj l h w hw
            · rw [h] at hw
              rcases List.mem_append.mp hw with h2 | h2
              · cases hg : adj.get? si with
                | none => rw [hg] at h2; exact absurd h2 (List.not_mem_nil w)
                | some lo =>
                  rw [hg] at h2
                  exact hadj lo (List.get?_mem hg) w h2
              · rw [List.mem_singleton.mp h2]
                exact mapGet_tarjanIdToIndex_lt hti
          · rw [if_neg hne] at hl
            exact hadj l hl w hw
    · intro l hl w hw
      rw [List.eq_of_mem_replicate hl] at hw
      exact absurd hw (List.not_mem_nil w)
  intro v w hw
  rw [succsOf] at hw
  cases hg : (buildAdj nodes edges).get? v with
  | none => rw [hg] at hw; exact absurd hw (List.not_mem_nil w)
  | some l =>
    rw [hg] at hw
    exact hinv l (List.get?_mem hg) w hw

/-- After the full Tarjan pass, some component list explains the state,
and it covers every vertex. -/
lemma tarjanRun_comps {adj : List (List Nat)} {n : Nat} (indexToId : List String)
    (idToNode : List (String × GraphNode)) (hadj : adjBounded adj n) :
    ∃ comps, compsOK adj n indexToId idToNode (tarjanRun adj indexToId idToNode n) comps
      ∧ ∀ v, v < n → ∃ C ∈ comps, v ∈ C := by
  obtain ⟨htwf, hempty, _, hvis⟩ := tarjanRun_loop hadj (List.range n) tarjanInit
    (fun i hi => List.mem_range.mp hi) (twf_init adj n indexToId idToNode) rfl
  have htwf' : TWF adj n indexToId idToNode (tarjanRun adj indexToId idToNode n) := htwf
  have hempty' : (tarjanRun adj indexToId idToNode n).stack = [] := hempty
  obtain ⟨comps, hOK⟩ := htwf'.comps_ex
  refine ⟨comps, hOK, ?_⟩
  intro v hv
  refine hOK.2.2.1 v ⟨?_, ?_⟩
  · exact hvis v (List.mem_range.mpr hv)
  · rw [hempty']
    exact List.not_mem_nil v

-- ───────────────────────────────────────────────────────────────────
-- Claim theorems
-- ───────────────────────────────────────────────────────────────────

/-- Claim C7 (amended): whenever the recursive scan fails, the engine
returns — without raising an error — a graph with empty node, edge,
circular-dependency and top fan-in/fan-out lists, carrying the stats
accumulated up to the failure point; those stats are fully zeroed when the
root itself cannot be listed.  (The original claim's "zeroed stats" only
holds in the unlistable-root case; see the counterexample.) -/
theorem c7_scan_failure_empty_graph (P : AnalyzerParams) (rootPath : String)
    (rootEntries : Option (List FSTree))
    (hfail : (scanRoot P rootPath rootEntries).2 = false) :
    (analyzeRepoDependencies P rootPath rootEntries).nodes = [] ∧
    (analyzeRepoDependencies P rootPath rootEntries).edges = [] ∧
    (analyzeRepoDependencies P rootPath rootEntries).circularDependencies = [] ∧
    (analyzeRepoDependencies P rootPath rootEntries).highFanInIds = [] ∧
    (analyzeRepoDependencies P rootPath rootEntries).highFanOutIds = [] ∧
    (analyzeRepoDependencies P rootPath rootEntries).stats =
      (scanRoot P rootPath rootEntries).1.stats ∧
    (rootEntries = none → (analyzeRepoDependencies P rootPath rootEntries).stats =
      ({} : ProjectStats)) := by
  unfold analyzeRepoDependencies
  dsimp only
  rw [hfail]
  refine ⟨rfl, rfl, rfl, rfl, rfl, rfl, ?_⟩
  intro h
  subst h
  rfl

/-- Counterexample to C7 as stated: a root with one readable source file
followed by an unreadable subdirectory makes the scan fail, and the engine
returns the empty graph with the partially-accumulated stats
(`totalFiles = 1`), not zeroed stats. -/
theorem c7_zeroed_stats_counterexample :
    (scanRoot (tableParams []) "/repo" c7Tree).2 = false ∧
    c7Graph.nodes = [] ∧ c7Graph.edges = [] ∧
    ¬ (c7Graph.stats = ({} : ProjectStats)) ∧ c7Graph.stats.totalFiles = 1 := by
  decide

/-- Witness for C7: the amended theorem applied to a concrete unreadable
subdirectory. -/
theorem c7_scan_failure_witness :
    (scanRoot (tableParams []) "/repoz" (some [FSTree.dir "sub" none])).2 = false ∧
    (analyzeRepoDependencies (tableParams []) "/repoz" (some [FSTree.dir "sub" none])).nodes = [] ∧
    (analyzeRepoDependencies (tableParams []) "/repoz" (some [FSTree.dir "sub" none])).edges = [] ∧
    (analyzeRepoDependencies (tableParams []) "/repoz"
      (some [FSTree.dir "sub" none])).circularDependencies = [] ∧
    (analyzeRepoDependencies (tableParams []) "/repoz"
      (some [FSTree.dir "sub" none])).highFanInIds = [] ∧
    (analyzeRepoDependencies (tableParams []) "/repoz"
      (some [FSTree.dir "sub" none])).highFanOutIds = [] ∧
    (analyzeRepoDependencies (tableParams []) "/repoz" (some [FSTree.dir "sub" none])).stats =
      (scanRoot (tableParams []) "/repoz" (some [FSTree.dir "sub" none])).1.stats :=
  ⟨by decide,
   ((c7_scan_failure_empty_graph (tableParams []) "/repoz" (some [FSTree.dir "sub" none])
      (by decide)).1),
   ((c7_scan_failure_empty_graph (tableParams []) "/repoz" (some [FSTree.dir "sub" none])
      (by decide)).2).1,
   ((c7_scan_failure_empty_graph (tableParams []) "/repoz" (some [FSTree.dir "sub" none])
      (by decide)).2).2.1,
   ((c7_scan_failure_empty_graph (tableParams []) "/repoz" (some [FSTree.dir "sub" none])
      (by decide)).2).2.2.1,
   ((c7_scan_failure_empty_graph (tableParams []) "/repoz" (some [FSTree.dir "sub" none])
      (by decide)).2).2.2.2.1,
   ((c7_scan_failure_empty_graph (tableParams []) "/repoz" (some [FSTree.dir "sub" none])
      (by decide)).2).2.2.2.2.1⟩

/-- Claim C8: the scanner stops at the hard cap — a directory loop entered
with the counter already above `MAX_FILES` records nothing and returns its
state unchanged — and the total file count of any returned graph never
exceeds `MAX_FILES + 1` (the one-file overshoot of the post-increment
check). -/
theorem c8_scan_cap (P : AnalyzerParams) (rootPath : String)
    (rootEntries : Option (List FSTree)) :
    (∀ (cur : String) (entries : List FSTree) (st : ScanState),
        MAX_FILES < st.stats.totalFiles → scanList P rootPath cur entries st = (st, true)) ∧
    (analyzeRepoDependencies P rootPath rootEntries).stats.totalFiles ≤ MAX_FILES + 1 := by
  constructor
  · intro cur entries st hcap
    exact scanEntries_stop P rootPath cur entries st hcap
  · unfold analyzeRepoDependencies
    cases rootEntries with
    | none => simp [scanRoot, initScanState]
    | some entries =>
      have hinv := scanEntries_totalFiles_le P rootPath rootPath entries initScanState
        (by simp [initScanState])
      rw [scanRoot]
      simp only [scanList] at hinv ⊢
      by_cases hok :
          (scanEntry.scanEntries P rootPath rootPath entries initScanState).2 = true
      · rw [if_pos hok, analyzeScanned_totalFiles]
        exact hinv
      · rw [if_neg hok]
        exact hinv

/-- Witness for C8: a loop entered with the counter at 5001 is a no-op,
and the concrete one-file analysis respects the bound. -/
theorem c8_scan_cap_witness :
    scanList (tableParams []) "/r" "/r" [FSTree.file "x.ts" ""]
      { stats := { totalFiles := 5001 }, nodes := [], fileMap := [], contentMap := [] } =
      ({ stats := { totalFiles := 5001 }, nodes := [], fileMap := [], contentMap := [] }, true) ∧
    (analyzeRepoDependencies (tableParams []) "/r"
      (some [FSTree.file "x.ts" ""])).stats.totalFiles ≤ MAX_FILES + 1 :=
  ⟨(c8_scan_cap (tableParams []) "/r" (some [FSTree.file "x.ts" ""])).1 "/r"
      [FSTree.file "x.ts" ""]
      { stats := { totalFiles := 5001 }, nodes := [], fileMap := [], contentMap := [] }
      (by decide),
   (c8_scan_cap (tableParams []) "/r" (some [FSTree.file "x.ts" ""])).2⟩

/-- Claim C9: for every file content with a line assigning a 10-character
quoted literal to a variable named `apiKey` — the line containing no
placeholder marker — `scanForSecurityIssues` emits exactly one
hardcoded-secret insight for that line, with severity critical and the
1-based line number of that line. -/
theorem c9_hardcoded_secret_insight (fp content : String) (i : Nat)
    (pre s post : List Char)
    (hline : (splitOnChar '\n' content.data).get? i =
      some (pre ++ "apiKey = ".data ++ [dq] ++ s ++ [dq] ++ post))
    (hlen : s.length = 10)
    (hq : ∀ c ∈ s, c ≠ sq ∧ c ≠ dq)
    (hph : hasPlaceholderMarker (pre ++ "apiKey = ".data ++ [dq] ++ s ++ [dq] ++ post) = false) :
    (scanForSecurityIssues fp content).filter
        (fun ins => decide (ins.type = InsightType.hardcodedSecret) &&
          decide (ins.line = i + 1)) =
      [{ type := InsightType.hardcodedSecret, filePath := fp, line := i + 1
       , severity := Severity.critical
       , message := "Potential hardcoded secret detected" }] := by
  have key := filter_scanLines_secret fp (splitOnChar '\n' content.data) 0 i _ hline
  simp only [Nat.zero_add] at key
  rw [scanForSecurityIssues, key]
  have hm : secretLineTest (pre ++ "apiKey = ".data ++ [dq] ++ s ++ [dq] ++ post) = true := by
    rw [secretLineTest]
    have hshape : pre ++ "apiKey = ".data ++ [dq] ++ s ++ [dq] ++ post =
        pre ++ ("apiKey = ".data ++ [dq] ++ s ++ [dq] ++ post) := by simp
    have ht : testMatch secretMatcher
        (pre ++ "apiKey = ".data ++ [dq] ++ s ++ [dq] ++ post) = true := by
      rw [testMatch, hshape]
      refine anyMatch_of_suffix ?_ pre _ none ?_
      · intro p q l
        rfl
      · rw [secretMatcher_matches none s post (by omega) hq]
        rfl
    rw [ht, hph]
    rfl
  rw [hm]
  simp

/-- Witness for C9: a concrete one-line file with a 10-character `apiKey`
literal yields exactly the one critical insight at line 1. -/
theorem c9_hardcoded_secret_witness :
    (splitOnChar '\n' "const apiKey = \x22s3cr3tval0\x22".data).get? 0 =
      some ("const ".data ++ "apiKey = ".data ++ [dq] ++ "s3cr3tval0".data ++ [dq] ++ []) ∧
    (scanForSecurityIssues "config.ts" "const apiKey = \x22s3cr3tval0\x22").filter
        (fun ins => decide (ins.type = InsightType.hardcodedSecret) &&
          decide (ins.line = 0 + 1)) =
      [{ type := InsightType.hardcodedSecret, filePath := "config.ts", line := 0 + 1
       , severity := Severity.critical
       , message := "Potential hardcoded secret detected" }] :=
  ⟨by decide,
   c9_hardcoded_secret_insight "config.ts" "const apiKey = \x22s3cr3tval0\x22" 0
     "const ".data "s3cr3tval0".data [] (by decide) (by decide) (by decide) (by decide)⟩

/-- Claim C10: for every input content, the comment ratio computed by
`calculateCodeMetrics` lies in `[0, 1]`: every comment line has non-blank
trimmed content and is therefore also counted in `linesOfCode`
(`commentLines ≤ linesOfCode`), and the ratio is `0` when `linesOfCode`
is `0`. -/
theorem c10_commentRatio_in_unit_interval (content : String) :
    (calculateCodeMetrics content).commentLines ≤ (calculateCodeMetrics content).linesOfCode ∧
    0 ≤ (calculateCodeMetrics content).commentRatio ∧
    (calculateCodeMetrics content).commentRatio ≤ 1 ∧
    ((calculateCodeMetrics content).linesOfCode = 0 →
      (calculateCodeMetrics content).commentRatio = 0) := by
  set m := calculateCodeMetrics content with hm
  have hle : m.commentLines ≤ m.linesOfCode := by
    rw [hm, calculateCodeMetrics]
    simp only
    rw [← List.countP_eq_length_filter, ← List.countP_eq_length_filter]
    apply List.countP_mono_left
    intro l _ hl
    simpa using trim_ne_nil_of_isCommentLine hl
  refine ⟨hle, ?_, ?_, ?_⟩
  · rw [CodeMetrics.commentRatio]
    split
    · positivity
    · exact le_refl 0
  · rw [CodeMetrics.commentRatio]
    split
    · rename_i hpos
      rw [div_le_one (by exact_mod_cast hpos)]
      exact_mod_cast hle
    · norm_num
  · intro h0
    rw [CodeMetrics.commentRatio, h0]
    norm_num

/-- **C1.** For every node set and edge set given to
`findCircularDependencies`, the returned list of circular dependencies
contains exactly the strongly-connected components of the directed edge
graph over node indices (unknown endpoints dropped and self-edges
excluded, as `buildAdj` builds it) that have two or more member nodes:
some component list `comps` consists of pairwise-disjoint
mutual-reachability classes covering every SCC of the graph, and the
reported cycles are precisely the components with more than one member,
each listing its member ids and their path labels in discovery order. -/
theorem c1_tarjan_scc (nodes : List GraphNode) (edges : List GraphEdge)
    (idToNode : List (String × GraphNode)) :
    ∃ comps : List (List Nat),
      findCircularDependencies nodes edges idToNode
        = (comps.filter (fun c => 1 < c.length)).map
            (cycleOfScc (nodes.map (fun nd => nd.id)) idToNode)
      ∧ (∀ C ∈ comps, C.Nodup ∧ isSCC (buildAdj nodes edges) nodes.length {w | w ∈ C})
      ∧ comps.Pairwise (fun c d => ∀ x ∈ c, x ∉ d)
      ∧ (∀ s : Set Nat, isSCC (buildAdj nodes edges) nodes.length s →
          ∃ C ∈ comps, s = {w | w ∈ C})
      ∧ (∀ C ∈ comps, 1 < C.length →
          { ids := C.map (fun i => ((nodes.get? i).map (fun nd => nd.id)).getD "")
          , pathLabels := C.map (fun i =>
              match mapGet idToNode (((nodes.get? i).map (fun nd => nd.id)).getD "") with
              | some node => node.path
              | none => pathBasename (((nodes.get? i).map (fun nd => nd.id)).getD "")) :
            CircularDependency }
            ∈ findCircularDependencies nodes edges idToNode) := by
  obtain ⟨comps, ⟨hc1, hc2, hc3, hc4⟩, hcover⟩ :=
    tarjanRun_comps (nodes.map (fun nd => nd.id)) idToNode (buildAdj_bounded nodes edges)
  have hcyc : findCircularDependencies nodes edges idToNode
      = (comps.filter (fun c => 1 < c.length)).map
          (cycleOfScc (nodes.map (fun nd => nd.id)) idToNode) := hc1
  have hlabel : ∀ C : List Nat, cycleOfScc (nodes.map (fun nd => nd.id)) idToNode C
      = { ids := C.map (fun i => ((nodes.get? i).map (fun nd => nd.id)).getD "")
        , pathLabels := C.map (fun i =>
            match mapGet idToNode (((nodes.get? i).map (fun nd => nd.id)).getD "") with
            | some node => node.path
            | none => pathBasename (((nodes.get? i).map (fun nd => nd.id)).getD "")) } := by
    intro C
    rw [cycleOfScc]
    congr 1
    · exact List.map_congr_left (fun i _ => by rw [List.get?_eq_getElem?, List.get?_eq_getElem?, List.getElem?_map])
    · exact List.map_congr_left (fun i _ => by rw [List.get?_eq_getElem?, List.get?_eq_getElem?, List.getElem?_map])
  refine ⟨comps, hcyc, ?_, hc4, ?_, ?_⟩
  · intro C hC
    obtain ⟨hnd, _, r, hr, hiff⟩ := hc2 C hC
    refine ⟨hnd, r, ((hiff r).mp hr).1, ?_⟩
    ext w
    exact hiff w
  · intro s hs
    obtain ⟨r, hrn, hseq⟩ := hs
    obtain ⟨C, hC, hrC⟩ := hcover r hrn
    obtain ⟨_, _, r', hr', hiff⟩ := hc2 C hC
    have hrr' : sameSCC (buildAdj nodes edges) r' r := ((hiff r).mp hrC).2
    refine ⟨C, hC, ?_⟩
    rw [hseq]
    ext w
    simp only [Set.mem_setOf_eq]
    rw [hiff w]
    constructor
    · rintro ⟨hwn, hsw⟩
      exact ⟨hwn, sameSCC_trans hrr' hsw⟩
    · rintro ⟨hwn, hsw⟩
      exact ⟨hwn, sameSCC_trans (sameSCC_symm hrr') hsw⟩
  · intro C hC hlen
    rw [hcyc, ← hlabel C]
    exact List.mem_map_of_mem _ (List.mem_filter.mpr ⟨hC, by simpa using hlen⟩)

end CodeAtlas
